import Mathlib

/-!
# Verification of `trabalho_completo.cpp`

Shallow embedding of the instrumented containers of `src/trabalho_completo.cpp`
(`LinearArray`, `BinarySearchTree`, `AVLTree`, `HashTable`), of the sampling
helper, of `ExperimentResult::getStatistics` and of the row writers of
`saveResults`, and proofs of their specified properties.

Modelling conventions.

* `std::unique_ptr<Node>` is an inductive tree whose `null` constructor is `nullptr`.
* The `mutable long iterations` member is reset at the start of every public
  operation and returned at its end, so it is threaded through the private
  helpers as an explicit counter and returned next to the result.
* A C++ operation with undefined behaviour (null dereference, out-of-range
  `operator[]`, `% 0`) or a thrown exception yields `none`.
* `int` keys are `Int`; no arithmetic is performed on keys except by the hash
  functions, whose results stay far below `2^31` for keys that fit an `int`.
  Counters (`long iterations`, `size_t size_count`, `int collisions`,
  `int total_elements`) are only ever incremented and are modelled as `Nat`.
* A returned `Record*` is modelled by the record it points to (`Option Record`).
* A `double` is the rational it denotes; an operation on `double`s rounds its
  exact result to binary64 (`Double.round`).
* The `long` accumulator of `getStatistics` is an `Int` checked against the 64-bit
  range (signed overflow is undefined); `long` and `size_t` have 64 bits.
* A line written to a CSV file is the `String` of its characters without the
  final newline.
-/

/-! ## Record (lines 68-84) -/

/-- The `Record` struct: `matricula` is the key, the other fields are payload. -/
structure Record where
  matricula : Int
  nome : String
  salario : Float
  codigo_setor : Int

/-! ## AVL tree (lines 283-417) -/

/-- An owning pointer to an `AVLNode`; `null` is `nullptr`, `height` the cached field. -/
inductive AVLNode where
  | null : AVLNode
  | node (record : Record) (left right : AVLNode) (height : Int) : AVLNode

namespace AVLNode

/-- In-order sequence of the stored records. -/
def inorder : AVLNode → List Record
  | null => []
  | node rec l r _ => inorder l ++ rec :: inorder r

/-- In-order sequence of the stored keys. -/
def keys (t : AVLNode) : List Int := (inorder t).map Record.matricula

/-- True recursive height: empty = 0, otherwise one more than the taller child. -/
def trueHeight : AVLNode → Nat
  | null => 0
  | node _ l r _ => 1 + max (trueHeight l) (trueHeight r)

/-- Every node satisfies `|height(left) - height(right)| ≤ 1` for the true heights. -/
def Balanced : AVLNode → Prop
  | null => True
  | node _ l r _ =>
      Balanced l ∧ Balanced r ∧ |(trueHeight l : Int) - (trueHeight r : Int)| ≤ 1

/-- Every node's cached `height` field equals the true height of its subtree. -/
def Cached : AVLNode → Prop
  | null => True
  | node _ l r h =>
      Cached l ∧ Cached r ∧ h = ((1 + max (trueHeight l) (trueHeight r) : Nat) : Int)

/-- The search-tree ordering at every node: keys of the left subtree are below the
node's key, keys of the right subtree are above it. -/
def Ordered : AVLNode → Prop
  | null => True
  | node rec l r _ =>
      Ordered l ∧ Ordered r ∧ (∀ k ∈ keys l, k < rec.matricula) ∧
        (∀ k ∈ keys r, rec.matricula < k)

end AVLNode

namespace AVLTree

/-- `AVLTree::getHeight` (lines 299-301). -/
def getHeight : AVLNode → Int
  | .null => 0
  | .node _ _ _ h => h

/-- `AVLTree::getBalance` (lines 303-305). -/
def getBalance : AVLNode → Int
  | .null => 0
  | .node _ l r _ => getHeight l - getHeight r

/-- `AVLTree::rotateRight` (lines 307-318). Dereferencing a null `z` or a null
`z->left` is undefined behaviour (`none`). -/
def rotateRight (z : AVLNode) (iterations : Nat) : Option (AVLNode × Nat) :=
  match z with
  | .node zrec (.node yrec yl yr _) zr _ =>
      let z1 := AVLNode.node zrec yr zr (1 + max (getHeight yr) (getHeight zr))
      some (AVLNode.node yrec yl z1 (1 + max (getHeight yl) (getHeight z1)), iterations + 1)
  | _ => none

/-- `AVLTree::rotateLeft` (lines 320-331). Dereferencing a null `z` or a null
`z->right` is undefined behaviour (`none`). -/
def rotateLeft (z : AVLNode) (iterations : Nat) : Option (AVLNode × Nat) :=
  match z with
  | .node zrec zl (.node yrec yl yr _) _ =>
      let z1 := AVLNode.node zrec zl yl (1 + max (getHeight zl) (getHeight yl))
      some (AVLNode.node yrec z1 yr (1 + max (getHeight z1) (getHeight yr)), iterations + 1)
  | _ => none

/-- Lines 349-378 of `AVLTree::insertRecursive`: the part executed after the
recursive call returned, on the node `rec` with children `l` and `r`. The four
sequential `if`s of the source test `balance > 1` or `balance < -1` first, which
exclude each other, so they are grouped by that test; `node->left->record` is read
only when `balance > 1` and `node->right->record` only when `balance < -1`. -/
def rebalance (rec : Record) (l r : AVLNode) (record : Record) (iterations : Nat) :
    Option (AVLNode × Nat) :=
  let h := 1 + max (getHeight l) (getHeight r)
  let balance := getBalance (AVLNode.node rec l r h)
  if balance > 1 then
    match l with
    | .null => none
    | .node lrec _ _ _ =>
        if record.matricula < lrec.matricula then
          rotateRight (AVLNode.node rec l r h) iterations
        else if record.matricula > lrec.matricula then
          match rotateLeft l iterations with
          | none => none
          | some (l1, it1) => rotateRight (AVLNode.node rec l1 r h) it1
        else some (AVLNode.node rec l r h, iterations)
  else if balance < -1 then
    match r with
    | .null => none
    | .node rrec _ _ _ =>
        if record.matricula > rrec.matricula then
          rotateLeft (AVLNode.node rec l r h) iterations
        else if record.matricula < rrec.matricula then
          match rotateRight r iterations with
          | none => none
          | some (r1, it1) => rotateLeft (AVLNode.node rec l r1 h) it1
        else some (AVLNode.node rec l r h, iterations)
  else some (AVLNode.node rec l r h, iterations)

/-- `AVLTree::insertRecursive` (lines 333-379); the counter is incremented on entry. -/
def insertRecursive (node : AVLNode) (record : Record) (iterations : Nat) :
    Option (AVLNode × Nat) :=
  match node with
  | .null => some (AVLNode.node record .null .null 1, iterations + 1)
  | .node rec l r h =>
      if record.matricula < rec.matricula then
        match insertRecursive l record (iterations + 1) with
        | none => none
        | some (l1, it1) => rebalance rec l1 r record it1
      else if record.matricula > rec.matricula then
        match insertRecursive r record (iterations + 1) with
        | none => none
        | some (r1, it1) => rebalance rec l r1 record it1
      else some (AVLNode.node rec l r h, iterations + 1)

/-- `AVLTree::searchRecursive` (lines 381-393). -/
def searchRecursive (node : AVLNode) (matricula : Int) (iterations : Nat) :
    Option Record × Nat :=
  match node with
  | .null => (none, iterations)
  | .node rec l r _ =>
      if matricula = rec.matricula then (some rec, iterations + 1)
      else if matricula < rec.matricula then searchRecursive l matricula (iterations + 1)
      else searchRecursive r matricula (iterations + 1)

end AVLTree

/-- The data members of `class AVLTree` (lines 295-297). -/
structure AVLTree where
  root : AVLNode
  size_count : Nat

namespace AVLTree

/-- The constructor `AVLTree()` (line 396). -/
def empty : AVLTree := { root := .null, size_count := 0 }

/-- `AVLTree::insert` (lines 398-403): the new state and the returned count. -/
def insert (t : AVLTree) (record : Record) : Option (AVLTree × Nat) :=
  match insertRecursive t.root record 0 with
  | none => none
  | some (root1, it) => some ({ root := root1, size_count := t.size_count + 1 }, it)

/-- `AVLTree::search` (lines 405-409). -/
def search (t : AVLTree) (matricula : Int) : Option Record × Nat :=
  searchRecursive t.root matricula 0

/-- `AVLTree::height` (lines 411-413): the cached height of the root. -/
def height (t : AVLTree) : Int := getHeight t.root

/-- `AVLTree::size` (line 415). -/
def size (t : AVLTree) : Nat := t.size_count

/-- Inserting the records of a sequence one by one, as the runner's loop
`for (const auto& record : ...) avl.insert(record)` does. -/
def insertAll (t : AVLTree) : List Record → Option AVLTree
  | [] => some t
  | r :: rs =>
      match insert t r with
      | none => none
      | some (t1, _) => insertAll t1 rs

end AVLTree

/-! ## Linear scan shared by the vector-backed containers -/

/-- The range-`for` loop with early return that `LinearArray::search` (lines
187-193), `HashTable::insert` (lines 483-488) and `HashTable::search` (lines
499-506) run over a `std::vector<Record>`: every element examined increments the
counter, the first element whose key matches stops the loop. -/
def scanForKey : List Record → Int → Nat → Option Record × Nat
  | [], _, iterations => (none, iterations)
  | rec :: rest, matricula, iterations =>
      if rec.matricula = matricula then (some rec, iterations + 1)
      else scanForKey rest matricula (iterations + 1)

/-! ## Linear array (lines 171-198) -/

/-- The data member of `class LinearArray` (line 173). -/
structure LinearArray where
  data : List Record

namespace LinearArray

/-- The constructor `LinearArray()` (line 177). -/
def empty : LinearArray := { data := [] }

/-- `LinearArray::insert` (lines 179-183). -/
def insert (a : LinearArray) (record : Record) : LinearArray × Nat :=
  ({ data := a.data ++ [record] }, 1)

/-- `LinearArray::search` (lines 185-194). -/
def search (a : LinearArray) (matricula : Int) : Option Record × Nat :=
  scanForKey a.data matricula 0

/-- `LinearArray::size` (line 196). -/
def size (a : LinearArray) : Nat := a.data.length

/-- Inserting the records of a sequence one by one. -/
def insertAll (a : LinearArray) : List Record → LinearArray
  | [] => a
  | r :: rs => insertAll (insert a r).1 rs

end LinearArray

/-! ## Binary search tree (lines 204-277) -/

/-- An owning pointer to a `BSTNode`; `null` is `nullptr`. -/
inductive BSTNode where
  | null : BSTNode
  | node (record : Record) (left right : BSTNode) : BSTNode

namespace BSTNode

/-- In-order sequence of the stored records. -/
def inorder : BSTNode → List Record
  | null => []
  | node rec l r => inorder l ++ rec :: inorder r

/-- In-order sequence of the stored keys. -/
def keys (t : BSTNode) : List Int := (inorder t).map Record.matricula

/-- The search-tree ordering at every node: keys of the left subtree are below the
node's key, keys of the right subtree are above it. -/
def Ordered : BSTNode → Prop
  | null => True
  | node rec l r =>
      Ordered l ∧ Ordered r ∧ (∀ k ∈ keys l, k < rec.matricula) ∧
        (∀ k ∈ keys r, rec.matricula < k)

end BSTNode

namespace BinarySearchTree

/-- `BinarySearchTree::insertRecursive` (lines 219-234); the tree after the call
and the counter. -/
def insertRecursive (node : BSTNode) (record : Record) (iterations : Nat) : BSTNode × Nat :=
  match node with
  | .null => (BSTNode.node record .null .null, iterations + 1)
  | .node rec l r =>
      if record.matricula < rec.matricula then
        let res := insertRecursive l record (iterations + 1)
        (BSTNode.node rec res.1 r, res.2)
      else if record.matricula > rec.matricula then
        let res := insertRecursive r record (iterations + 1)
        (BSTNode.node rec l res.1, res.2)
      else (BSTNode.node rec l r, iterations + 1)

/-- `BinarySearchTree::searchRecursive` (lines 236-248). -/
def searchRecursive (node : BSTNode) (matricula : Int) (iterations : Nat) :
    Option Record × Nat :=
  match node with
  | .null => (none, iterations)
  | .node rec l r =>
      if matricula = rec.matricula then (some rec, iterations + 1)
      else if matricula < rec.matricula then searchRecursive l matricula (iterations + 1)
      else searchRecursive r matricula (iterations + 1)

/-- `BinarySearchTree::heightRecursive` (lines 250-253). -/
def heightRecursive : BSTNode → Int
  | .null => 0
  | .node _ l r => 1 + max (heightRecursive l) (heightRecursive r)

end BinarySearchTree

/-- The data members of `class BinarySearchTree` (lines 215-217). -/
structure BinarySearchTree where
  root : BSTNode
  size_count : Nat

namespace BinarySearchTree

/-- The constructor `BinarySearchTree()` (line 256). -/
def empty : BinarySearchTree := { root := .null, size_count := 0 }

/-- `BinarySearchTree::insert` (lines 258-263). -/
def insert (t : BinarySearchTree) (record : Record) : BinarySearchTree × Nat :=
  let res := insertRecursive t.root record 0
  ({ root := res.1, size_count := t.size_count + 1 }, res.2)

/-- `BinarySearchTree::search` (lines 265-269). -/
def search (t : BinarySearchTree) (matricula : Int) : Option Record × Nat :=
  searchRecursive t.root matricula 0

/-- `BinarySearchTree::height` (lines 271-273). -/
def height (t : BinarySearchTree) : Int := heightRecursive t.root

/-- `BinarySearchTree::size` (line 275). -/
def size (t : BinarySearchTree) : Nat := t.size_count

/-- Inserting the records of a sequence one by one. -/
def insertAll (t : BinarySearchTree) : List Record → BinarySearchTree
  | [] => t
  | r :: rs => insertAll (insert t r).1 rs

end BinarySearchTree

/-! ## IEEE-754 binary64 arithmetic used by `hashMultiplication`

A `double` value is represented by the rational it denotes. Every arithmetic
result is rounded to the nearest value with a 53-bit significand, ties to even.
Exponent range limits are not modelled: all magnitudes that arise from `int`
operands are either zero or lie between `2^-53` and `2^63`. -/

namespace Double

/-- Nearest integer, ties to the even one. -/
def roundHalfEven (x : Rat) : Int :=
  let f := ⌊x⌋
  let d := x - f
  if d < 1 / 2 then f else if 1 / 2 < d then f + 1 else if f % 2 = 0 then f else f + 1

/-- Rounding of a real result to binary64: the spacing of representable values
around `x` is `2 ^ (⌊log2 |x|⌋ - 52)`. -/
def round (x : Rat) : Rat :=
  if x = 0 then 0
  else
    let q := (2 : Rat) ^ (Int.log 2 |x| - 52)
    roundHalfEven (x / q) * q

/-- `static_cast<int>` of a `double`: truncation toward zero. -/
def trunc (x : Rat) : Int := if 0 ≤ x then ⌊x⌋ else ⌈x⌉

end Double

/-! ## Hash table (lines 423-543) -/

/-- The data members of `class HashTable` (lines 425-430). -/
structure HashTable where
  table : List (List Record)
  hash_function_name : String
  collisions : Nat
  total_elements : Nat
  table_size : Int

namespace HashTable

/-- `HashTable::hashDivision` (lines 432-434). C++ `%` truncates toward zero;
`% 0` and `INT_MIN % -1` are undefined. -/
def hashDivision (key table_size : Int) : Option Int :=
  if table_size = 0 ∨ (key = -2147483648 ∧ table_size = -1) then none
  else some (Int.tmod key table_size)

/-- The constant `A = 0.6180339887` of line 437 as a `double`. -/
def A : Rat := Double.round (6180339887 / 10000000000)

/-- `HashTable::hashMultiplication` (lines 436-441). The conversions of `key`
and `table_size` to `double` are exact for `int` operands. -/
def hashMultiplication (key table_size : Int) : Option Int :=
  let temp := Double.round ((key : Rat) * A)
  let temp := Double.round (temp - ⌊temp⌋)
  some (Double.trunc (Double.round ((table_size : Rat) * temp)))

/-- `std::to_string(int)` as a character sequence: decimal digits, most
significant first, preceded by `-` for a negative value. -/
def to_string (key : Int) : List Char :=
  if key < 0 then '-' :: Nat.toDigits 10 key.natAbs else Nat.toDigits 10 key.toNat

/-- The digits that `std::stoi` consumes: the longest prefix of decimal digits,
read in base 10; no digit at all is `std::invalid_argument` (`none`). -/
def stoiDigits (s : List Char) : Option Nat :=
  let ds := s.takeWhile Char.isDigit
  if ds = [] then none
  else some (ds.foldl (fun acc c => 10 * acc + (c.toNat - '0'.toNat)) 0)

/-- `std::stoi` on a chunk: an optional sign followed by digits. -/
def stoi (s : List Char) : Option Int :=
  match s with
  | '-' :: rest => (stoiDigits rest).map (fun n => -(n : Int))
  | '+' :: rest => (stoiDigits rest).map (fun n => (n : Int))
  | _ => (stoiDigits s).map (fun n => (n : Int))

/-- The loop of `hashFolding` (lines 448-451) over the part of `key_str` from
index `i` on: `substr(i, 3)` is the next three characters (fewer at the end). -/
def foldChunks : List Char → Int → Option Int
  | [], total => some total
  | c1 :: c2 :: c3 :: rest, total =>
      match stoi [c1, c2, c3] with
      | none => none
      | some v => foldChunks rest (total + v)
  | [c1, c2], total => (stoi [c1, c2]).map (fun v => total + v)
  | [c1], total => (stoi [c1]).map (fun v => total + v)

/-- `HashTable::hashFolding` (lines 443-454). -/
def hashFolding (key table_size : Int) : Option Int :=
  match foldChunks (to_string key) 0 with
  | none => none
  | some total => if table_size = 0 then none else some (Int.tmod total table_size)

/-- `HashTable::hashFunction` (lines 456-466). -/
def hashFunction (ht : HashTable) (key : Int) : Option Int :=
  if ht.hash_function_name = "division" then hashDivision key ht.table_size
  else if ht.hash_function_name = "multiplication" then hashMultiplication key ht.table_size
  else if ht.hash_function_name = "folding" then hashFolding key ht.table_size
  else hashDivision key ht.table_size

/-- The constructor `HashTable(size, hash_func)` (lines 469-471). A negative
`size` converts to a huge `size_t` and `std::vector` throws. -/
def init (size : Int) (hash_func : String) : Option HashTable :=
  if size < 0 then none
  else some { table := List.replicate size.toNat [], hash_function_name := hash_func,
              collisions := 0, total_elements := 0, table_size := size }

/-- `table[index]`: indexing outside the vector is undefined. -/
def bucketAt (ht : HashTable) (index : Int) : Option (List Record) :=
  if index < 0 then none else ht.table[index.toNat]?

/-- `HashTable::insert` (lines 473-493): the new state and the returned count. -/
def insert (ht : HashTable) (record : Record) : Option (HashTable × Nat) :=
  match hashFunction ht record.matricula with
  | none => none
  | some index =>
      match bucketAt ht index with
      | none => none
      | some bucket =>
          let collisions := if bucket.isEmpty then ht.collisions else ht.collisions + 1
          match scanForKey bucket record.matricula 1 with
          | (some _, iterations) => some ({ ht with collisions := collisions }, iterations)
          | (none, iterations) =>
              some ({ ht with table := ht.table.set index.toNat (bucket ++ [record]),
                              collisions := collisions,
                              total_elements := ht.total_elements + 1 }, iterations)

/-- `HashTable::search` (lines 495-507). -/
def search (ht : HashTable) (matricula : Int) : Option (Option Record × Nat) :=
  match hashFunction ht matricula with
  | none => none
  | some index =>
      match bucketAt ht index with
      | none => none
      | some bucket => some (scanForKey bucket matricula 1)

/-- `HashTable::getLoadFactor` (lines 509-511): a `double` division. With
`table_size = 0` the quotient is a NaN or an infinity, which denotes no rational
(`none`). -/
def getLoadFactor (ht : HashTable) : Option Rat :=
  if ht.table_size = 0 then none
  else some (Double.round ((ht.total_elements : Rat) / (ht.table_size : Rat)))

/-- `HashTable::getCollisionRate` (lines 513-515). -/
def getCollisionRate (ht : HashTable) : Rat :=
  if ht.total_elements = 0 then 0
  else Double.round ((ht.collisions : Rat) / (ht.total_elements : Rat))

/-- The loop of `getAverageChainLength` (lines 518-521) counting non-empty buckets. -/
def nonEmptyBuckets (ht : HashTable) : Nat :=
  ht.table.foldl (fun non_empty_buckets bucket =>
    if bucket.isEmpty then non_empty_buckets else non_empty_buckets + 1) 0

/-- `HashTable::getAverageChainLength` (lines 517-523). -/
def getAverageChainLength (ht : HashTable) : Rat :=
  if nonEmptyBuckets ht = 0 then 0
  else Double.round ((ht.total_elements : Rat) / (nonEmptyBuckets ht : Rat))

/-- `HashTable::getMaxChainLength` (lines 525-531). -/
def getMaxChainLength (ht : HashTable) : Nat :=
  ht.table.foldl (fun max_length bucket => max max_length bucket.length) 0

/-- `HashTable::size` (line 533). -/
def size (ht : HashTable) : Nat := ht.total_elements

/-- Inserting the records of a sequence one by one. -/
def insertAll (ht : HashTable) : List Record → Option HashTable
  | [] => some ht
  | r :: rs =>
      match insert ht r with
      | none => none
      | some (ht1, _) => insertAll ht1 rs

end HashTable

/-! ## Predicates used in the statements and proofs -/

namespace AVLNode

/-- The root of `t` compares unequal to `k` and the child on the side of `k`
is the taller one by exactly one. -/
def Leaning (t : AVLNode) (k : Int) : Prop :=
  match t with
  | null => False
  | node rec l r _ =>
      (k < rec.matricula ∧ trueHeight l = trueHeight r + 1) ∨
      (rec.matricula < k ∧ trueHeight r = trueHeight l + 1)

end AVLNode

namespace BSTNode

/-- The number of nodes visited on the descent for key `k`: the nodes on the path
from the root to the node holding `k`, inclusive, or the whole path down to the
empty subtree where the descent ends when it meets no node with key `k`. -/
def descentNodes : BSTNode → Int → Nat
  | null, _ => 0
  | node rec l r, k =>
      if k = rec.matricula then 1
      else if k < rec.matricula then 1 + descentNodes l k
      else 1 + descentNodes r k

/-- A right-leaning chain: every node has an empty left subtree. -/
def RightChain : BSTNode → Prop
  | null => True
  | node _ l r => l = null ∧ RightChain r

end BSTNode

namespace AVLNode

/-- The number of nodes visited on the descent for key `k` (as for `BSTNode`). -/
def descentNodes : AVLNode → Int → Nat
  | null, _ => 0
  | node rec l r _, k =>
      if k = rec.matricula then 1
      else if k < rec.matricula then 1 + descentNodes l k
      else 1 + descentNodes r k

/-- The shape and the records of a tree: the tree without its `height` fields. -/
def shape : AVLNode → BSTNode
  | null => BSTNode.null
  | node rec l r _ => BSTNode.node rec (shape l) (shape r)

end AVLNode

namespace AVLTree

/-- The number of `rotateLeft`/`rotateRight` calls made by lines 349-378 of
`insertRecursive` on the node `rec` with children `l` and `r`: one in the
left-left and right-right cases, two in the left-right and right-left cases. -/
def rotationsOfRebalance (rec : Record) (l r : AVLNode) (record : Record) : Nat :=
  let h := 1 + max (getHeight l) (getHeight r)
  let balance := getBalance (AVLNode.node rec l r h)
  if balance > 1 then
    match l with
    | .null => 0
    | .node lrec _ _ _ =>
        if record.matricula < lrec.matricula then 1
        else if record.matricula > lrec.matricula then 2
        else 0
  else if balance < -1 then
    match r with
    | .null => 0
    | .node rrec _ _ _ =>
        if record.matricula > rrec.matricula then 1
        else if record.matricula < rrec.matricula then 2
        else 0
  else 0

/-- The number of `rotateLeft`/`rotateRight` calls made during
`insertRecursive(node, record)`, summed over all levels of the recursion. -/
def rotationsOfInsert : AVLNode → Record → Nat
  | .null, _ => 0
  | .node rec l r _, record =>
      if record.matricula < rec.matricula then
        match insertRecursive l record 0 with
        | none => 0
        | some (l1, _) => rotationsOfInsert l record + rotationsOfRebalance rec l1 r record
      else if record.matricula > rec.matricula then
        match insertRecursive r record 0 with
        | none => 0
        | some (r1, _) => rotationsOfInsert r record + rotationsOfRebalance rec l r1 record
      else 0

/-- The number of nodes on the insertion path at which lines 349-378 of
`insertRecursive(node, record)` rotate (the rebalanced ancestors). -/
def rebalancedNodes : AVLNode → Record → Nat
  | .null, _ => 0
  | .node rec l r _, record =>
      if record.matricula < rec.matricula then
        match insertRecursive l record 0 with
        | none => 0
        | some (l1, _) =>
            rebalancedNodes l record +
              (if rotationsOfRebalance rec l1 r record = 0 then 0 else 1)
      else if record.matricula > rec.matricula then
        match insertRecursive r record 0 with
        | none => 0
        | some (r1, _) =>
            rebalancedNodes r record +
              (if rotationsOfRebalance rec l r1 record = 0 then 0 else 1)
      else 0

end AVLTree

/-! ## Experiment results and their export (lines 86-99, 549-575, 811-893) -/

/-- The `PerformanceMetrics` struct (lines 86-99); `double` fields are the
rationals they denote. -/
structure PerformanceMetrics where
  execution_time : Rat
  memory_usage_mb : Rat
  iterations : Int
  tree_height : Int
  load_factor : Rat
  collision_rate : Rat
  avg_chain_length : Rat
  max_chain_length : Int

/-- The value-initialised `PerformanceMetrics()`: every member is zero. -/
def PerformanceMetrics.zero : PerformanceMetrics :=
  ⟨0, 0, 0, 0, 0, 0, 0, 0⟩

/-- The `ExperimentResult` struct (lines 549-554); the `unordered_map` of
parameters is an association list. -/
structure ExperimentResult where
  structure_name : String
  data_size : Int
  operation : String
  rounds : List PerformanceMetrics
  parameters : List (String × String)

namespace ExperimentResult

/-- The accumulation `sum_iterations += round.iterations` (line 566) over the
rounds, in a `long`; signed overflow is undefined (`none`). -/
def sumIterations : List PerformanceMetrics → Int → Option Int
  | [], sum_iterations => some sum_iterations
  | round :: rest, sum_iterations =>
      if -9223372036854775808 ≤ sum_iterations + round.iterations ∧
          sum_iterations + round.iterations ≤ 9223372036854775807 then
        sumIterations rest (sum_iterations + round.iterations)
      else none

/-- The quotient `sum_iterations / rounds.size()` of line 571: the `long` is
converted to the unsigned 64-bit type of `size()`, divided, and the quotient is
converted back to `long`. -/
def divideBySize (sum_iterations : Int) (size : Nat) : Int :=
  let quotient := (sum_iterations % 18446744073709551616) / (size : Int)
  if quotient ≤ 9223372036854775807 then quotient else quotient - 18446744073709551616

/-- `ExperimentResult::getStatistics` (lines 556-574). -/
def getStatistics (er : ExperimentResult) : Option PerformanceMetrics :=
  if er.rounds.isEmpty then some PerformanceMetrics.zero
  else
    let sum_time := er.rounds.foldl (fun acc round => Double.round (acc + round.execution_time)) 0
    let sum_memory :=
      er.rounds.foldl (fun acc round => Double.round (acc + round.memory_usage_mb)) 0
    match sumIterations er.rounds 0 with
    | none => none
    | some sum_iterations =>
        some { PerformanceMetrics.zero with
          execution_time := Double.round (sum_time / Double.round (er.rounds.length : Rat)),
          memory_usage_mb := Double.round (sum_memory / Double.round (er.rounds.length : Rat)),
          iterations := divideBySize sum_iterations er.rounds.length }

/-- `parameters.at(key)`: throws `std::out_of_range` (`none`) for a missing key. -/
def parameterAt (er : ExperimentResult) (key : String) : Option String :=
  (er.parameters.find? (fun p => p.1 == key)).map (fun p => p.2)

end ExperimentResult

namespace SaveResults

/-- The decimal text of `scaled / 10 ^ precision`: integer part, and for a
positive precision a point and the fraction padded with zeros to `precision`
digits. -/
def formatDigits (precision scaled : Nat) : String :=
  let fraction := toString (scaled % 10 ^ precision)
  toString (scaled / 10 ^ precision) ++
    (if precision = 0 then ""
     else "." ++ String.mk (List.replicate (precision - fraction.length) '0') ++ fraction)

/-- A `double` written with `std::fixed` and `std::setprecision(precision)`:
the value rounded to `precision` decimals, ties to even. -/
def formatFixed (precision : Nat) (x : Rat) : String :=
  let digits := formatDigits precision (Double.roundHalfEven (|x| * (10 : Rat) ^ precision)).toNat
  if x < 0 then "-" ++ digits else digits

/-- The header line of the summary table (lines 816-817), without the newline. -/
def summaryHeader : String :=
  "structure,data_size,operation,mean_time,memory_usage_mb,mean_iterations," ++
  "hash_table_size,hash_function,load_factor,collision_rate,avg_chain_length," ++
  "max_chain_length,balanced,tree_height"

/-- The structure-specific columns of a summary row (lines 830-852). The stream
is still in `std::fixed` mode with precision 3 from line 826. -/
def summaryTail (result : ExperimentResult) : Option String :=
  if result.structure_name = "HashTable" then
    match result.parameterAt "M", result.parameterAt "hash_function" with
    | some m, some hash_function =>
        some (m ++ "," ++ hash_function ++ "," ++
          (match result.rounds with
           | round :: _ =>
               formatFixed 3 round.load_factor ++ "," ++
               formatFixed 3 round.collision_rate ++ "," ++
               formatFixed 3 round.avg_chain_length ++ "," ++
               toString round.max_chain_length ++ ","
           | [] => "0,0,0,0,") ++ ",")
    | _, _ => none
  else if result.structure_name = "BST" ∨ result.structure_name = "AVL" then
    match result.parameterAt "balanced" with
    | some balanced =>
        some (",,,,,,," ++ balanced ++ "," ++
          (match result.rounds with
           | round :: _ => toString round.tree_height
           | [] => ""))
    | none => none
  else some (",,,,,,," ++ ",")

/-- One data row of the summary table (lines 820-853), without the newline. -/
def summaryRow (result : ExperimentResult) : Option String :=
  match result.getStatistics with
  | none => none
  | some stats =>
      match summaryTail result with
      | none => none
      | some tail =>
          some (result.structure_name ++ "," ++ toString result.data_size ++ "," ++
            result.operation ++ "," ++ formatFixed 6 stats.execution_time ++ "," ++
            formatFixed 3 stats.memory_usage_mb ++ "," ++ toString stats.iterations ++ "," ++
            tail)

/-- The header line of the per-round detail table (lines 858-859), without the
newline. -/
def detailHeader : String :=
  "structure,data_size,operation,round,execution_time,memory_usage_mb,iterations," ++
  "hash_table_size,hash_function,load_factor,collision_rate,avg_chain_length," ++
  "max_chain_length,balanced,tree_height"

/-- The structure-specific columns of a detail row (lines 874-890). -/
def detailTail (result : ExperimentResult) (round : PerformanceMetrics) : Option String :=
  if result.structure_name = "HashTable" then
    match result.parameterAt "M", result.parameterAt "hash_function" with
    | some m, some hash_function =>
        some (m ++ "," ++ hash_function ++ "," ++
          formatFixed 3 round.load_factor ++ "," ++
          formatFixed 3 round.collision_rate ++ "," ++
          formatFixed 3 round.avg_chain_length ++ "," ++
          toString round.max_chain_length ++ "," ++ ",")
    | _, _ => none
  else if result.structure_name = "BST" ∨ result.structure_name = "AVL" then
    match result.parameterAt "balanced" with
    | some balanced => some (",,,,,,," ++ balanced ++ "," ++ toString round.tree_height)
    | none => none
  else some (",,,,,,," ++ ",")

/-- The detail row written for round number `i` (0-based) of a result (lines
863-891), without the newline. -/
def detailRow (result : ExperimentResult) (i : Nat) (round : PerformanceMetrics) :
    Option String :=
  match detailTail result round with
  | none => none
  | some tail =>
      some (result.structure_name ++ "," ++ toString result.data_size ++ "," ++
        result.operation ++ "," ++ toString (i + 1) ++ "," ++
        formatFixed 6 round.execution_time ++ "," ++
        formatFixed 3 round.memory_usage_mb ++ "," ++ toString round.iterations ++ "," ++
        tail)

/-- Splitting of a character sequence at its commas; `current` holds the
characters of the field being read, last first. -/
def splitFields : List Char → List Char → List String
  | [], current => [String.mk current.reverse]
  | c :: rest, current =>
      if c = ',' then String.mk current.reverse :: splitFields rest []
      else splitFields rest (c :: current)

/-- The comma-separated fields of a line. -/
def fields (line : String) : List String := splitFields line.toList []

/-- The number of comma-separated fields of a line: one more than its commas. -/
def fieldCount (line : String) : Nat := (line.toList.filter (fun c => c == ',')).length + 1

end SaveResults

/-! ## Sampling without replacement (lines 51-66) -/

/-- A uniform random bit generator with state `σ`, as seen through
`std::uniform_int_distribution<difference_type>(0, b)(g)`: the drawn value and the
next generator state. -/
structure Urbg (σ : Type) where
  draw : σ → Int → Int × σ

/-- The `for` loop of `sample_records` (lines 59-64) on the input range from
`first` on; the elements written through `d_first` are returned in order.
Reaching `last` with `sample_size != 0`, or asking the distribution for an empty
range, is undefined behaviour (`none`). -/
def sampleLoop {α σ : Type} (g : Urbg σ) :
    List α → Int → Int → σ → Option (List α × σ)
  | [], sample_size, _, s => if sample_size = 0 then some ([], s) else none
  | x :: rest, sample_size, unsampled_sz, s =>
      if sample_size = 0 then some ([], s)
      else if unsampled_sz - 1 < 0 then none
      else
        if (g.draw s (unsampled_sz - 1)).1 < sample_size then
          match sampleLoop g rest (sample_size - 1) (unsampled_sz - 1)
              (g.draw s (unsampled_sz - 1)).2 with
          | none => none
          | some (out, s1) => some (x :: out, s1)
        else sampleLoop g rest sample_size (unsampled_sz - 1) (g.draw s (unsampled_sz - 1)).2

/-- `sample_records(first, last, d_first, n, g)` (lines 51-66): the sample written
to the output and the generator state afterwards. -/
def sample_records {α σ : Type} (g : Urbg σ) (input : List α) (n : Int) (s : σ) :
    Option (List α × σ) :=
  sampleLoop g input (min n (input.length : Int)) (input.length : Int) s

/-! ## Reference description of the folding hash -/

namespace FoldingReference

/-- The key written in decimal, most significant digit first (`0` is written `0`). -/
def decimalDigits (k : Nat) : List Nat :=
  if k = 0 then [0] else (Nat.digits 10 k).reverse

/-- The digit string split from the most significant digit into consecutive chunks
of 3 digits; the last chunk may have 1 or 2 digits. -/
def chunksOfThree : List Nat → List (List Nat)
  | [] => []
  | a :: b :: c :: rest => [a, b, c] :: chunksOfThree rest
  | [a, b] => [[a, b]]
  | [a] => [[a]]

/-- A chunk of digits read as an integer. -/
def chunkValue (ds : List Nat) : Nat := ds.foldl (fun acc d => 10 * acc + d) 0

/-- The sum of the chunks, reduced modulo the bucket count `m`. -/
def foldingReference (k : Nat) (m : Int) : Int :=
  ((((chunksOfThree (decimalDigits k)).map chunkValue).sum : Nat) : Int) % m

end FoldingReference

namespace HashTable

/-- The bucket vector has `table_size` entries and `table_size` is positive. -/
def WellFormed (ht : HashTable) : Prop :=
  0 < ht.table_size ∧ (ht.table.length : Int) = ht.table_size

/-- Every record found in bucket `i` hashes to `i` under the configured function. -/
def BucketsHashed (ht : HashTable) : Prop :=
  ∀ (i : Nat) (b : List Record), ht.table[i]? = some b →
    ∀ x ∈ b, hashFunction ht x.matricula = some (i : Int)

/-- All stored records, bucket after bucket. -/
def stored (ht : HashTable) : List Record := ht.table.flatten

/-- The number of `insert` calls, among those made for the records of a sequence
starting from the state `ht`, whose target bucket was non-empty at the moment of
the call. -/
def collidingCalls (ht : HashTable) : List Record → Nat
  | [] => 0
  | r :: rs =>
      match (hashFunction ht r.matricula).bind (bucketAt ht), insert ht r with
      | some bucket, some (ht1, _) =>
          (if bucket.isEmpty then 0 else 1) + collidingCalls ht1 rs
      | _, _ => 0

/-- The representation invariant of a `HashTable`. -/
def Inv (ht : HashTable) : Prop :=
  WellFormed ht ∧ BucketsHashed ht ∧ ht.total_elements = (stored ht).length

end HashTable

/-! ## Concrete inputs used to instantiate the theorems -/

namespace Sample

/-- A record with key 30. -/
def r30 : Record := ⟨30, "FUNC0", 2500.0, 1⟩

/-- A record with key 10. -/
def r10 : Record := ⟨10, "FUNC1", 3100.5, 2⟩

/-- A record with key 20. -/
def r20 : Record := ⟨20, "FUNC2", 4000.0, 3⟩

/-- Three records with pairwise distinct non-negative keys. -/
def records : List Record := [r30, r10, r20]

/-- The `n` records with the distinct keys 1000, ..., 1000 + n - 1, in that order. -/
def consecutive (n : Nat) : List Record :=
  (List.range n).map (fun (i : Nat) => Record.mk (1000 + (i : Int)) "FUNC" 2000.0 1)

/-- A record with key 100. -/
def r100 : Record := ⟨100, "FUNC0", 2500.0, 1⟩

/-- A record with key 200. -/
def r200 : Record := ⟨200, "FUNC1", 3100.5, 2⟩

/-- A record with key 300. -/
def r300 : Record := ⟨300, "FUNC2", 4000.0, 3⟩

/-- The state of `HashTable(100, "division")` after inserting `r100`, `r200`, `r300`. -/
def table100 : HashTable :=
  { table := [r100, r200, r300] :: List.replicate 99 [], hash_function_name := "division",
    collisions := 2, total_elements := 3, table_size := 100 }

/-- One measured round of a tree insertion: 0.001953125 s, 0.125 MB, 12345
iterations, tree height 17. -/
def treeRound : PerformanceMetrics :=
  ⟨1 / 512, 1 / 8, 12345, 17, 0, 0, 0, 0⟩

/-- The insert result of the BST experiment on 1000 records with one round. -/
def bstResult : ExperimentResult :=
  { structure_name := "BST", data_size := 1000, operation := "insert",
    rounds := [treeRound], parameters := [("balanced", "false")] }

/-- The insert result of the linear-array experiment on 1000 records with one round. -/
def arrayResult : ExperimentResult :=
  { structure_name := "LinearArray", data_size := 1000, operation := "insert",
    rounds := [treeRound], parameters := [] }

/-- One measured round of a hash-table insertion. -/
def hashRound : PerformanceMetrics :=
  ⟨1 / 512, 1 / 8, 1500, 0, 1 / 4, 1 / 8, 9 / 8, 3⟩

/-- The insert result of a hash-table experiment on 1000 records with one round. -/
def hashResult : ExperimentResult :=
  { structure_name := "HashTable", data_size := 1000, operation := "insert",
    rounds := [hashRound], parameters := [("M", "100"), ("hash_function", "division")] }

/-- Three rounds of a search experiment with 7, 8 and 10 iterations. -/
def searchResult : ExperimentResult :=
  { structure_name := "AVL", data_size := 100, operation := "search",
    rounds := [⟨1 / 512, 1 / 8, 7, 5, 0, 0, 0, 0⟩, ⟨1 / 512, 1 / 8, 8, 5, 0, 0, 0, 0⟩,
      ⟨1 / 512, 1 / 8, 10, 5, 0, 0, 0, 0⟩],
    parameters := [("balanced", "true")] }

/-- Three records with 9-digit keys, as the data generator draws them. -/
def nineDigit : List Record :=
  [⟨123456789, "FUNC0", 2500.0, 1⟩, ⟨100000000, "FUNC1", 3100.5, 2⟩,
    ⟨999999999, "FUNC2", 4000.0, 3⟩]

/-- A table of two buckets holding `r30` and `r10` in bucket 0 under the division hash. -/
def table2 : HashTable :=
  { table := [[r30, r10], []], hash_function_name := "division", collisions := 1,
    total_elements := 2, table_size := 2 }

end Sample

/-! ## Theorems -/

/-! ### AVL tree: in-order sequence and ordering -/

namespace AVLNode

theorem keys_node (rec : Record) (l r : AVLNode) (h : Int) :
    keys (node rec l r h) = keys l ++ rec.matricula :: keys r := by
  simp [keys, inorder]

theorem ordered_iff_pairwise (t : AVLNode) :
    Ordered t ↔ (keys t).Pairwise (· < ·) := by
  induction t with
  | null => simp [Ordered, keys, inorder]
  | node rec l r h ihl ihr =>
    rw [keys_node, List.pairwise_append, List.pairwise_cons, Ordered, ihl, ihr]
    constructor
    · rintro ⟨hl, hr, h1, h2⟩
      refine ⟨hl, ⟨h2, hr⟩, ?_⟩
      intro a ha b hb
      rcases List.mem_cons.1 hb with rfl | hb
      · exact h1 a ha
      · exact lt_trans (h1 a ha) (h2 b hb)
    · rintro ⟨hl, ⟨h2, hr⟩, h3⟩
      exact ⟨hl, hr, fun a ha => h3 a ha _ (List.mem_cons_self _ _), h2⟩

end AVLNode

namespace AVLTree
open AVLNode

theorem rotateRight_inorder {z t : AVLNode} {it it1 : Nat}
    (h : rotateRight z it = some (t, it1)) : inorder t = inorder z := by
  unfold rotateRight at h
  split at h
  · simp only [Option.some.injEq, Prod.mk.injEq] at h
    rw [← h.1]
    simp [inorder]
  · simp at h

theorem rotateLeft_inorder {z t : AVLNode} {it it1 : Nat}
    (h : rotateLeft z it = some (t, it1)) : inorder t = inorder z := by
  unfold rotateLeft at h
  split at h
  · simp only [Option.some.injEq, Prod.mk.injEq] at h
    rw [← h.1]
    simp [inorder]
  · simp at h

theorem rebalance_inorder {rec record : Record} {l r t : AVLNode} {it it1 : Nat}
    (h : rebalance rec l r record it = some (t, it1)) :
    inorder t = inorder l ++ rec :: inorder r := by
  unfold rebalance at h
  simp only at h
  split_ifs at h with h1 h2
  · split at h
    · simp at h
    · split_ifs at h with h3 h4
      · rw [rotateRight_inorder h]; simp [inorder]
      · split at h
        · simp at h
        · rename_i l1 it2 hl
          rw [rotateRight_inorder h]
          simp [inorder, rotateLeft_inorder hl]
      · simp only [Option.some.injEq, Prod.mk.injEq] at h
        rw [← h.1]; simp [inorder]
  · split at h
    · simp at h
    · split_ifs at h with h3 h4
      · rw [rotateLeft_inorder h]; simp [inorder]
      · split at h
        · simp at h
        · rename_i r1 it2 hr
          rw [rotateLeft_inorder h]
          simp [inorder, rotateRight_inorder hr]
      · simp only [Option.some.injEq, Prod.mk.injEq] at h
        rw [← h.1]; simp [inorder]
  · simp only [Option.some.injEq, Prod.mk.injEq] at h
    rw [← h.1]; simp [inorder]

end AVLTree

namespace AVLTree
open AVLNode

theorem mem_keys_iff {t : AVLNode} {k : Int} :
    k ∈ keys t ↔ ∃ x ∈ inorder t, x.matricula = k := by
  simp [keys]

theorem insertRecursive_inorder (record : Record) (t : AVLNode) :
    ∀ (it : Nat) (t1 : AVLNode) (it1 : Nat), Ordered t →
      insertRecursive t record it = some (t1, it1) →
      (record.matricula ∈ keys t ∧ inorder t1 = inorder t) ∨
      (record.matricula ∉ keys t ∧ ∃ pre post, inorder t = pre ++ post ∧
        inorder t1 = pre ++ record :: post ∧
        (∀ x ∈ pre, x.matricula < record.matricula) ∧
        (∀ x ∈ post, record.matricula < x.matricula)) := by
  induction t with
  | null =>
    intro it t1 it1 _ h
    simp only [insertRecursive, Option.some.injEq, Prod.mk.injEq] at h
    right
    refine ⟨by simp [keys, inorder], [], [], ?_⟩
    rw [← h.1]; simp [inorder]
  | node rec l r hh ihl ihr =>
    intro it t1 it1 ho h
    obtain ⟨hol, hor, hlt, hgt⟩ := ho
    rw [insertRecursive] at h
    split_ifs at h with h1 h2
    · split at h
      · simp at h
      · rename_i l1 it2 hl
        have hin := rebalance_inorder h
        rcases ihl _ _ _ hol hl with ⟨hmem, heq⟩ | ⟨hnot, pre, post, hpre, hpost, hb1, hb2⟩
        · left
          refine ⟨by rw [keys_node]; simp [hmem], ?_⟩
          rw [hin, heq]; simp [inorder]
        · right
          refine ⟨?_, pre, post ++ rec :: inorder r, ?_, ?_, hb1, ?_⟩
          · rw [keys_node]
            simp only [List.mem_append, List.mem_cons, not_or]
            refine ⟨hnot, ne_of_lt h1, fun hm => ?_⟩
            have := hgt _ hm
            omega
          · simp [inorder, hpre]
          · rw [hin, hpost]; simp
          · intro x hx
            rcases List.mem_append.1 hx with hx | hx
            · exact hb2 x hx
            · rcases List.mem_cons.1 hx with rfl | hx
              · exact h1
              · have := hgt _ (mem_keys_iff.2 ⟨x, hx, rfl⟩)
                omega
    · split at h
      · simp at h
      · rename_i r1 it2 hr
        have hin := rebalance_inorder h
        rcases ihr _ _ _ hor hr with ⟨hmem, heq⟩ | ⟨hnot, pre, post, hpre, hpost, hb1, hb2⟩
        · left
          refine ⟨by rw [keys_node]; simp [hmem], ?_⟩
          rw [hin, heq]; simp [inorder]
        · right
          refine ⟨?_, inorder l ++ rec :: pre, post, ?_, ?_, ?_, hb2⟩
          · rw [keys_node]
            simp only [List.mem_append, List.mem_cons, not_or]
            refine ⟨fun hm => ?_, ne_of_gt h2, hnot⟩
            have := hlt _ hm
            omega
          · simp [inorder, hpre]
          · rw [hin, hpost]; simp
          · intro x hx
            rcases List.mem_append.1 hx with hx | hx
            · have := hlt _ (mem_keys_iff.2 ⟨x, hx, rfl⟩)
              omega
            · rcases List.mem_cons.1 hx with rfl | hx
              · exact h2
              · exact hb1 x hx
    · left
      simp only [Option.some.injEq, Prod.mk.injEq] at h
      have hk : record.matricula = rec.matricula := by omega
      refine ⟨by rw [keys_node]; simp [hk], ?_⟩
      rw [← h.1]

theorem insertRecursive_ordered (record : Record) (t : AVLNode) (it : Nat)
    (t1 : AVLNode) (it1 : Nat) (ho : Ordered t)
    (h : insertRecursive t record it = some (t1, it1)) : Ordered t1 := by
  rcases insertRecursive_inorder record t it t1 it1 ho h with
    ⟨_, heq⟩ | ⟨_, pre, post, hpre, hpost, hb1, hb2⟩
  · rw [ordered_iff_pairwise, keys, heq]
    exact (ordered_iff_pairwise t).1 ho
  · have hs := (ordered_iff_pairwise t).1 ho
    rw [keys, hpre, List.map_append, List.pairwise_append] at hs
    rw [ordered_iff_pairwise, keys, hpost, List.map_append, List.map_cons,
      List.pairwise_append, List.pairwise_cons]
    obtain ⟨hs1, hs2, hs3⟩ := hs
    refine ⟨hs1, ⟨?_, hs2⟩, ?_⟩
    · intro a ha
      obtain ⟨x, hx, rfl⟩ := List.mem_map.1 ha
      exact hb2 x hx
    · intro a ha b hb
      obtain ⟨x, hx, rfl⟩ := List.mem_map.1 ha
      rcases List.mem_cons.1 hb with rfl | hb
      · exact hb1 x hx
      · exact hs3 _ ha _ hb

end AVLTree

/-! ### AVL tree: cached heights and balance -/

namespace AVLTree
open AVLNode

theorem getHeight_eq {t : AVLNode} (h : Cached t) : getHeight t = (trueHeight t : Int) := by
  cases t with
  | null => simp [getHeight, trueHeight]
  | node rec l r hh => simp only [getHeight, trueHeight]; exact h.2.2

theorem balanced_node (rec : Record) (l r : AVLNode) (h : Int) :
    Balanced (node rec l r h) ↔
      Balanced l ∧ Balanced r ∧ trueHeight l ≤ trueHeight r + 1 ∧
        trueHeight r ≤ trueHeight l + 1 := by
  rw [AVLNode.Balanced, abs_le]
  constructor
  · rintro ⟨h1, h2, h3, h4⟩; exact ⟨h1, h2, by omega, by omega⟩
  · rintro ⟨h1, h2, h3, h4⟩; exact ⟨h1, h2, by omega, by omega⟩


theorem getHeight_node (rec : Record) (l r : AVLNode) (h : Int) :
    getHeight (node rec l r h) = h := rfl

theorem getBalance_node (rec : Record) (l r : AVLNode) (h : Int) :
    getBalance (node rec l r h) = getHeight l - getHeight r := rfl

theorem rebalance_none (rec record : Record) (l r : AVLNode) (it : Nat)
    (h1 : ¬ (getHeight l - getHeight r > 1)) (h2 : ¬ (getHeight l - getHeight r < -1)) :
    rebalance rec l r record it =
      some (node rec l r (1 + max (getHeight l) (getHeight r)), it) := by
  simp only [rebalance, getBalance_node, h1, h2, if_false]

theorem rebalance_LL (rec record y : Record) (ya yb r : AVLNode) (yh : Int) (it : Nat)
    (h1 : yh - getHeight r > 1) (hk : record.matricula < y.matricula) :
    rebalance rec (node y ya yb yh) r record it =
      some (node y ya (node rec yb r (1 + max (getHeight yb) (getHeight r)))
        (1 + max (getHeight ya) (1 + max (getHeight yb) (getHeight r))), it + 1) := by
  simp only [rebalance, getBalance_node, getHeight_node, h1, if_true, hk, rotateRight]

theorem rebalance_LR (rec record y w : Record) (ya b1 b2 r : AVLNode) (yh wh : Int) (it : Nat)
    (h1 : yh - getHeight r > 1) (hk : y.matricula < record.matricula) :
    rebalance rec (node y ya (node w b1 b2 wh) yh) r record it =
      some (node w (node y ya b1 (1 + max (getHeight ya) (getHeight b1)))
        (node rec b2 r (1 + max (getHeight b2) (getHeight r)))
        (1 + max (1 + max (getHeight ya) (getHeight b1))
          (1 + max (getHeight b2) (getHeight r))), it + 2) := by
  have hnk : ¬ record.matricula < y.matricula := by omega
  simp only [rebalance, getBalance_node, getHeight_node, h1, if_true, hnk, if_false, gt_iff_lt, hk,
    rotateLeft, rotateRight]

theorem rebalance_RR (rec record y : Record) (l ya yb : AVLNode) (yh : Int) (it : Nat)
    (h1 : getHeight l - yh < -1) (hk : y.matricula < record.matricula) :
    rebalance rec l (node y ya yb yh) record it =
      some (node y (node rec l ya (1 + max (getHeight l) (getHeight ya))) yb
        (1 + max (1 + max (getHeight l) (getHeight ya)) (getHeight yb)), it + 1) := by
  have h0 : ¬ (getHeight l - yh > 1) := by omega
  simp only [rebalance, getBalance_node, getHeight_node, h0, h1, if_true, if_false, gt_iff_lt, hk,
    rotateLeft]

theorem rebalance_RL (rec record y w : Record) (l b1 b2 yb : AVLNode) (yh wh : Int) (it : Nat)
    (h1 : getHeight l - yh < -1) (hk : record.matricula < y.matricula) :
    rebalance rec l (node y (node w b1 b2 wh) yb yh) record it =
      some (node w (node rec l b1 (1 + max (getHeight l) (getHeight b1)))
        (node y b2 yb (1 + max (getHeight b2) (getHeight yb)))
        (1 + max (1 + max (getHeight l) (getHeight b1))
          (1 + max (getHeight b2) (getHeight yb))), it + 2) := by
  have h0 : ¬ (getHeight l - yh > 1) := by omega
  have hnk : ¬ y.matricula < record.matricula := by omega
  simp only [rebalance, getBalance_node, getHeight_node, h0, h1, if_true, hnk, if_false, gt_iff_lt, hk,
    rotateLeft, rotateRight]

theorem rebalance_spec (rec record : Record) (l r : AVLNode) (it : Nat)
    (hcl : Cached l) (hcr : Cached r) (hbl : Balanced l) (hbr : Balanced r)
    (hcase : (trueHeight l ≤ trueHeight r + 1 ∧ trueHeight r ≤ trueHeight l + 1) ∨
      (trueHeight l = trueHeight r + 2 ∧ Leaning l record.matricula) ∨
      (trueHeight r = trueHeight l + 2 ∧ Leaning r record.matricula)) :
    ∃ t1 it1, rebalance rec l r record it = some (t1, it1) ∧ Cached t1 ∧ Balanced t1 ∧
      ((trueHeight l ≤ trueHeight r + 1 ∧ trueHeight r ≤ trueHeight l + 1 ∧
          t1 = node rec l r ((1 + max (trueHeight l) (trueHeight r) : Nat) : Int)) ∨
        ((trueHeight l = trueHeight r + 2 ∨ trueHeight r = trueHeight l + 2) ∧
          trueHeight t1 = max (trueHeight l) (trueHeight r))) := by
  have hgl := getHeight_eq hcl
  have hgr := getHeight_eq hcr
  rcases hcase with ⟨h1, h2⟩ | ⟨h1, h2⟩ | ⟨h1, h2⟩
  · have e : (1 : Int) + max (getHeight l) (getHeight r) =
        ((1 + max (trueHeight l) (trueHeight r) : Nat) : Int) := by omega
    refine ⟨_, _, rebalance_none rec record l r it (by omega) (by omega), ?_, ?_, ?_⟩
    · exact ⟨hcl, hcr, e⟩
    · rw [balanced_node]; exact ⟨hbl, hbr, h1, h2⟩
    · left; exact ⟨h1, h2, by rw [e]⟩
  · cases l with
    | null => simp [Leaning] at h2
    | node y ya yb yh =>
      have hyh : yh = _ := hcl.2.2
      obtain ⟨hca, hcb, -⟩ := hcl
      rw [balanced_node] at hbl
      obtain ⟨hba, hbb, hab1, hab2⟩ := hbl
      have hga := getHeight_eq hca
      have hgb := getHeight_eq hcb
      simp only [trueHeight] at h1
      rcases h2 with ⟨hk, hh⟩ | ⟨hk, hh⟩
      · refine ⟨_, _, rebalance_LL rec record y ya yb r yh it (by omega) hk, ?_, ?_, ?_⟩
        · refine ⟨hca, ⟨hcb, hcr, ?_⟩, ?_⟩
          · omega
          · simp only [trueHeight]; omega
        · rw [balanced_node, balanced_node]
          simp only [trueHeight]
          refine ⟨hba, ⟨hbb, hbr, ?_, ?_⟩, ?_, ?_⟩ <;> omega
        · right
          simp only [trueHeight]
          omega
      · cases yb with
        | null => simp [trueHeight] at hh
        | node w b1 b2 wh =>
          obtain ⟨hc1, hc2, hwh⟩ := hcb
          rw [balanced_node] at hbb
          obtain ⟨hbb1, hbb2, hb12, hb21⟩ := hbb
          have hg1 := getHeight_eq hc1
          have hg2 := getHeight_eq hc2
          simp only [trueHeight] at h1 hh hab1 hab2 hyh
          refine ⟨_, _, rebalance_LR rec record y w ya b1 b2 r yh wh it (by omega) hk,
            ?_, ?_, ?_⟩
          · refine ⟨⟨hca, hc1, ?_⟩, ⟨hc2, hcr, ?_⟩, ?_⟩
            · omega
            · omega
            · simp only [trueHeight]; omega
          · rw [balanced_node, balanced_node, balanced_node]
            simp only [trueHeight]
            refine ⟨⟨hba, hbb1, ?_, ?_⟩, ⟨hbb2, hbr, ?_, ?_⟩, ?_, ?_⟩ <;> omega
          · right
            simp only [trueHeight]
            omega
  · cases r with
    | null => simp [Leaning] at h2
    | node y ya yb yh =>
      have hyh : yh = _ := hcr.2.2
      obtain ⟨hca, hcb, -⟩ := hcr
      rw [balanced_node] at hbr
      obtain ⟨hba, hbb, hab1, hab2⟩ := hbr
      have hga := getHeight_eq hca
      have hgb := getHeight_eq hcb
      simp only [trueHeight] at h1
      rcases h2 with ⟨hk, hh⟩ | ⟨hk, hh⟩
      · cases ya with
        | null => simp [trueHeight] at hh
        | node w b1 b2 wh =>
          obtain ⟨hc1, hc2, hwh⟩ := hca
          rw [balanced_node] at hba
          obtain ⟨hbb1, hbb2, hb12, hb21⟩ := hba
          have hg1 := getHeight_eq hc1
          have hg2 := getHeight_eq hc2
          simp only [trueHeight] at h1 hh hab1 hab2 hyh
          refine ⟨_, _, rebalance_RL rec record y w l b1 b2 yb yh wh it (by omega) hk,
            ?_, ?_, ?_⟩
          · refine ⟨⟨hcl, hc1, ?_⟩, ⟨hc2, hcb, ?_⟩, ?_⟩
            · omega
            · omega
            · simp only [trueHeight]; omega
          · rw [balanced_node, balanced_node, balanced_node]
            simp only [trueHeight]
            refine ⟨⟨hbl, hbb1, ?_, ?_⟩, ⟨hbb2, hbb, ?_, ?_⟩, ?_, ?_⟩ <;> omega
          · right
            simp only [trueHeight]
            omega
      · refine ⟨_, _, rebalance_RR rec record y l ya yb yh it (by omega) hk, ?_, ?_, ?_⟩
        · refine ⟨⟨hcl, hca, ?_⟩, hcb, ?_⟩
          · omega
          · simp only [trueHeight]; omega
        · rw [balanced_node, balanced_node]
          simp only [trueHeight]
          refine ⟨⟨hbl, hba, ?_, ?_⟩, hbb, ?_, ?_⟩ <;> omega
        · right
          simp only [trueHeight]
          omega

end AVLTree

namespace AVLTree
open AVLNode

theorem insertRecursive_spec (record : Record) (t : AVLNode) :
    Cached t → AVLNode.Balanced t → ∀ it : Nat, ∃ t1 it1,
      insertRecursive t record it = some (t1, it1) ∧ Cached t1 ∧ AVLNode.Balanced t1 ∧
        (trueHeight t1 = trueHeight t ∨
          (trueHeight t1 = trueHeight t + 1 ∧ (t = null ∨ Leaning t1 record.matricula))) := by
  induction t with
  | null =>
    intro _ _ it
    refine ⟨node record null null 1, it + 1, rfl, ⟨trivial, trivial, ?_⟩, ?_, ?_⟩
    · simp [trueHeight]
    · rw [balanced_node]; simp [AVLNode.Balanced]
    · right; simp [trueHeight]
  | node rec l r hh ihl ihr =>
    intro hc hb it
    have hhh : hh = _ := hc.2.2
    obtain ⟨hcl, hcr, -⟩ := hc
    rw [balanced_node] at hb
    obtain ⟨hbl, hbr, hlr, hrl⟩ := hb
    rw [insertRecursive]
    split_ifs with h1 h2
    · obtain ⟨l1, it2, hl, hcl1, hbl1, hh1⟩ := ihl hcl hbl (it + 1)
      rw [hl]
      have hcase : (trueHeight l1 ≤ trueHeight r + 1 ∧ trueHeight r ≤ trueHeight l1 + 1) ∨
          (trueHeight l1 = trueHeight r + 2 ∧ Leaning l1 record.matricula) ∨
          (trueHeight r = trueHeight l1 + 2 ∧ Leaning r record.matricula) := by
        rcases hh1 with e | ⟨e, hn | hlean⟩
        · left; omega
        · left; subst hn; simp only [trueHeight] at e hlr hrl; omega
        · by_cases hx : trueHeight l = trueHeight r + 1
          · right; left; exact ⟨by omega, hlean⟩
          · left; omega
      obtain ⟨t1, it1, hre, hct, hbt, hres⟩ := rebalance_spec rec record l1 r it2 hcl1 hcr hbl1 hbr hcase
      refine ⟨t1, it1, hre, hct, hbt, ?_⟩
      rcases hres with ⟨_, _, rfl⟩ | ⟨hrot, hth⟩
      · simp only [trueHeight, Leaning]
        rcases hh1 with e | ⟨e, _⟩
        · left; omega
        · by_cases hx : trueHeight l = trueHeight r
          · right; refine ⟨by omega, Or.inr (Or.inl ⟨h1, by omega⟩)⟩
          · left; omega
      · left
        simp only [trueHeight]
        omega
    · obtain ⟨r1, it2, hr, hcr1, hbr1, hh1⟩ := ihr hcr hbr (it + 1)
      rw [hr]
      have hcase : (trueHeight l ≤ trueHeight r1 + 1 ∧ trueHeight r1 ≤ trueHeight l + 1) ∨
          (trueHeight l = trueHeight r1 + 2 ∧ Leaning l record.matricula) ∨
          (trueHeight r1 = trueHeight l + 2 ∧ Leaning r1 record.matricula) := by
        rcases hh1 with e | ⟨e, hn | hlean⟩
        · left; omega
        · left; subst hn; simp only [trueHeight] at e hlr hrl; omega
        · by_cases hx : trueHeight r = trueHeight l + 1
          · right; right; exact ⟨by omega, hlean⟩
          · left; omega
      obtain ⟨t1, it1, hre, hct, hbt, hres⟩ := rebalance_spec rec record l r1 it2 hcl hcr1 hbl hbr1 hcase
      refine ⟨t1, it1, hre, hct, hbt, ?_⟩
      rcases hres with ⟨_, _, rfl⟩ | ⟨hrot, hth⟩
      · simp only [trueHeight, Leaning]
        rcases hh1 with e | ⟨e, _⟩
        · left; omega
        · by_cases hx : trueHeight l = trueHeight r
          · right; refine ⟨by omega, Or.inr (Or.inr ⟨h2, by omega⟩)⟩
          · left; omega
      · left
        simp only [trueHeight]
        omega
    · refine ⟨_, _, rfl, ⟨hcl, hcr, hhh⟩, ?_, Or.inl rfl⟩
      rw [balanced_node]; exact ⟨hbl, hbr, hlr, hrl⟩

end AVLTree

/-! ### AVL tree: sequences of insertions -/

namespace AVLTree
open AVLNode

theorem insert_spec (t : AVLTree) (record : Record)
    (hc : Cached t.root) (hb : AVLNode.Balanced t.root) (ho : Ordered t.root) :
    ∃ t1 it, insert t record = some (t1, it) ∧ Cached t1.root ∧ AVLNode.Balanced t1.root ∧
      Ordered t1.root ∧ t1.size_count = t.size_count + 1 ∧
      ((record.matricula ∈ keys t.root ∧ inorder t1.root = inorder t.root) ∨
        (record.matricula ∉ keys t.root ∧
          (inorder t1.root).Perm (record :: inorder t.root))) := by
  obtain ⟨r1, it1, hins, hc1, hb1, -⟩ := insertRecursive_spec record t.root hc hb 0
  refine ⟨{ root := r1, size_count := t.size_count + 1 }, it1, ?_, hc1, hb1,
    insertRecursive_ordered record t.root 0 r1 it1 ho hins, rfl, ?_⟩
  · simp only [insert, hins]
  · rcases insertRecursive_inorder record t.root 0 r1 it1 ho hins with
      ⟨hm, he⟩ | ⟨hm, pre, post, hpre, hpost, -, -⟩
    · exact Or.inl ⟨hm, he⟩
    · refine Or.inr ⟨hm, ?_⟩
      show (inorder r1).Perm _
      rw [hpost, hpre]
      exact List.perm_middle

theorem insertAll_spec (rs : List Record) : ∀ t : AVLTree,
    Cached t.root → AVLNode.Balanced t.root → Ordered t.root →
    ∃ t1, insertAll t rs = some t1 ∧ Cached t1.root ∧ AVLNode.Balanced t1.root ∧
      Ordered t1.root ∧ t1.size_count = t.size_count + rs.length ∧
      (∀ k, k ∈ keys t1.root ↔ k ∈ keys t.root ∨ k ∈ rs.map Record.matricula) := by
  induction rs with
  | nil =>
    intro t hc hb ho
    exact ⟨t, rfl, hc, hb, ho, rfl, by simp⟩
  | cons r rs ih =>
    intro t hc hb ho
    obtain ⟨t1, it, hins, hc1, hb1, ho1, hs1, hk⟩ := insert_spec t r hc hb ho
    obtain ⟨t2, hall, hc2, hb2, ho2, hs2, hk2⟩ := ih t1 hc1 hb1 ho1
    refine ⟨t2, ?_, hc2, hb2, ho2, ?_, ?_⟩
    · simp only [insertAll, hins, hall]
    · rw [hs2, hs1, List.length_cons]; omega
    · intro k
      rw [hk2 k, List.map_cons, List.mem_cons]
      rcases hk with ⟨hm, he⟩ | ⟨hm, hp⟩
      · rw [keys, he]
        constructor
        · rintro (h | h)
          · exact Or.inl h
          · exact Or.inr (Or.inr h)
        · rintro (h | h | h)
          · exact Or.inl h
          · exact Or.inl (h ▸ hm)
          · exact Or.inr h
      · have : k ∈ keys t1.root ↔ k = r.matricula ∨ k ∈ keys t.root := by
          rw [keys, (hp.map Record.matricula).mem_iff, List.map_cons, List.mem_cons]
          rfl
        rw [this]
        tauto

theorem insertAll_perm (rs : List Record) : ∀ t : AVLTree,
    Cached t.root → AVLNode.Balanced t.root → Ordered t.root →
    (rs.map Record.matricula).Nodup → (∀ r ∈ rs, r.matricula ∉ keys t.root) →
    ∃ t1, insertAll t rs = some t1 ∧ (inorder t1.root).Perm (rs ++ inorder t.root) := by
  induction rs with
  | nil =>
    intro t _ _ _ _ _
    exact ⟨t, rfl, by simp⟩
  | cons r rs ih =>
    intro t hc hb ho hnd hnot
    rw [List.map_cons, List.nodup_cons] at hnd
    obtain ⟨t1, it, hins, hc1, hb1, ho1, -, hk⟩ := insert_spec t r hc hb ho
    rcases hk with ⟨hm, -⟩ | ⟨-, hp⟩
    · exact absurd hm (hnot r (List.mem_cons_self _ _))
    · have hnot1 : ∀ x ∈ rs, x.matricula ∉ keys t1.root := by
        intro x hx hmem
        rw [keys, (hp.map Record.matricula).mem_iff, List.map_cons, List.mem_cons] at hmem
        rcases hmem with h | h
        · exact hnd.1 (h ▸ List.mem_map_of_mem _ hx)
        · exact hnot x (List.mem_cons_of_mem _ hx) h
      obtain ⟨t2, hall, hp2⟩ := ih t1 hc1 hb1 ho1 hnd.2 hnot1
      refine ⟨t2, by simp only [insertAll, hins, hall], ?_⟩
      refine hp2.trans ?_
      refine ((List.Perm.append_left rs hp).trans ?_)
      simp

end AVLTree

/-- C1: inserting any finite sequence of records one by one into an initially empty
`AVLTree` succeeds, and after every single insertion (that is, for every prefix of
the sequence) every node of the tree satisfies
`|height(left subtree) - height(right subtree)| ≤ 1` for the true recursive height. -/
theorem C1_avl_balanced_after_every_insertion (rs : List Record) (n : Nat) :
    ∃ t : AVLTree, AVLTree.insertAll AVLTree.empty (rs.take n) = some t ∧
      AVLNode.Balanced t.root := by
  obtain ⟨t, h, -, hb, -⟩ :=
    AVLTree.insertAll_spec (rs.take n) AVLTree.empty trivial trivial trivial
  exact ⟨t, h, hb⟩

/-- C2: inserting any finite sequence of records into an initially empty `AVLTree`
succeeds; the in-order traversal of the result lists keys in strictly ascending
order, its keys are exactly the keys of the sequence, and every node has all keys
of its left subtree below and all keys of its right subtree above its own key. -/
theorem C2_avl_inorder_strictly_ascending (rs : List Record) :
    ∃ t : AVLTree, AVLTree.insertAll AVLTree.empty rs = some t ∧
      (AVLNode.keys t.root).Pairwise (· < ·) ∧
      (∀ k, k ∈ AVLNode.keys t.root ↔ k ∈ rs.map Record.matricula) ∧
      AVLNode.Ordered t.root := by
  obtain ⟨t, h, -, -, ho, -, hk⟩ :=
    AVLTree.insertAll_spec rs AVLTree.empty trivial trivial trivial
  refine ⟨t, h, (AVLNode.ordered_iff_pairwise _).1 ho, ?_, ho⟩
  intro k
  rw [hk k]
  simp [AVLTree.empty, AVLNode.keys, AVLNode.inorder]

/-! ### Binary search tree -/

namespace BinarySearchTree
open BSTNode

theorem bst_keys_node (rec : Record) (l r : BSTNode) :
    keys (node rec l r) = keys l ++ rec.matricula :: keys r := by
  simp [keys, inorder]

theorem bst_mem_keys_iff {t : BSTNode} {k : Int} :
    k ∈ keys t ↔ ∃ x ∈ inorder t, x.matricula = k := by
  simp [keys]

theorem bst_ordered_iff_pairwise (t : BSTNode) :
    Ordered t ↔ (keys t).Pairwise (· < ·) := by
  induction t with
  | null => simp [Ordered, keys, inorder]
  | node rec l r ihl ihr =>
    rw [bst_keys_node, List.pairwise_append, List.pairwise_cons, Ordered, ihl, ihr]
    constructor
    · rintro ⟨hl, hr, h1, h2⟩
      refine ⟨hl, ⟨h2, hr⟩, ?_⟩
      intro a ha b hb
      rcases List.mem_cons.1 hb with rfl | hb
      · exact h1 a ha
      · exact lt_trans (h1 a ha) (h2 b hb)
    · rintro ⟨hl, ⟨h2, hr⟩, h3⟩
      exact ⟨hl, hr, fun a ha => h3 a ha _ (List.mem_cons_self _ _), h2⟩

theorem bst_insertRecursive_inorder (record : Record) (t : BSTNode) :
    ∀ it : Nat, Ordered t →
      (record.matricula ∈ keys t ∧ (insertRecursive t record it).1 = t) ∨
      (record.matricula ∉ keys t ∧ ∃ pre post, inorder t = pre ++ post ∧
        inorder (insertRecursive t record it).1 = pre ++ record :: post ∧
        (∀ x ∈ pre, x.matricula < record.matricula) ∧
        (∀ x ∈ post, record.matricula < x.matricula)) := by
  induction t with
  | null =>
    intro it _
    right
    refine ⟨by simp [keys, inorder], [], [], ?_⟩
    simp [insertRecursive, inorder]
  | node rec l r ihl ihr =>
    intro it ho
    obtain ⟨hol, hor, hlt, hgt⟩ := ho
    rw [insertRecursive]
    split_ifs with h1 h2
    · rcases ihl (it + 1) hol with ⟨hmem, heq⟩ | ⟨hnot, pre, post, hpre, hpost, hb1, hb2⟩
      · left
        refine ⟨by rw [bst_keys_node]; simp [hmem], ?_⟩
        simp only [heq]
      · right
        refine ⟨?_, pre, post ++ rec :: inorder r, ?_, ?_, hb1, ?_⟩
        · rw [bst_keys_node]
          simp only [List.mem_append, List.mem_cons, not_or]
          refine ⟨hnot, ne_of_lt h1, fun hm => ?_⟩
          have := hgt _ hm
          omega
        · simp [inorder, hpre]
        · simp [inorder, hpost]
        · intro x hx
          rcases List.mem_append.1 hx with hx | hx
          · exact hb2 x hx
          · rcases List.mem_cons.1 hx with rfl | hx
            · exact h1
            · have := hgt _ (bst_mem_keys_iff.2 ⟨x, hx, rfl⟩)
              omega
    · rcases ihr (it + 1) hor with ⟨hmem, heq⟩ | ⟨hnot, pre, post, hpre, hpost, hb1, hb2⟩
      · left
        refine ⟨by rw [bst_keys_node]; simp [hmem], ?_⟩
        simp only [heq]
      · right
        refine ⟨?_, inorder l ++ rec :: pre, post, ?_, ?_, ?_, hb2⟩
        · rw [bst_keys_node]
          simp only [List.mem_append, List.mem_cons, not_or]
          refine ⟨fun hm => ?_, ne_of_gt h2, hnot⟩
          have := hlt _ hm
          omega
        · simp [inorder, hpre]
        · simp [inorder, hpost]
        · intro x hx
          rcases List.mem_append.1 hx with hx | hx
          · have := hlt _ (bst_mem_keys_iff.2 ⟨x, hx, rfl⟩)
            omega
          · rcases List.mem_cons.1 hx with rfl | hx
            · exact h2
            · exact hb1 x hx
    · left
      have hk : record.matricula = rec.matricula := by omega
      exact ⟨by rw [bst_keys_node]; simp [hk], rfl⟩

theorem bst_insertRecursive_ordered (record : Record) (t : BSTNode) (it : Nat)
    (ho : Ordered t) : Ordered (insertRecursive t record it).1 := by
  rcases bst_insertRecursive_inorder record t it ho with
    ⟨_, heq⟩ | ⟨_, pre, post, hpre, hpost, hb1, hb2⟩
  · rw [heq]; exact ho
  · have hs := (bst_ordered_iff_pairwise t).1 ho
    rw [keys, hpre, List.map_append, List.pairwise_append] at hs
    rw [bst_ordered_iff_pairwise, keys, hpost, List.map_append, List.map_cons,
      List.pairwise_append, List.pairwise_cons]
    obtain ⟨hs1, hs2, hs3⟩ := hs
    refine ⟨hs1, ⟨?_, hs2⟩, ?_⟩
    · intro a ha
      obtain ⟨x, hx, rfl⟩ := List.mem_map.1 ha
      exact hb2 x hx
    · intro a ha b hb
      obtain ⟨x, hx, rfl⟩ := List.mem_map.1 ha
      rcases List.mem_cons.1 hb with rfl | hb
      · exact hb1 x hx
      · exact hs3 _ ha _ hb

theorem bst_insert_spec (t : BinarySearchTree) (record : Record) (ho : Ordered t.root) :
    Ordered (insert t record).1.root ∧
      (insert t record).1.size_count = t.size_count + 1 ∧
      ((record.matricula ∈ keys t.root ∧ (insert t record).1.root = t.root) ∨
        (record.matricula ∉ keys t.root ∧
          (inorder (insert t record).1.root).Perm (record :: inorder t.root))) := by
  refine ⟨bst_insertRecursive_ordered record t.root 0 ho, rfl, ?_⟩
  rcases bst_insertRecursive_inorder record t.root 0 ho with
    ⟨hm, he⟩ | ⟨hm, pre, post, hpre, hpost, -, -⟩
  · exact Or.inl ⟨hm, he⟩
  · refine Or.inr ⟨hm, ?_⟩
    show (inorder (insertRecursive t.root record 0).1).Perm _
    rw [hpost, hpre]
    exact List.perm_middle

theorem bst_insertAll_spec (rs : List Record) : ∀ t : BinarySearchTree, Ordered t.root →
    Ordered (insertAll t rs).root ∧
      (insertAll t rs).size_count = t.size_count + rs.length ∧
      (∀ k, k ∈ keys (insertAll t rs).root ↔ k ∈ keys t.root ∨ k ∈ rs.map Record.matricula) := by
  induction rs with
  | nil =>
    intro t ho
    exact ⟨ho, rfl, by simp [insertAll]⟩
  | cons r rs ih =>
    intro t ho
    obtain ⟨ho1, hs1, hk⟩ := bst_insert_spec t r ho
    obtain ⟨ho2, hs2, hk2⟩ := ih (insert t r).1 ho1
    refine ⟨ho2, ?_, ?_⟩
    · rw [insertAll, hs2, hs1, List.length_cons]; omega
    · intro k
      rw [insertAll, hk2 k, List.map_cons, List.mem_cons]
      rcases hk with ⟨hm, he⟩ | ⟨hm, hp⟩
      · rw [he]
        constructor
        · rintro (h | h)
          · exact Or.inl h
          · exact Or.inr (Or.inr h)
        · rintro (h | h | h)
          · exact Or.inl h
          · exact Or.inl (h ▸ hm)
          · exact Or.inr h
      · have : k ∈ keys (insert t r).1.root ↔ k = r.matricula ∨ k ∈ keys t.root := by
          rw [keys, (hp.map Record.matricula).mem_iff, List.map_cons, List.mem_cons]
          rfl
        rw [this]
        tauto

theorem bst_insertAll_perm (rs : List Record) : ∀ t : BinarySearchTree, Ordered t.root →
    (rs.map Record.matricula).Nodup → (∀ r ∈ rs, r.matricula ∉ keys t.root) →
    (inorder (insertAll t rs).root).Perm (rs ++ inorder t.root) := by
  induction rs with
  | nil =>
    intro t _ _ _
    simp [insertAll]
  | cons r rs ih =>
    intro t ho hnd hnot
    rw [List.map_cons, List.nodup_cons] at hnd
    obtain ⟨ho1, -, hk⟩ := bst_insert_spec t r ho
    rcases hk with ⟨hm, -⟩ | ⟨-, hp⟩
    · exact absurd hm (hnot r (List.mem_cons_self _ _))
    · have hnot1 : ∀ x ∈ rs, x.matricula ∉ keys (insert t r).1.root := by
        intro x hx hmem
        rw [keys, (hp.map Record.matricula).mem_iff, List.map_cons, List.mem_cons] at hmem
        rcases hmem with h | h
        · exact hnd.1 (h ▸ List.mem_map_of_mem _ hx)
        · exact hnot x (List.mem_cons_of_mem _ hx) h
      have hp2 := ih (insert t r).1 ho1 hnd.2 hnot1
      rw [insertAll]
      refine hp2.trans ?_
      refine ((List.Perm.append_left rs hp).trans ?_)
      simp

end BinarySearchTree

/-- C3: for every finite sequence of records inserted into an initially empty
`BinarySearchTree`, the in-order traversal of the result lists keys in strictly
ascending order, its keys are exactly the keys of the sequence, and every node has
all keys of its left subtree below and all keys of its right subtree above its own
key. -/
theorem C3_bst_inorder_strictly_ascending (rs : List Record) :
    (BSTNode.keys (BinarySearchTree.insertAll BinarySearchTree.empty rs).root).Pairwise
        (· < ·) ∧
      (∀ k, k ∈ BSTNode.keys (BinarySearchTree.insertAll BinarySearchTree.empty rs).root ↔
        k ∈ rs.map Record.matricula) ∧
      BSTNode.Ordered (BinarySearchTree.insertAll BinarySearchTree.empty rs).root := by
  obtain ⟨ho, -, hk⟩ := BinarySearchTree.bst_insertAll_spec rs BinarySearchTree.empty trivial
  refine ⟨(BinarySearchTree.bst_ordered_iff_pairwise _).1 ho, ?_, ho⟩
  intro k
  rw [hk k]
  simp [BinarySearchTree.empty, BSTNode.keys, BSTNode.inorder]

/-! ### Searching -/

theorem scanForKey_found (pre : List Record) (r : Record) (post : List Record) (k : Int)
    (hpre : ∀ x ∈ pre, x.matricula ≠ k) (hr : r.matricula = k) :
    ∀ it : Nat, scanForKey (pre ++ r :: post) k it = (some r, it + pre.length + 1) := by
  induction pre with
  | nil => intro it; simp [scanForKey, hr]
  | cons a pre ih =>
    intro it
    have ha : a.matricula ≠ k := hpre a (List.mem_cons_self _ _)
    have := ih (fun x hx => hpre x (List.mem_cons_of_mem _ hx)) (it + 1)
    rw [List.cons_append, scanForKey, if_neg ha, this, List.length_cons]
    congr 1
    omega

theorem scanForKey_not_found (l : List Record) (k : Int)
    (hl : ∀ x ∈ l, x.matricula ≠ k) :
    ∀ it : Nat, scanForKey l k it = (none, it + l.length) := by
  induction l with
  | nil => intro it; simp [scanForKey]
  | cons a l ih =>
    intro it
    have ha : a.matricula ≠ k := hl a (List.mem_cons_self _ _)
    have := ih (fun x hx => hl x (List.mem_cons_of_mem _ hx)) (it + 1)
    rw [scanForKey, if_neg ha, this, List.length_cons]
    congr 1
    omega

/-- In a list whose keys are pairwise distinct, every member splits the list into
a part before it and a part after it that do not contain its key. -/
theorem split_of_nodup_keys (l : List Record) (r : Record)
    (hnd : (l.map Record.matricula).Nodup) (hr : r ∈ l) :
    ∃ pre post, l = pre ++ r :: post ∧ (∀ x ∈ pre, x.matricula ≠ r.matricula) ∧
      (∀ x ∈ post, x.matricula ≠ r.matricula) := by
  obtain ⟨pre, post, rfl⟩ := List.append_of_mem hr
  refine ⟨pre, post, rfl, ?_, ?_⟩
  · intro x hx he
    rw [List.map_append, List.map_cons, List.nodup_append] at hnd
    exact hnd.2.2 (List.mem_map_of_mem _ hx) (he ▸ List.mem_cons_self _ _)
  · intro x hx he
    rw [List.map_append, List.map_cons, List.nodup_append, List.nodup_cons] at hnd
    exact hnd.2.1.1 (he ▸ List.mem_map_of_mem _ hx)

namespace LinearArray

theorem insertAll_data (rs : List Record) : ∀ a : LinearArray,
    (insertAll a rs).data = a.data ++ rs := by
  induction rs with
  | nil => intro a; simp [insertAll]
  | cons r rs ih => intro a; simp [insertAll, ih, insert]

end LinearArray

namespace BinarySearchTree
open BSTNode

theorem bst_search_found (t : BSTNode) (x : Record) :
    Ordered t → x ∈ inorder t → ∀ it : Nat, (searchRecursive t x.matricula it).1 = some x := by
  induction t with
  | null => intro _ hx; simp [inorder] at hx
  | node rec l r ihl ihr =>
    intro ho hx it
    obtain ⟨hol, hor, hlt, hgt⟩ := ho
    simp only [inorder, List.mem_append, List.mem_cons] at hx
    rw [searchRecursive]
    rcases hx with hx | rfl | hx
    · have h1 := hlt _ (bst_mem_keys_iff.2 ⟨x, hx, rfl⟩)
      rw [if_neg (ne_of_lt h1), if_pos h1]
      exact ihl hol hx _
    · simp
    · have h1 := hgt _ (bst_mem_keys_iff.2 ⟨x, hx, rfl⟩)
      rw [if_neg (ne_of_gt h1), if_neg (not_lt_of_gt h1)]
      exact ihr hor hx _

theorem bst_search_not_found (t : BSTNode) (k : Int) :
    k ∉ keys t → ∀ it : Nat, (searchRecursive t k it).1 = none := by
  induction t with
  | null => intro _ it; rfl
  | node rec l r ihl ihr =>
    intro hk it
    rw [bst_keys_node] at hk
    simp only [List.mem_append, List.mem_cons, not_or] at hk
    rw [searchRecursive, if_neg hk.2.1]
    split_ifs
    · exact ihl hk.1 _
    · exact ihr hk.2.2 _

end BinarySearchTree

namespace AVLTree
open AVLNode

theorem search_found (t : AVLNode) (x : Record) :
    Ordered t → x ∈ inorder t → ∀ it : Nat, (searchRecursive t x.matricula it).1 = some x := by
  induction t with
  | null => intro _ hx; simp [inorder] at hx
  | node rec l r h ihl ihr =>
    intro ho hx it
    obtain ⟨hol, hor, hlt, hgt⟩ := ho
    simp only [inorder, List.mem_append, List.mem_cons] at hx
    rw [searchRecursive]
    rcases hx with hx | rfl | hx
    · have h1 := hlt _ (mem_keys_iff.2 ⟨x, hx, rfl⟩)
      rw [if_neg (ne_of_lt h1), if_pos h1]
      exact ihl hol hx _
    · simp
    · have h1 := hgt _ (mem_keys_iff.2 ⟨x, hx, rfl⟩)
      rw [if_neg (ne_of_gt h1), if_neg (not_lt_of_gt h1)]
      exact ihr hor hx _

theorem search_not_found (t : AVLNode) (k : Int) :
    k ∉ keys t → ∀ it : Nat, (searchRecursive t k it).1 = none := by
  induction t with
  | null => intro _ it; rfl
  | node rec l r h ihl ihr =>
    intro hk it
    rw [keys_node] at hk
    simp only [List.mem_append, List.mem_cons, not_or] at hk
    rw [searchRecursive, if_neg hk.2.1]
    split_ifs
    · exact ihl hk.1 _
    · exact ihr hk.2.2 _

end AVLTree

/-! ### Hash functions: range of the computed index -/

namespace HashTable

theorem hashDivision_nonneg (k m : Int) (hk : 0 ≤ k) (hm : 0 < m) :
    hashDivision k m = some (k % m) := by
  have h1 : ¬ (m = 0 ∨ (k = -2147483648 ∧ m = -1)) := by omega
  rw [hashDivision, if_neg h1, Int.tmod_eq_emod hk (le_of_lt hm)]

theorem isDigit_digitChar (d : Nat) (hd : d < 10) : (Nat.digitChar d).isDigit = true := by
  interval_cases d <;> rfl

theorem toDigitsCore_isDigit (fuel : Nat) : ∀ (n : Nat) (acc : List Char),
    (∀ c ∈ acc, c.isDigit = true) →
    ∀ c ∈ Nat.toDigitsCore 10 fuel n acc, c.isDigit = true := by
  induction fuel with
  | zero => intro n acc hacc; simpa [Nat.toDigitsCore] using hacc
  | succ fuel ih =>
    intro n acc hacc
    have hd : (Nat.digitChar (n % 10)).isDigit = true :=
      isDigit_digitChar _ (Nat.mod_lt _ (by decide))
    have hacc1 : ∀ c ∈ Nat.digitChar (n % 10) :: acc, c.isDigit = true := by
      intro c hc
      rcases List.mem_cons.1 hc with rfl | hc
      · exact hd
      · exact hacc c hc
    rw [Nat.toDigitsCore]
    split_ifs
    · exact hacc1
    · exact ih _ _ hacc1

theorem to_string_isDigit (k : Int) (hk : 0 ≤ k) : ∀ c ∈ to_string k, c.isDigit = true := by
  have h1 : ¬ k < 0 := by omega
  rw [to_string, if_neg h1]
  exact toDigitsCore_isDigit _ _ _ (by simp)

theorem stoiDigits_of_isDigit (s : List Char) (hs : s ≠ [])
    (hd : ∀ c ∈ s, c.isDigit = true) : ∃ n : Nat, stoiDigits s = some n := by
  have htw : s.takeWhile Char.isDigit = s := by
    rw [List.takeWhile_eq_self_iff]; exact hd
  refine ⟨s.foldl (fun acc c => 10 * acc + (c.toNat - '0'.toNat)) 0, ?_⟩
  rw [stoiDigits]
  simp only [htw, if_neg hs]

theorem stoi_of_isDigit (s : List Char) (hs : s ≠ [])
    (hd : ∀ c ∈ s, c.isDigit = true) : ∃ n : Nat, stoi s = some (n : Int) := by
  obtain ⟨n, hn⟩ := stoiDigits_of_isDigit s hs hd
  refine ⟨n, ?_⟩
  unfold stoi
  split
  · rename_i rest
    have := hd '-' (List.mem_cons_self _ _)
    simp at this
  · rename_i rest
    have := hd '+' (List.mem_cons_self _ _)
    simp at this
  · simp [hn]

theorem foldChunks_of_isDigit (n : Nat) : ∀ (s : List Char) (total : Int), s.length ≤ n →
    (∀ c ∈ s, c.isDigit = true) → 0 ≤ total →
    ∃ v : Int, foldChunks s total = some v ∧ 0 ≤ v := by
  induction n using Nat.strong_induction_on with
  | _ n ih =>
    intro s total hlen hd ht
    match s, hlen, hd with
    | [], _, _ => exact ⟨total, rfl, ht⟩
    | [c1], _, hd =>
      obtain ⟨v, hv⟩ := stoi_of_isDigit [c1] (by simp) hd
      exact ⟨total + v, by simp [foldChunks, hv], by omega⟩
    | [c1, c2], _, hd =>
      obtain ⟨v, hv⟩ := stoi_of_isDigit [c1, c2] (by simp) hd
      exact ⟨total + v, by simp [foldChunks, hv], by omega⟩
    | c1 :: c2 :: c3 :: rest, hlen, hd =>
      obtain ⟨v, hv⟩ := stoi_of_isDigit [c1, c2, c3] (by simp) (by
        intro c hc
        apply hd
        simp only [List.mem_cons, List.mem_singleton, List.not_mem_nil, or_false] at hc
        simp only [List.mem_cons]
        tauto)
      have hlen1 : rest.length < n := by simp only [List.length_cons] at hlen; omega
      obtain ⟨w, hw, hw0⟩ := ih rest.length hlen1 rest (total + v) le_rfl
        (fun c hc => hd c (by simp [hc])) (by omega)
      exact ⟨w, by simp [foldChunks, hv, hw], hw0⟩

theorem hashFolding_nonneg (k m : Int) (hk : 0 ≤ k) (hm : 0 < m) :
    ∃ i : Int, hashFolding k m = some i ∧ 0 ≤ i ∧ i < m := by
  obtain ⟨v, hv, hv0⟩ := foldChunks_of_isDigit _ (to_string k) 0 le_rfl
    (to_string_isDigit k hk) le_rfl
  refine ⟨v % m, ?_, Int.emod_nonneg _ (by omega), Int.emod_lt_of_pos _ hm⟩
  rw [hashFolding, hv]
  simp only [if_neg (ne_of_gt hm), Int.tmod_eq_emod hv0 (le_of_lt hm)]

end HashTable

/-! ### Binary64 rounding and the multiplication hash -/

namespace Double

theorem floor_le_roundHalfEven (x : Rat) : ⌊x⌋ ≤ roundHalfEven x := by
  unfold roundHalfEven
  simp only
  split_ifs <;> omega

theorem roundHalfEven_le (x : Rat) : (roundHalfEven x : Rat) ≤ x + 1 / 2 := by
  have hf : (⌊x⌋ : Rat) ≤ x := Int.floor_le x
  unfold roundHalfEven
  simp only
  split_ifs with h1 h2 h3
  · linarith
  · push_cast; linarith
  · linarith
  · push_cast
    have : x - ⌊x⌋ = 1 / 2 := le_antisymm (not_lt.1 h2) (not_lt.1 h1)
    linarith

theorem roundHalfEven_intCast (n : Int) : roundHalfEven (n : Rat) = n := by
  unfold roundHalfEven
  simp

theorem round_zero : round 0 = 0 := by
  simp [round]

theorem round_nonneg (x : Rat) (hx : 0 ≤ x) : 0 ≤ round x := by
  unfold round
  split_ifs with h0
  · exact le_rfl
  · simp only
    have hq : (0 : Rat) < 2 ^ (Int.log 2 |x| - 52) := zpow_pos (by norm_num) _
    have h1 : 0 ≤ x / 2 ^ (Int.log 2 |x| - 52) := div_nonneg hx (le_of_lt hq)
    have h2 : (0 : Int) ≤ roundHalfEven (x / 2 ^ (Int.log 2 |x| - 52)) :=
      le_trans (Int.floor_nonneg.2 h1) (floor_le_roundHalfEven _)
    exact mul_nonneg (by exact_mod_cast h2) (le_of_lt hq)

theorem round_le (x : Rat) (hx : 0 < x) : round x ≤ x + 2 ^ (Int.log 2 x - 53) := by
  unfold round
  rw [if_neg (ne_of_gt hx), abs_of_pos hx]
  simp only
  have hq : (0 : Rat) < 2 ^ (Int.log 2 x - 52) := zpow_pos (by norm_num) _
  have h1 := roundHalfEven_le (x / 2 ^ (Int.log 2 x - 52))
  have h2 : (2 : Rat) ^ (Int.log 2 x - 53) = 2 ^ (Int.log 2 x - 52) / 2 := by
    rw [show Int.log 2 x - 53 = (Int.log 2 x - 52) - 1 by ring, zpow_sub_one₀ (by norm_num)]
    rfl
  rw [h2]
  calc (roundHalfEven (x / 2 ^ (Int.log 2 x - 52)) : Rat) * 2 ^ (Int.log 2 x - 52)
      ≤ (x / 2 ^ (Int.log 2 x - 52) + 1 / 2) * 2 ^ (Int.log 2 x - 52) :=
        mul_le_mul_of_nonneg_right h1 (le_of_lt hq)
    _ = x + 2 ^ (Int.log 2 x - 52) / 2 := by
        field_simp
        ring

/-- A positive multiple of `2^-53` below one is representable: rounding keeps it. -/
theorem round_exact (M : Int) (h0 : 0 < M) (h1 : M < 2 ^ 53) :
    round ((M : Rat) / 2 ^ 53) = (M : Rat) / 2 ^ 53 := by
  have hy : (0 : Rat) < (M : Rat) / 2 ^ 53 := div_pos (by exact_mod_cast h0) (by norm_num)
  have hy1 : (M : Rat) / 2 ^ 53 < (2 : Rat) ^ (0 : Int) := by
    rw [zpow_zero, div_lt_one (by norm_num)]
    exact_mod_cast h1
  have he : Int.log 2 ((M : Rat) / 2 ^ 53) < 0 :=
    (Int.lt_zpow_iff_log_lt (by norm_num) hy).1 (by exact_mod_cast hy1)
  unfold round
  rw [if_neg (ne_of_gt hy), abs_of_pos hy]
  simp only
  obtain ⟨n, hn⟩ : ∃ n : Nat, Int.log 2 ((M : Rat) / 2 ^ 53) = -1 - (n : Int) :=
    ⟨(-1 - Int.log 2 ((M : Rat) / 2 ^ 53)).toNat, by omega⟩
  rw [hn]
  have hq : (2 : Rat) ^ (-1 - (n : Int) - 52) = 1 / (2 ^ 53 * 2 ^ n) := by
    rw [show (-1 - (n : Int) - 52) = -((53 + n : Nat) : Int) by push_cast; ring, zpow_neg,
      zpow_natCast, pow_add, one_div]
  rw [hq]
  have hdiv : (M : Rat) / 2 ^ 53 / (1 / (2 ^ 53 * 2 ^ n)) = ((M * 2 ^ n : Int) : Rat) := by
    push_cast
    field_simp
    ring
  rw [hdiv, roundHalfEven_intCast]
  push_cast
  field_simp
  ring

end Double

namespace Double

theorem zpow_log_le_round (x : Rat) (hx : 0 < x) : (2 : Rat) ^ Int.log 2 x ≤ round x := by
  unfold round
  rw [if_neg (ne_of_gt hx), abs_of_pos hx]
  simp only
  have hq : (0 : Rat) < 2 ^ (Int.log 2 x - 52) := zpow_pos (by norm_num) _
  have hsplit : (2 : Rat) ^ Int.log 2 x = ((2 ^ 52 : Int) : Rat) * 2 ^ (Int.log 2 x - 52) := by
    rw [zpow_sub₀ (by norm_num)]
    push_cast
    field_simp
    ring
  have hle : ((2 ^ 52 : Int) : Rat) ≤ x / 2 ^ (Int.log 2 x - 52) := by
    rw [le_div_iff₀ hq, ← hsplit]
    exact Int.zpow_log_le_self (by norm_num) hx
  have h2 : (2 ^ 52 : Int) ≤ roundHalfEven (x / 2 ^ (Int.log 2 x - 52)) :=
    le_trans (Int.le_floor.2 hle) (floor_le_roundHalfEven _)
  rw [hsplit]
  exact mul_le_mul_of_nonneg_right (by exact_mod_cast h2) (le_of_lt hq)

/-- Rounding a value of at least one half gives a multiple of `2^-53`. -/
theorem round_grid (x : Rat) (hx : 1 / 2 ≤ x) : ∃ M : Int, round x = (M : Rat) / 2 ^ 53 := by
  have hx0 : 0 < x := lt_of_lt_of_le (by norm_num) hx
  have he : (-1 : Int) ≤ Int.log 2 x := by
    apply (Int.zpow_le_iff_le_log (by norm_num) hx0).1
    simpa using hx
  obtain ⟨n, hn⟩ : ∃ n : Nat, Int.log 2 x = -1 + (n : Int) :=
    ⟨(Int.log 2 x + 1).toNat, by omega⟩
  unfold round
  rw [if_neg (ne_of_gt hx0), abs_of_pos hx0]
  simp only
  rw [hn]
  have hq : (2 : Rat) ^ (-1 + (n : Int) - 52) = 2 ^ n / 2 ^ 53 := by
    rw [show (-1 + (n : Int) - 52) = (n : Int) - (53 : Nat) by push_cast; ring,
      zpow_sub₀ (by norm_num), zpow_natCast, zpow_natCast]
  rw [hq]
  refine ⟨roundHalfEven (x / (2 ^ n / 2 ^ 53)) * 2 ^ n, ?_⟩
  push_cast
  ring

end Double

namespace HashTable

theorem A_ge_half : (1 : Rat) / 2 ≤ A := by
  have ha : (0 : Rat) < 6180339887 / 10000000000 := by norm_num
  have he : (-1 : Int) ≤ Int.log 2 ((6180339887 : Rat) / 10000000000) := by
    apply (Int.zpow_le_iff_le_log (by norm_num) ha).1
    norm_num
  have h1 := Double.zpow_log_le_round _ ha
  have h2 : (2 : Rat) ^ (-1 : Int) ≤ 2 ^ Int.log 2 ((6180339887 : Rat) / 10000000000) :=
    zpow_le_zpow_right₀ (by norm_num) he
  have h3 : (2 : Rat) ^ (-1 : Int) = 1 / 2 := by norm_num
  rw [A]
  linarith

/-- The fractional part computed at line 439 is a multiple of `2^-53` in `[0, 1)`
and is kept by the rounding of the subtraction. -/
theorem fraction_bounds (k : Int) (hk : 0 ≤ k) :
    0 ≤ Double.round (Double.round ((k : Rat) * A) - ⌊Double.round ((k : Rat) * A)⌋) ∧
      Double.round (Double.round ((k : Rat) * A) - ⌊Double.round ((k : Rat) * A)⌋) ≤ 1 - 1 / 2 ^ 53 := by
  have hgrid : ∃ M : Int, Double.round ((k : Rat) * A) = (M : Rat) / 2 ^ 53 := by
    rcases eq_or_lt_of_le hk with h0 | hpos
    · exact ⟨0, by rw [← h0]; simp [Double.round_zero]⟩
    · apply Double.round_grid
      have h1 : (1 : Rat) ≤ (k : Rat) := by exact_mod_cast hpos
      have h2 := A_ge_half
      nlinarith
  obtain ⟨M, hM⟩ := hgrid
  rw [hM]
  set f : Int := ⌊(M : Rat) / 2 ^ 53⌋ with hf
  have hy : (M : Rat) / 2 ^ 53 - (f : Rat) = ((M - f * 2 ^ 53 : Int) : Rat) / 2 ^ 53 := by
    push_cast
    field_simp
    ring
  have hlo : (0 : Rat) ≤ (M : Rat) / 2 ^ 53 - (f : Rat) := by
    have hfl : (f : Rat) ≤ (M : Rat) / 2 ^ 53 := Int.floor_le _
    linarith
  have hhi : (M : Rat) / 2 ^ 53 - (f : Rat) < 1 := by
    have hfl : (M : Rat) / 2 ^ 53 < (f : Rat) + 1 := Int.lt_floor_add_one _
    linarith
  rw [hy] at hlo hhi ⊢
  have hM0 : 0 ≤ M - f * 2 ^ 53 := by
    have := (div_nonneg_iff.1 hlo)
    rcases this with ⟨h, _⟩ | ⟨_, h⟩
    · exact_mod_cast h
    · norm_num at h
  have hM1 : M - f * 2 ^ 53 < 2 ^ 53 := by
    rw [div_lt_one (by norm_num)] at hhi
    exact_mod_cast hhi
  rcases eq_or_lt_of_le hM0 with h0 | hpos
  · rw [← h0]
    simp only [Int.cast_zero, zero_div, Double.round_zero]
    norm_num
  · rw [Double.round_exact _ hpos hM1]
    refine ⟨hlo, ?_⟩
    have h2 : ((M - f * 2 ^ 53 : Int) : Rat) ≤ 2 ^ 53 - 1 := by
      have : M - f * 2 ^ 53 ≤ 2 ^ 53 - 1 := by omega
      exact_mod_cast this
    rw [div_le_iff₀ (by norm_num)]
    have : ((1 : Rat) - 1 / 2 ^ 53) * 2 ^ 53 = 2 ^ 53 - 1 := by norm_num
    rw [this]
    exact h2

theorem hashMultiplication_nonneg (k m : Int) (hk : 0 ≤ k) (hm : 0 < m) :
    ∃ i : Int, hashMultiplication k m = some i ∧ 0 ≤ i ∧ i < m := by
  obtain ⟨ht0, ht1⟩ := fraction_bounds k hk
  set t : Rat := Double.round (Double.round ((k : Rat) * A) - ⌊Double.round ((k : Rat) * A)⌋) with ht
  have hmq : (0 : Rat) < (m : Rat) := by exact_mod_cast hm
  have hz0 : 0 ≤ (m : Rat) * t := mul_nonneg (le_of_lt hmq) ht0
  have hr0 : 0 ≤ Double.round ((m : Rat) * t) := Double.round_nonneg _ hz0
  have hr1 : Double.round ((m : Rat) * t) < (m : Rat) := by
    rcases eq_or_lt_of_le hz0 with h0 | hpos
    · rw [← h0, Double.round_zero]; exact hmq
    · have hzm : (m : Rat) * t ≤ (m : Rat) - (m : Rat) / 2 ^ 53 := by
        have := mul_le_mul_of_nonneg_left ht1 (le_of_lt hmq)
        calc (m : Rat) * t ≤ (m : Rat) * (1 - 1 / 2 ^ 53) := this
          _ = (m : Rat) - (m : Rat) / 2 ^ 53 := by ring
      have hlt : (m : Rat) * t < (m : Rat) := by
        have : (0 : Rat) < (m : Rat) / 2 ^ 53 := div_pos hmq (by norm_num)
        linarith
      have hlog : (2 : Rat) ^ Int.log 2 ((m : Rat) * t) ≤ (m : Rat) * t :=
        Int.zpow_log_le_self (by norm_num) hpos
      have hstep : (2 : Rat) ^ (Int.log 2 ((m : Rat) * t) - 53) < (m : Rat) / 2 ^ 53 := by
        rw [zpow_sub₀ (by norm_num)]
        have h53 : (2 : Rat) ^ (53 : Int) = 2 ^ 53 := by norm_num
        rw [h53]
        exact div_lt_div_of_pos_right (lt_of_le_of_lt hlog hlt) (by norm_num)
      have := Double.round_le _ hpos
      linarith
  refine ⟨⌊Double.round ((m : Rat) * t)⌋, ?_, Int.floor_nonneg.2 hr0, Int.floor_lt.2 hr1⟩
  simp only [hashMultiplication, Double.trunc, ← ht, if_pos hr0]

end HashTable

/-! ### Hash table: insertion and search -/

namespace HashTable

theorem hashFunction_range (ht : HashTable) (k : Int) (hm : 0 < ht.table_size) (hk : 0 ≤ k) :
    ∃ i : Nat, hashFunction ht k = some (i : Int) ∧ (i : Int) < ht.table_size := by
  have key : ∃ j : Int, hashFunction ht k = some j ∧ 0 ≤ j ∧ j < ht.table_size := by
    have hdiv : ∃ j : Int, hashDivision k ht.table_size = some j ∧ 0 ≤ j ∧ j < ht.table_size :=
      ⟨_, hashDivision_nonneg k _ hk hm, Int.emod_nonneg _ (by omega), Int.emod_lt_of_pos _ hm⟩
    unfold hashFunction
    split_ifs
    · exact hdiv
    · exact hashMultiplication_nonneg k _ hk hm
    · exact hashFolding_nonneg k _ hk hm
    · exact hdiv
  obtain ⟨j, hj, h0, h1⟩ := key
  refine ⟨j.toNat, ?_, ?_⟩
  · rw [hj, Int.toNat_of_nonneg h0]
  · rw [Int.toNat_of_nonneg h0]; exact h1

theorem bucketAt_natCast (ht : HashTable) (i : Nat) : bucketAt ht (i : Int) = ht.table[i]? := by
  have h : ¬ ((i : Int) < 0) := by omega
  rw [bucketAt, if_neg h, Int.toNat_natCast]

/-- For a non-negative key in a well-formed table the hashed index selects a bucket. -/
theorem bucket_exists (ht : HashTable) (k : Int) (hw : WellFormed ht) (hk : 0 ≤ k) :
    ∃ (i : Nat) (b : List Record), hashFunction ht k = some (i : Int) ∧
      (i : Int) < ht.table_size ∧ ht.table[i]? = some b := by
  obtain ⟨i, hi, hlt⟩ := hashFunction_range ht k hw.1 hk
  have hlen : i < ht.table.length := by have := hw.2; omega
  exact ⟨i, ht.table[i], hi, hlt, List.getElem?_eq_getElem hlen⟩

theorem insert_new (ht : HashTable) (record : Record) (i : Nat) (b : List Record)
    (hi : hashFunction ht record.matricula = some (i : Int)) (hb : ht.table[i]? = some b)
    (hnew : ∀ x ∈ b, x.matricula ≠ record.matricula) :
    insert ht record =
      some ({ ht with table := ht.table.set i (b ++ [record]),
                      collisions := if b.isEmpty then ht.collisions else ht.collisions + 1,
                      total_elements := ht.total_elements + 1 }, 1 + b.length) := by
  simp only [insert, hi, bucketAt_natCast, hb, scanForKey_not_found b _ hnew 1, Int.toNat_natCast]

theorem insert_dup (ht : HashTable) (record : Record) (i : Nat)
    (pre : List Record) (x : Record) (post : List Record)
    (hi : hashFunction ht record.matricula = some (i : Int))
    (hb : ht.table[i]? = some (pre ++ x :: post))
    (hpre : ∀ y ∈ pre, y.matricula ≠ record.matricula) (hx : x.matricula = record.matricula) :
    insert ht record =
      some ({ ht with collisions :=
                if (pre ++ x :: post).isEmpty then ht.collisions else ht.collisions + 1 },
            1 + pre.length + 1) := by
  simp only [insert, hi, bucketAt_natCast, hb, scanForKey_found pre x post _ hpre hx 1]

theorem search_eq (ht : HashTable) (k : Int) (i : Nat) (b : List Record)
    (hi : hashFunction ht k = some (i : Int)) (hb : ht.table[i]? = some b) :
    search ht k = some (scanForKey b k 1) := by
  simp only [search, hi, bucketAt_natCast, hb]

theorem hashFunction_congr (ht ht1 : HashTable) (hn : ht1.hash_function_name = ht.hash_function_name)
    (hs : ht1.table_size = ht.table_size) (k : Int) : hashFunction ht1 k = hashFunction ht k := by
  simp only [hashFunction, hn, hs]

theorem flatten_set_perm (record : Record) : ∀ (table : List (List Record)) (i : Nat)
    (b : List Record), table[i]? = some b →
    (table.set i (b ++ [record])).flatten.Perm (record :: table.flatten) := by
  intro table
  induction table with
  | nil => intro i b h; simp at h
  | cons c table ih =>
    intro i b h
    cases i with
    | zero =>
      simp only [List.getElem?_cons_zero, Option.some.injEq] at h
      subst h
      simp only [List.set_cons_zero, List.flatten_cons, List.append_assoc, List.singleton_append]
      exact List.perm_middle
    | succ i =>
      simp only [List.getElem?_cons_succ] at h
      simp only [List.set_cons_succ, List.flatten_cons]
      exact ((ih i b h).append_left c).trans List.perm_middle

end HashTable

/-- The first record with key `k` in a list that contains one. -/
theorem exists_first_with_key (k : Int) : ∀ l : List Record, (∃ x ∈ l, x.matricula = k) →
    ∃ pre x post, l = pre ++ x :: post ∧ x.matricula = k ∧ ∀ y ∈ pre, y.matricula ≠ k := by
  intro l
  induction l with
  | nil => rintro ⟨x, hx, -⟩; simp at hx
  | cons a l ih =>
    intro h
    by_cases ha : a.matricula = k
    · exact ⟨[], a, l, rfl, ha, by simp⟩
    · have h1 : ∃ x ∈ l, x.matricula = k := by
        obtain ⟨x, hx, hxk⟩ := h
        rcases List.mem_cons.1 hx with rfl | hx
        · exact absurd hxk ha
        · exact ⟨x, hx, hxk⟩
      obtain ⟨pre, x, post, hl, hxk, hpre⟩ := ih h1
      refine ⟨a :: pre, x, post, by rw [hl]; rfl, hxk, ?_⟩
      intro y hy
      rcases List.mem_cons.1 hy with rfl | hy
      · exact ha
      · exact hpre y hy

namespace HashTable

theorem init_inv (m : Int) (hf : String) (hm : 0 < m) :
    ∃ ht, init m hf = some ht ∧ Inv ht ∧ ht.hash_function_name = hf ∧ ht.table_size = m ∧
      stored ht = [] ∧ ht.collisions = 0 := by
  have h : ¬ m < 0 := by omega
  refine ⟨_, by rw [init, if_neg h], ⟨⟨hm, ?_⟩, ?_, ?_⟩, rfl, rfl, ?_, rfl⟩
  · simp only [List.length_replicate]; omega
  · intro i b hb x hx
    simp only [List.getElem?_replicate] at hb
    split_ifs at hb
    simp only [Option.some.injEq] at hb
    subst hb
    simp at hx
  · simp [stored]
  · simp [stored]

/-- A stored record lies in the bucket its key hashes to. -/
theorem mem_stored_iff (ht : HashTable) (x : Record) :
    x ∈ stored ht ↔ ∃ (i : Nat) (b : List Record), ht.table[i]? = some b ∧ x ∈ b := by
  rw [stored, List.mem_flatten]
  constructor
  · rintro ⟨b, hb, hx⟩
    obtain ⟨i, hi⟩ := List.mem_iff_getElem?.1 hb
    exact ⟨i, b, hi, hx⟩
  · rintro ⟨i, b, hi, hx⟩
    exact ⟨b, List.mem_iff_getElem?.2 ⟨i, hi⟩, hx⟩

theorem mem_bucket_of_stored (ht : HashTable) (hbh : BucketsHashed ht) (x : Record)
    (hx : x ∈ stored ht) (i : Nat) (b : List Record)
    (hi : hashFunction ht x.matricula = some (i : Int)) (hb : ht.table[i]? = some b) :
    x ∈ b := by
  obtain ⟨j, c, hj, hxc⟩ := (mem_stored_iff ht x).1 hx
  have := hbh j c hj x hxc
  rw [hi] at this
  simp only [Option.some.injEq, Nat.cast_inj] at this
  subst this
  rw [hb] at hj
  simp only [Option.some.injEq] at hj
  rw [hj]
  exact hxc

theorem ht_insert_spec (ht : HashTable) (record : Record) (hinv : Inv ht)
    (hk : 0 ≤ record.matricula) :
    ∃ ht1 it, insert ht record = some (ht1, it) ∧ Inv ht1 ∧
      ht1.hash_function_name = ht.hash_function_name ∧ ht1.table_size = ht.table_size ∧
      ((record.matricula ∈ (stored ht).map Record.matricula ∧ ht1.table = ht.table) ∨
        (record.matricula ∉ (stored ht).map Record.matricula ∧
          (stored ht1).Perm (record :: stored ht))) := by
  obtain ⟨hw, hbh, hcount⟩ := hinv
  obtain ⟨i, b, hi, hlt, hb⟩ := bucket_exists ht record.matricula hw hk
  by_cases hex : ∃ x ∈ b, x.matricula = record.matricula
  · obtain ⟨pre, x, post, hsplit, hxk, hpre⟩ := exists_first_with_key _ b hex
    rw [hsplit] at hb
    refine ⟨_, _, insert_dup ht record i pre x post hi hb hpre hxk,
      ⟨hw, hbh, hcount⟩, rfl, rfl, Or.inl ⟨?_, rfl⟩⟩
    rw [List.mem_map]
    exact ⟨x, (mem_stored_iff ht x).2 ⟨i, _, hb, by simp⟩, hxk⟩
  · have hnew : ∀ x ∈ b, x.matricula ≠ record.matricula := fun x hx he => hex ⟨x, hx, he⟩
    have hperm := flatten_set_perm record ht.table i b hb
    refine ⟨_, _, insert_new ht record i b hi hb hnew, ⟨⟨hw.1, ?_⟩, ?_, ?_⟩, rfl, rfl,
      Or.inr ⟨?_, hperm⟩⟩
    · simp only [List.length_set]; exact hw.2
    · intro j c hj y hy
      show hashFunction ht y.matricula = some (j : Int)
      simp only [List.getElem?_set] at hj
      split_ifs at hj with h1 h2
      · simp only [Option.some.injEq] at hj
        subst hj
        subst h1
        rcases List.mem_append.1 hy with hy | hy
        · exact hbh _ b hb y hy
        · rw [List.mem_singleton.1 hy]; exact hi
      · exact hbh j c hj y hy
    · show ht.total_elements + 1 = (List.flatten _).length
      rw [hperm.length_eq, List.length_cons, hcount]
      rfl
    · rw [List.mem_map]
      rintro ⟨x, hx, hxk⟩
      exact hnew x (mem_bucket_of_stored ht hbh x hx i b (hxk ▸ hi) hb) hxk

theorem ht_insertAll_spec (rs : List Record) : ∀ ht : HashTable, Inv ht →
    (∀ r ∈ rs, 0 ≤ r.matricula) →
    ∃ ht1, insertAll ht rs = some ht1 ∧ Inv ht1 ∧
      ht1.hash_function_name = ht.hash_function_name ∧ ht1.table_size = ht.table_size ∧
      (∀ x, x ∈ stored ht1 → x ∈ stored ht ∨ x ∈ rs) := by
  induction rs with
  | nil => intro ht hinv _; exact ⟨ht, rfl, hinv, rfl, rfl, fun x hx => Or.inl hx⟩
  | cons r rs ih =>
    intro ht hinv hk
    obtain ⟨ht1, it, hins, hinv1, hn1, hs1, hcase⟩ :=
      ht_insert_spec ht r hinv (hk r (List.mem_cons_self _ _))
    obtain ⟨ht2, hall, hinv2, hn2, hs2, hsub⟩ :=
      ih ht1 hinv1 (fun x hx => hk x (List.mem_cons_of_mem _ hx))
    refine ⟨ht2, by simp only [insertAll, hins, hall], hinv2, hn2.trans hn1, hs2.trans hs1, ?_⟩
    intro x hx
    rcases hsub x hx with h | h
    · rcases hcase with ⟨-, ht⟩ | ⟨-, hp⟩
      · left; rw [stored, ← ht]; exact h
      · rcases List.mem_cons.1 (hp.mem_iff.1 h) with rfl | h
        · exact Or.inr (List.mem_cons_self _ _)
        · exact Or.inl h
    · exact Or.inr (List.mem_cons_of_mem _ h)

theorem ht_insertAll_perm (rs : List Record) : ∀ ht : HashTable, Inv ht →
    (∀ r ∈ rs, 0 ≤ r.matricula) → (rs.map Record.matricula).Nodup →
    (∀ r ∈ rs, r.matricula ∉ (stored ht).map Record.matricula) →
    ∃ ht1, insertAll ht rs = some ht1 ∧ Inv ht1 ∧
      ht1.hash_function_name = ht.hash_function_name ∧ ht1.table_size = ht.table_size ∧
      (stored ht1).Perm (rs ++ stored ht) := by
  induction rs with
  | nil => intro ht hinv _ _ _; exact ⟨ht, rfl, hinv, rfl, rfl, by simp⟩
  | cons r rs ih =>
    intro ht hinv hk hnd hnot
    rw [List.map_cons, List.nodup_cons] at hnd
    obtain ⟨ht1, it, hins, hinv1, hn1, hs1, hcase⟩ :=
      ht_insert_spec ht r hinv (hk r (List.mem_cons_self _ _))
    rcases hcase with ⟨hm, -⟩ | ⟨-, hp⟩
    · exact absurd hm (hnot r (List.mem_cons_self _ _))
    · have hnot1 : ∀ x ∈ rs, x.matricula ∉ (stored ht1).map Record.matricula := by
        intro x hx hmem
        rw [(hp.map Record.matricula).mem_iff, List.map_cons, List.mem_cons] at hmem
        rcases hmem with h | h
        · exact hnd.1 (h ▸ List.mem_map_of_mem _ hx)
        · exact hnot x (List.mem_cons_of_mem _ hx) h
      obtain ⟨ht2, hall, hinv2, hn2, hs2, hp2⟩ :=
        ih ht1 hinv1 (fun x hx => hk x (List.mem_cons_of_mem _ hx)) hnd.2 hnot1
      refine ⟨ht2, by simp only [insertAll, hins, hall], hinv2, hn2.trans hn1,
        hs2.trans hs1, ?_⟩
      refine hp2.trans ?_
      refine ((List.Perm.append_left rs hp).trans ?_)
      simp

end HashTable

/-! ### Claims on searching -/

/-- C4: for every sequence of records with pairwise distinct non-negative keys
inserted into a fresh `LinearArray`, `BinarySearchTree`, `AVLTree` or `HashTable`
(bucket count `m > 0`, division or folding hash) and every record `r` of the
sequence, `search(r.matricula)` on the resulting structure returns exactly `r`. -/
theorem C4_search_returns_inserted_record (rs : List Record) (m : Int) (hf : String)
    (r : Record) (hnd : (rs.map Record.matricula).Nodup)
    (hk : ∀ x ∈ rs, 0 ≤ x.matricula) (hm : 0 < m)
    (_hhf : hf = "division" ∨ hf = "folding") (hr : r ∈ rs) :
    ((LinearArray.insertAll LinearArray.empty rs).search r.matricula).1 = some r ∧
    ((BinarySearchTree.insertAll BinarySearchTree.empty rs).search r.matricula).1 = some r ∧
    (∃ t : AVLTree, AVLTree.insertAll AVLTree.empty rs = some t ∧
      (t.search r.matricula).1 = some r) ∧
    (∃ (ht0 ht : HashTable) (it : Nat), HashTable.init m hf = some ht0 ∧
      HashTable.insertAll ht0 rs = some ht ∧
      HashTable.search ht r.matricula = some (some r, it)) := by
  refine ⟨?_, ?_, ?_, ?_⟩
  · obtain ⟨pre, post, hsplit, hpre, -⟩ := split_of_nodup_keys rs r hnd hr
    rw [LinearArray.search, LinearArray.insertAll_data, LinearArray.empty, List.nil_append,
      hsplit, scanForKey_found pre r post _ hpre rfl]
  · have hp := BinarySearchTree.bst_insertAll_perm rs BinarySearchTree.empty trivial hnd
      (by intro x _; simp [BinarySearchTree.empty, BSTNode.keys, BSTNode.inorder])
    obtain ⟨ho, -, -⟩ := BinarySearchTree.bst_insertAll_spec rs BinarySearchTree.empty trivial
    exact BinarySearchTree.bst_search_found _ r ho (hp.mem_iff.2 (by simp [hr])) 0
  · obtain ⟨t, hall, hp⟩ := AVLTree.insertAll_perm rs AVLTree.empty trivial trivial trivial hnd
      (by intro x _; simp [AVLTree.empty, AVLNode.keys, AVLNode.inorder])
    obtain ⟨t1, hall1, -, -, ho, -, -⟩ :=
      AVLTree.insertAll_spec rs AVLTree.empty trivial trivial trivial
    rw [hall] at hall1
    simp only [Option.some.injEq] at hall1
    subst hall1
    exact ⟨t, hall, AVLTree.search_found _ r ho (hp.mem_iff.2 (by simp [hr])) 0⟩
  · obtain ⟨ht0, hinit, hinv0, -, -, hst0, -⟩ := HashTable.init_inv m hf hm
    obtain ⟨ht, hall, hinv, -, -, hp⟩ := HashTable.ht_insertAll_perm rs ht0 hinv0 hk hnd
      (by intro x _; simp [hst0])
    rw [hst0, List.append_nil] at hp
    obtain ⟨i, b, hi, -, hb⟩ := HashTable.bucket_exists ht r.matricula hinv.1 (hk r hr)
    have hrb : r ∈ b := HashTable.mem_bucket_of_stored ht hinv.2.1 r (hp.mem_iff.2 hr) i b hi hb
    have hbnd : (b.map Record.matricula).Nodup := by
      have hsub : List.Sublist b (HashTable.stored ht) :=
        List.sublist_flatten_of_mem (List.mem_iff_getElem?.2 ⟨i, hb⟩)
      exact ((hp.map Record.matricula).nodup_iff.2 hnd).sublist (hsub.map _)
    obtain ⟨pre, post, hsplit, hpre, -⟩ := split_of_nodup_keys b r hbnd hrb
    refine ⟨ht0, ht, 1 + pre.length + 1, hinit, hall, ?_⟩
    rw [HashTable.search_eq ht _ i b hi hb, hsplit, scanForKey_found pre r post _ hpre rfl]

/-- Witness for C4: the three sample records, the folding hash and 7 buckets. -/
theorem C4_search_returns_inserted_record_witness :
    (Sample.records.map Record.matricula).Nodup ∧
    (∀ x ∈ Sample.records, 0 ≤ x.matricula) ∧ (0 : Int) < 7 ∧
    ("folding" = "division" ∨ "folding" = "folding") ∧
    Sample.r20 ∈ Sample.records ∧
    ((LinearArray.insertAll LinearArray.empty Sample.records).search
        Sample.r20.matricula).1 = some Sample.r20 ∧
    ((BinarySearchTree.insertAll BinarySearchTree.empty Sample.records).search
        Sample.r20.matricula).1 = some Sample.r20 ∧
    (∃ t : AVLTree, AVLTree.insertAll AVLTree.empty Sample.records = some t ∧
      (t.search Sample.r20.matricula).1 = some Sample.r20) ∧
    (∃ (ht0 ht : HashTable) (it : Nat), HashTable.init 7 "folding" = some ht0 ∧
      HashTable.insertAll ht0 Sample.records = some ht ∧
      HashTable.search ht Sample.r20.matricula = some (some Sample.r20, it)) := by
  have h1 : (Sample.records.map Record.matricula).Nodup := by decide
  have h2 : ∀ x ∈ Sample.records, 0 ≤ x.matricula := by decide
  have h3 : (0 : Int) < 7 := by decide
  have h4 : Sample.r20 ∈ Sample.records := by simp [Sample.records]
  exact ⟨h1, h2, h3, Or.inr rfl, h4,
    C4_search_returns_inserted_record Sample.records 7 "folding" Sample.r20 h1 h2 h3
      (Or.inr rfl) h4⟩

/-- C5: for every sequence of records inserted into a fresh `LinearArray`,
`BinarySearchTree` or `AVLTree` and every key `k` that is not the key of any
inserted record, `search(k)` returns not-found (a null record pointer); the same
holds for a fresh `HashTable` with bucket count `m > 0`, whatever its hash
function, when the inserted keys and `k` are non-negative. -/
theorem C5_search_absent_key_not_found (rs : List Record) (k : Int)
    (habs : ∀ x ∈ rs, x.matricula ≠ k) :
    ((LinearArray.insertAll LinearArray.empty rs).search k).1 = none ∧
    ((BinarySearchTree.insertAll BinarySearchTree.empty rs).search k).1 = none ∧
    (∃ t : AVLTree, AVLTree.insertAll AVLTree.empty rs = some t ∧ (t.search k).1 = none) ∧
    (∀ (m : Int) (hf : String), 0 < m → (∀ x ∈ rs, 0 ≤ x.matricula) → 0 ≤ k →
      ∃ (ht0 ht : HashTable) (it : Nat), HashTable.init m hf = some ht0 ∧
        HashTable.insertAll ht0 rs = some ht ∧ HashTable.search ht k = some (none, it)) := by
  have hnotin : k ∉ rs.map Record.matricula := by
    rw [List.mem_map]; rintro ⟨x, hx, hxk⟩; exact habs x hx hxk
  refine ⟨?_, ?_, ?_, ?_⟩
  · rw [LinearArray.search, LinearArray.insertAll_data, LinearArray.empty, List.nil_append,
      scanForKey_not_found rs k habs]
  · obtain ⟨-, -, hkeys⟩ := BinarySearchTree.bst_insertAll_spec rs BinarySearchTree.empty trivial
    refine BinarySearchTree.bst_search_not_found _ k ?_ 0
    rw [hkeys k]
    simpa [BinarySearchTree.empty, BSTNode.keys, BSTNode.inorder] using hnotin
  · obtain ⟨t, hall, -, -, -, -, hkeys⟩ :=
      AVLTree.insertAll_spec rs AVLTree.empty trivial trivial trivial
    refine ⟨t, hall, AVLTree.search_not_found _ k ?_ 0⟩
    rw [hkeys k]
    simpa [AVLTree.empty, AVLNode.keys, AVLNode.inorder] using hnotin
  · intro m hf hm hk hk0
    obtain ⟨ht0, hinit, hinv0, -, -, hst0, -⟩ := HashTable.init_inv m hf hm
    obtain ⟨ht, hall, hinv, -, -, hsub⟩ := HashTable.ht_insertAll_spec rs ht0 hinv0 hk
    obtain ⟨i, b, hi, -, hb⟩ := HashTable.bucket_exists ht k hinv.1 hk0
    have hnb : ∀ x ∈ b, x.matricula ≠ k := by
      intro x hx
      have hxs : x ∈ HashTable.stored ht := (HashTable.mem_stored_iff ht x).2 ⟨i, b, hb, hx⟩
      rcases hsub x hxs with h | h
      · rw [hst0] at h; simp at h
      · exact habs x h
    refine ⟨ht0, ht, 1 + b.length, hinit, hall, ?_⟩
    rw [HashTable.search_eq ht _ i b hi hb, scanForKey_not_found b k hnb]

/-- Witness for C5: the three sample records inserted, key 25 searched; the hash
table uses the multiplication hash and 7 buckets. -/
theorem C5_search_absent_key_not_found_witness :
    (∀ x ∈ Sample.records, x.matricula ≠ 25) ∧
    (0 : Int) < 7 ∧ (∀ x ∈ Sample.records, 0 ≤ x.matricula) ∧ (0 : Int) ≤ 25 ∧
    ((LinearArray.insertAll LinearArray.empty Sample.records).search 25).1 = none ∧
    ((BinarySearchTree.insertAll BinarySearchTree.empty Sample.records).search 25).1 = none ∧
    (∃ t : AVLTree, AVLTree.insertAll AVLTree.empty Sample.records = some t ∧
      (t.search 25).1 = none) ∧
    (∃ (ht0 ht : HashTable) (it : Nat), HashTable.init 7 "multiplication" = some ht0 ∧
      HashTable.insertAll ht0 Sample.records = some ht ∧
      HashTable.search ht 25 = some (none, it)) := by
  have h1 : ∀ x ∈ Sample.records, x.matricula ≠ 25 := by decide
  have h2 : (0 : Int) < 7 := by decide
  have h3 : ∀ x ∈ Sample.records, 0 ≤ x.matricula := by decide
  have h4 : (0 : Int) ≤ 25 := by decide
  have c := C5_search_absent_key_not_found Sample.records 25 h1
  exact ⟨h1, h2, h3, h4, c.1, c.2.1, c.2.2.1, c.2.2.2 7 "multiplication" h2 h3 h4⟩

/-! ### Claims on the hash table and the linear array -/

/-- C6: for every bucket count `m > 0`, every configured hash-function name and
every sequence of inserts of records with non-negative keys into a fresh
`HashTable`, all inserts succeed, every record stored in bucket `i` satisfies
`hashFunction(record.matricula) == i`, and every index used lies in `[0, m)`. -/
theorem C6_hash_buckets_hold_their_hash (m : Int) (hf : String) (rs : List Record)
    (hm : 0 < m) (hk : ∀ x ∈ rs, 0 ≤ x.matricula) :
    ∃ ht0 ht : HashTable, HashTable.init m hf = some ht0 ∧
      HashTable.insertAll ht0 rs = some ht ∧
      (ht.table.length : Int) = m ∧
      (∀ (i : Nat) (b : List Record), ht.table[i]? = some b →
        ∀ x ∈ b, HashTable.hashFunction ht x.matricula = some (i : Int)) ∧
      (∀ x ∈ rs, ∃ i : Int, HashTable.hashFunction ht x.matricula = some i ∧
        0 ≤ i ∧ i < m) := by
  obtain ⟨ht0, hinit, hinv0, -, hs0, -, -⟩ := HashTable.init_inv m hf hm
  obtain ⟨ht, hall, hinv, -, hs, -⟩ := HashTable.ht_insertAll_spec rs ht0 hinv0 hk
  have hsize : ht.table_size = m := hs.trans hs0
  refine ⟨ht0, ht, hinit, hall, ?_, hinv.2.1, ?_⟩
  · rw [hinv.1.2, hsize]
  · intro x hx
    obtain ⟨i, hi, hlt⟩ := HashTable.hashFunction_range ht x.matricula hinv.1.1 (hk x hx)
    exact ⟨i, hi, by omega, by omega⟩

/-- Witness for C6: the three sample records, the multiplication hash, 7 buckets. -/
theorem C6_hash_buckets_hold_their_hash_witness :
    (0 : Int) < 7 ∧ (∀ x ∈ Sample.records, 0 ≤ x.matricula) ∧
    ∃ ht0 ht : HashTable, HashTable.init 7 "multiplication" = some ht0 ∧
      HashTable.insertAll ht0 Sample.records = some ht ∧
      (ht.table.length : Int) = 7 ∧
      (∀ (i : Nat) (b : List Record), ht.table[i]? = some b →
        ∀ x ∈ b, HashTable.hashFunction ht x.matricula = some (i : Int)) ∧
      (∀ x ∈ Sample.records, ∃ i : Int, HashTable.hashFunction ht x.matricula = some i ∧
        0 ≤ i ∧ i < 7) := by
  have h1 : (0 : Int) < 7 := by decide
  have h2 : ∀ x ∈ Sample.records, 0 ≤ x.matricula := by decide
  exact ⟨h1, h2, C6_hash_buckets_hold_their_hash 7 "multiplication" Sample.records h1 h2⟩

/-- C7 as stated fails: for the negative key `-1` and `m = 5` buckets
`hashDivision` returns `-1`, which is not in `[0, 5)`. -/
theorem C7_hashDivision_negative_key_counterexample :
    HashTable.hashDivision (-1) 5 = some (-1) ∧
      ¬ ∃ i : Int, HashTable.hashDivision (-1) 5 = some i ∧ 0 ≤ i ∧ i < 5 := by
  decide

/-- C7 (amended): for every non-negative key `k` and every bucket count `m > 0`,
`hashDivision(k)` equals `k mod m` and lies in the half-open range `[0, m)`. -/
theorem C7_hashDivision_nonneg_key (k m : Int) (hk : 0 ≤ k) (hm : 0 < m) :
    HashTable.hashDivision k m = some (k % m) ∧ 0 ≤ k % m ∧ k % m < m :=
  ⟨HashTable.hashDivision_nonneg k m hk hm, Int.emod_nonneg _ (by omega),
    Int.emod_lt_of_pos _ hm⟩

/-- Witness for C7 (amended): key 123456789 and 5000 buckets. -/
theorem C7_hashDivision_nonneg_key_witness :
    (0 : Int) ≤ 123456789 ∧ (0 : Int) < 5000 ∧
    HashTable.hashDivision 123456789 5000 = some (123456789 % 5000) ∧
    (0 : Int) ≤ 123456789 % 5000 ∧ (123456789 : Int) % 5000 < 5000 :=
  ⟨by decide, by decide, C7_hashDivision_nonneg_key 123456789 5000 (by decide) (by decide)⟩

theorem scanForKey_at (k : Int) : ∀ (l : List Record) (p : Nat) (x : Record) (it : Nat),
    l[p]? = some x → x.matricula = k →
    (∀ (j : Nat) (y : Record), j < p → l[j]? = some y → y.matricula ≠ k) →
    scanForKey l k it = (some x, it + (p + 1)) := by
  intro l
  induction l with
  | nil => intro p x it h; simp at h
  | cons a l ih =>
    intro p x it h hx hfirst
    cases p with
    | zero =>
      simp only [List.getElem?_cons_zero, Option.some.injEq] at h
      subst h
      rw [scanForKey, if_pos hx]
    | succ p =>
      simp only [List.getElem?_cons_succ] at h
      have ha : a.matricula ≠ k := hfirst 0 a (Nat.succ_pos _) (by simp)
      rw [scanForKey, if_neg ha,
        ih p x (it + 1) h hx (fun j y hj hy => hfirst (j + 1) y (by omega) (by simpa using hy))]
      congr 1
      omega

theorem le_scanForKey_count (k : Int) : ∀ (l : List Record) (it : Nat),
    it ≤ (scanForKey l k it).2 := by
  intro l
  induction l with
  | nil => intro it; exact le_rfl
  | cons a l ih =>
    intro it
    rw [scanForKey]
    split_ifs
    · exact Nat.le_succ _
    · exact le_trans (Nat.le_succ _) (ih (it + 1))

/-- C9: for a `LinearArray` holding the records `rs` in insertion order and every
key `k`: if `k` occurs, `search(k)` returns the first record with key `k` and an
iteration count equal to its 1-based position; if `k` does not occur, it returns
not-found with iteration count `n`. In particular, with 500 distinct-key records
inserted, searching the key of the 500th returns that record and the count 500. -/
theorem C9_linear_search_count (rs : List Record) (k : Int) :
    (∀ (p : Nat) (x : Record), rs[p]? = some x → x.matricula = k →
      (∀ (j : Nat) (y : Record), j < p → rs[j]? = some y → y.matricula ≠ k) →
      (LinearArray.insertAll LinearArray.empty rs).search k = (some x, p + 1)) ∧
    ((∀ x ∈ rs, x.matricula ≠ k) →
      (LinearArray.insertAll LinearArray.empty rs).search k = (none, rs.length)) ∧
    (rs.length = 500 → (rs.map Record.matricula).Nodup →
      ∀ x : Record, rs[499]? = some x →
        (LinearArray.insertAll LinearArray.empty rs).search x.matricula = (some x, 500)) := by
  have hdata : (LinearArray.insertAll LinearArray.empty rs).data = rs := by
    rw [LinearArray.insertAll_data, LinearArray.empty, List.nil_append]
  refine ⟨?_, ?_, ?_⟩
  · intro p x hp hx hfirst
    rw [LinearArray.search, hdata, scanForKey_at k rs p x 0 hp hx hfirst, Nat.zero_add]
  · intro habs
    rw [LinearArray.search, hdata, scanForKey_not_found rs k habs, Nat.zero_add]
  · intro _ hnd x hx
    rw [LinearArray.search, hdata]
    refine scanForKey_at x.matricula rs 499 x 0 hx rfl ?_
    intro j y hj hy he
    have h1 : (rs.map Record.matricula)[j]? = some x.matricula := by
      rw [List.getElem?_map, hy, Option.map_some', he]
    have h2 : (rs.map Record.matricula)[499]? = some x.matricula := by
      rw [List.getElem?_map, hx, Option.map_some']
    have hjl : j < (rs.map Record.matricula).length := by
      rw [List.length_map]
      exact (List.getElem?_eq_some.1 hy).1
    have := List.getElem?_inj hjl hnd (h1.trans h2.symm)
    omega

/-- Witness for C9: key 20 is found third among the three sample records, key 25
is absent, and the 500th of the 500 sample records is found with count 500. -/
theorem C9_linear_search_count_witness :
    (LinearArray.insertAll LinearArray.empty Sample.records).search 20 =
        (some Sample.r20, 2 + 1) ∧
    (LinearArray.insertAll LinearArray.empty Sample.records).search 25 =
        (none, Sample.records.length) ∧
    (Sample.consecutive 500).length = 500 ∧ ((Sample.consecutive 500).map Record.matricula).Nodup ∧
    (LinearArray.insertAll LinearArray.empty (Sample.consecutive 500)).search
        (Record.mk 1499 "FUNC" 2000.0 1).matricula =
      (some (Record.mk 1499 "FUNC" 2000.0 1), 500) := by
  have hlen : (Sample.consecutive 500).length = 500 := by
    rw [Sample.consecutive, List.length_map, List.length_range]
  have hnd : ((Sample.consecutive 500).map Record.matricula).Nodup := by
    rw [Sample.consecutive, List.map_map]
    refine (List.nodup_range 500).map ?_
    intro a b hab
    simp only [Function.comp] at hab
    omega
  have hlast : (Sample.consecutive 500)[499]? = some (Record.mk 1499 "FUNC" 2000.0 1) := by
    rw [Sample.consecutive, List.getElem?_map, List.getElem?_range (by decide)]
    rfl
  have hfirst : ∀ (j : Nat) (y : Record), j < 2 → Sample.records[j]? = some y →
      y.matricula ≠ 20 := by
    intro j y hj hy
    interval_cases j
    · simp only [Sample.records, List.getElem?_cons_zero, Option.some.injEq] at hy
      rw [← hy]; decide
    · simp only [Sample.records, List.getElem?_cons_succ, List.getElem?_cons_zero,
        Option.some.injEq] at hy
      rw [← hy]; decide
  refine ⟨?_, ?_, hlen, hnd, ?_⟩
  · exact (C9_linear_search_count Sample.records 20).1 2 Sample.r20 rfl rfl hfirst
  · exact (C9_linear_search_count Sample.records 25).2.1 (by decide)
  · exact (C9_linear_search_count (Sample.consecutive 500) 1499).2.2 hlen hnd
      (Record.mk 1499 "FUNC" 2000.0 1) hlast

namespace HashTable

/-- The count returned by `insert` is the count the duplicate scan of the target
bucket ends with, whether or not the record is appended. -/
theorem insert_count (ht : HashTable) (record : Record) (i : Int) (b : List Record)
    (hi : hashFunction ht record.matricula = some i) (hb : bucketAt ht i = some b) :
    ∃ ht1, insert ht record = some (ht1, (scanForKey b record.matricula 1).2) := by
  simp only [insert, hi, hb]
  rcases hscan : scanForKey b record.matricula 1 with ⟨res, it⟩
  cases res with
  | none => exact ⟨_, rfl⟩
  | some x => exact ⟨_, rfl⟩

end HashTable

/-- C10: for every `HashTable` state with `m > 0` buckets and non-negative key `k`
the target bucket `b = table[hashFunction(k)]` exists, and: `insert` of a record
with key `k` returns `1 + length(b)` when `k` is not in `b` and `1 + p` when `k` is
first stored at 1-based position `p` of `b` (here `p` is 0-based, so `1 + (p + 1)`);
`search(k)` returns count `1 + p` with the record found at position `p` and
`1 + length(b)` with not-found otherwise. The count is never less than 1. -/
theorem C10_hash_iteration_counts (ht : HashTable) (k : Int)
    (hw : HashTable.WellFormed ht) (hk : 0 ≤ k) :
    (∃ (i : Int) (b : List Record), HashTable.hashFunction ht k = some i ∧
      HashTable.bucketAt ht i = some b) ∧
    ∀ (i : Int) (b : List Record), HashTable.hashFunction ht k = some i →
      HashTable.bucketAt ht i = some b →
      (∀ record : Record, record.matricula = k →
        ((∀ x ∈ b, x.matricula ≠ k) →
          ∃ ht1, HashTable.insert ht record = some (ht1, 1 + b.length)) ∧
        (∀ (p : Nat) (x : Record), b[p]? = some x → x.matricula = k →
          (∀ (j : Nat) (y : Record), j < p → b[j]? = some y → y.matricula ≠ k) →
          ∃ ht1, HashTable.insert ht record = some (ht1, 1 + (p + 1))) ∧
        (∀ (ht1 : HashTable) (it : Nat), HashTable.insert ht record = some (ht1, it) →
          1 ≤ it)) ∧
      ((∀ x ∈ b, x.matricula ≠ k) → HashTable.search ht k = some (none, 1 + b.length)) ∧
      (∀ (p : Nat) (x : Record), b[p]? = some x → x.matricula = k →
        (∀ (j : Nat) (y : Record), j < p → b[j]? = some y → y.matricula ≠ k) →
        HashTable.search ht k = some (some x, 1 + (p + 1))) ∧
      (∀ (res : Option Record) (it : Nat), HashTable.search ht k = some (res, it) →
        1 ≤ it) := by
  refine ⟨?_, ?_⟩
  · obtain ⟨i, b, hi, -, hb⟩ := HashTable.bucket_exists ht k hw hk
    exact ⟨i, b, hi, by rw [HashTable.bucketAt_natCast]; exact hb⟩
  · intro i b hi hb
    have hsearch : HashTable.search ht k = some (scanForKey b k 1) := by
      simp only [HashTable.search, hi, hb]
    refine ⟨?_, ?_, ?_, ?_⟩
    · intro record hrec
      subst hrec
      obtain ⟨ht1, hins⟩ := HashTable.insert_count ht record i b hi hb
      refine ⟨?_, ?_, ?_⟩
      · intro hnew
        rw [scanForKey_not_found b _ hnew] at hins
        exact ⟨ht1, hins⟩
      · intro p x hp hx hfirst
        rw [scanForKey_at _ b p x 1 hp hx hfirst] at hins
        exact ⟨ht1, hins⟩
      · intro ht2 it h
        rw [hins] at h
        simp only [Option.some.injEq, Prod.mk.injEq] at h
        rw [← h.2]
        exact le_scanForKey_count _ b 1
    · intro hnew
      rw [hsearch, scanForKey_not_found b k hnew]
    · intro p x hp hx hfirst
      rw [hsearch, scanForKey_at k b p x 1 hp hx hfirst]
    · intro res it h
      rw [hsearch] at h
      simp only [Option.some.injEq] at h
      have := le_scanForKey_count k b 1
      rw [h] at this
      exact this

/-- Witness for C10: in the two-bucket sample table, key 10 is stored second in
bucket 0 (insert and search return 3) and key 4 hashes to bucket 0 without being
stored (insert and search return 1 + 2). -/
theorem C10_hash_iteration_counts_witness :
    HashTable.WellFormed Sample.table2 ∧ (0 : Int) ≤ 10 ∧ (0 : Int) ≤ 4 ∧
    HashTable.hashFunction Sample.table2 10 = some 0 ∧
    HashTable.hashFunction Sample.table2 4 = some 0 ∧
    HashTable.bucketAt Sample.table2 0 = some [Sample.r30, Sample.r10] ∧
    (∃ ht1, HashTable.insert Sample.table2 (Record.mk 10 "NEW" 2000.0 1) =
      some (ht1, 1 + (1 + 1))) ∧
    HashTable.search Sample.table2 10 = some (some Sample.r10, 1 + (1 + 1)) ∧
    (∃ ht1, HashTable.insert Sample.table2 (Record.mk 4 "NEW" 2000.0 1) =
      some (ht1, 1 + [Sample.r30, Sample.r10].length)) ∧
    HashTable.search Sample.table2 4 = some (none, 1 + [Sample.r30, Sample.r10].length) := by
  have hw : HashTable.WellFormed Sample.table2 := ⟨by decide, by decide⟩
  have h10 : HashTable.hashFunction Sample.table2 10 = some 0 := by decide
  have h4 : HashTable.hashFunction Sample.table2 4 = some 0 := by decide
  have hb : HashTable.bucketAt Sample.table2 0 = some [Sample.r30, Sample.r10] := rfl
  have hfirst : ∀ (j : Nat) (y : Record), j < 1 →
      [Sample.r30, Sample.r10][j]? = some y → y.matricula ≠ 10 := by
    intro j y hj hy
    interval_cases j
    simp only [List.getElem?_cons_zero, Option.some.injEq] at hy
    rw [← hy]; decide
  have hnew : ∀ x ∈ [Sample.r30, Sample.r10], x.matricula ≠ 4 := by decide
  have c10 := (C10_hash_iteration_counts Sample.table2 10 hw (by decide)).2 0 _ h10 hb
  have c4 := (C10_hash_iteration_counts Sample.table2 4 hw (by decide)).2 0 _ h4 hb
  exact ⟨hw, by decide, by decide, h10, h4, hb,
    (c10.1 (Record.mk 10 "NEW" 2000.0 1) rfl).2.1 1 Sample.r10 rfl rfl hfirst,
    c10.2.2.1 1 Sample.r10 rfl rfl hfirst,
    (c4.1 (Record.mk 4 "NEW" 2000.0 1) rfl).1 hnew,
    c4.2.1 hnew⟩

/-! ### AVL height bound -/

namespace AVLTree
open AVLNode

/-- The AVL minimum-node bound: a balanced tree of height `h` has at least
`Fib(h + 2) - 1` nodes. -/
theorem fib_le_size (t : AVLNode) :
    AVLNode.Balanced t → Nat.fib (trueHeight t + 2) ≤ (inorder t).length + 1 := by
  induction t with
  | null => intro _; simp [trueHeight, inorder]
  | node rec l r h ihl ihr =>
    intro hb
    rw [balanced_node] at hb
    obtain ⟨hbl, hbr, h1, h2⟩ := hb
    have il := ihl hbl
    have ir := ihr hbr
    simp only [trueHeight, inorder, List.length_append, List.length_cons]
    rcases le_total (trueHeight r) (trueHeight l) with hle | hle
    · rw [max_eq_left hle, show 1 + trueHeight l + 2 = trueHeight l + 1 + 2 by omega,
        Nat.fib_add_two]
      have hm : Nat.fib (trueHeight l + 1) ≤ Nat.fib (trueHeight r + 2) :=
        Nat.fib_mono (by omega)
      rw [show trueHeight l + 1 + 1 = trueHeight l + 2 by omega]
      omega
    · rw [max_eq_right hle, show 1 + trueHeight r + 2 = trueHeight r + 1 + 2 by omega,
        Nat.fib_add_two]
      have hm : Nat.fib (trueHeight r + 1) ≤ Nat.fib (trueHeight l + 2) :=
        Nat.fib_mono (by omega)
      rw [show trueHeight r + 1 + 1 = trueHeight r + 2 by omega]
      omega

end AVLTree

/-- Pairwise distinct keys that fit a 32-bit `int` are at most `2^32` many. -/
theorem length_le_of_int_keys (l : List Int) (hnd : l.Nodup)
    (hr : ∀ k ∈ l, -2147483648 ≤ k ∧ k < 2147483648) : l.length ≤ 4294967296 := by
  have hsub : l.toFinset ⊆ Finset.Ico (-2147483648 : Int) 2147483648 := by
    intro k hk
    rw [List.mem_toFinset] at hk
    rw [Finset.mem_Ico]
    exact hr k hk
  have hcard := Finset.card_le_card hsub
  rw [List.toFinset_card_of_nodup hnd, Int.card_Ico] at hcard
  simpa using hcard

/-- A height `h` with `Fib(h + 2) ≤ n + 1` and `n ≤ 2^32` satisfies `2^(25 h) ≤ (n + 2)^36`. -/
theorem pow_height_le (h n : Nat) (hfib : Nat.fib (h + 2) ≤ n + 1) (hn : n ≤ 4294967296) :
    2 ^ (25 * h) ≤ (n + 2) ^ 36 := by
  have hh : h ≤ 45 := by
    by_contra hc
    have h1 : Nat.fib 48 ≤ Nat.fib (h + 2) := Nat.fib_mono (by omega)
    have h2 : Nat.fib 48 = 4807526976 := by norm_num
    omega
  have key : 2 ^ (25 * h) ≤ (Nat.fib (h + 2) + 1) ^ 36 := by
    interval_cases h <;> norm_num
  exact le_trans key (Nat.pow_le_pow_left (by omega) 36)

/-- From `2^p ≤ a^36` to `p ≤ 36 log2 a`. -/
theorem le_logb_of_pow_le (p a : Nat) (h : 2 ^ p ≤ a ^ 36) :
    (p : ℝ) ≤ 36 * Real.logb 2 (a : ℝ) := by
  have h2 : ((2 : ℝ) ^ p) ≤ (a : ℝ) ^ 36 := by exact_mod_cast h
  have h3 := Real.logb_le_logb_of_le (by norm_num : (1 : ℝ) < 2) (by positivity) h2
  rw [Real.logb_pow, Real.logb_pow, Real.logb_self_eq_one (by norm_num)] at h3
  simpa using h3

/-- C8: inserting `n` records with pairwise distinct keys into an empty `AVLTree`
succeeds and the final `height()` `h` satisfies `Fib(h + 2) ≤ n + 1` (that is
`n ≥ Fib(h + 2) - 1`); hence, the keys being values of the 32-bit `int` key type,
`h ≤ 1.44 * log2(n + 2)`; for `n = 1000` the height is at most
`15 = ceil(1.44 * log2(1002))` and the in-order traversal has exactly 1000 entries. -/
theorem C8_avl_height_bound (rs : List Record)
    (hnd : (rs.map Record.matricula).Nodup) :
    ∃ (t : AVLTree) (h : Nat), AVLTree.insertAll AVLTree.empty rs = some t ∧
      t.height = (h : Int) ∧
      Nat.fib (h + 2) ≤ rs.length + 1 ∧
      ((∀ x ∈ rs, -2147483648 ≤ x.matricula ∧ x.matricula < 2147483648) →
        (h : ℝ) ≤ 1.44 * Real.logb 2 ((rs.length : ℝ) + 2)) ∧
      (rs.length = 1000 → h ≤ 15 ∧ (AVLNode.inorder t.root).length = 1000) ∧
      ⌈(1.44 : ℝ) * Real.logb 2 1002⌉ = 15 := by
  obtain ⟨t, hall, hp⟩ := AVLTree.insertAll_perm rs AVLTree.empty trivial trivial trivial hnd
    (by intro x _; simp [AVLTree.empty, AVLNode.keys, AVLNode.inorder])
  obtain ⟨t1, hall1, hc, hb, -, -, -⟩ :=
    AVLTree.insertAll_spec rs AVLTree.empty trivial trivial trivial
  rw [hall] at hall1
  simp only [Option.some.injEq] at hall1
  subst hall1
  have hlen : (AVLNode.inorder t.root).length = rs.length := by
    rw [hp.length_eq]; simp [AVLTree.empty, AVLNode.inorder]
  have hfib : Nat.fib (AVLNode.trueHeight t.root + 2) ≤ rs.length + 1 := by
    rw [← hlen]; exact AVLTree.fib_le_size t.root hb
  refine ⟨t, AVLNode.trueHeight t.root, hall, AVLTree.getHeight_eq hc, hfib, ?_, ?_, ?_⟩
  · intro hint
    have hn : rs.length ≤ 4294967296 := by
      have := length_le_of_int_keys (rs.map Record.matricula) hnd (by
        intro k hk
        obtain ⟨x, hx, rfl⟩ := List.mem_map.1 hk
        exact hint x hx)
      simpa using this
    have h1 := le_logb_of_pow_le _ _ (pow_height_le _ _ hfib hn)
    push_cast at h1
    linarith
  · intro h1000
    refine ⟨?_, by rw [hlen, h1000]⟩
    by_contra hc15
    have h1 : Nat.fib 17 ≤ Nat.fib (AVLNode.trueHeight t.root + 2) := Nat.fib_mono (by omega)
    have h2 : Nat.fib 17 = 1597 := by norm_num
    omega
  · rw [Int.ceil_eq_iff]
    have hlo : ((350 : Nat) : ℝ) < 36 * Real.logb 2 ((1002 : Nat) : ℝ) := by
      have h2 : ((2 : ℝ) ^ 350) < ((1002 : Nat) : ℝ) ^ 36 := by norm_num
      have h3 := Real.logb_lt_logb (by norm_num : (1 : ℝ) < 2) (by positivity) h2
      rw [Real.logb_pow, Real.logb_pow, Real.logb_self_eq_one (by norm_num)] at h3
      simpa using h3
    have hhi : 36 * Real.logb 2 ((1002 : Nat) : ℝ) ≤ ((375 : Nat) : ℝ) := by
      have h2 : ((1002 : Nat) : ℝ) ^ 36 ≤ ((2 : ℝ) ^ 375) := by norm_num
      have h3 := Real.logb_le_logb_of_le (by norm_num : (1 : ℝ) < 2) (by positivity) h2
      rw [Real.logb_pow, Real.logb_pow, Real.logb_self_eq_one (by norm_num)] at h3
      simpa using h3
    push_cast at hlo hhi ⊢
    constructor <;> linarith

/-- Witness for C8: one thousand records with the keys 1000, ..., 1999. -/
theorem C8_avl_height_bound_witness :
    ((Sample.consecutive 1000).map Record.matricula).Nodup ∧
    (∀ x ∈ Sample.consecutive 1000,
      -2147483648 ≤ x.matricula ∧ x.matricula < 2147483648) ∧
    (Sample.consecutive 1000).length = 1000 ∧
    ∃ (t : AVLTree) (h : Nat),
      AVLTree.insertAll AVLTree.empty (Sample.consecutive 1000) = some t ∧
      t.height = (h : Int) ∧
      Nat.fib (h + 2) ≤ (Sample.consecutive 1000).length + 1 ∧
      (h : ℝ) ≤ 1.44 * Real.logb 2 (((Sample.consecutive 1000).length : ℝ) + 2) ∧
      h ≤ 15 ∧ (AVLNode.inorder t.root).length = 1000 := by
  have h1 : ((Sample.consecutive 1000).map Record.matricula).Nodup := by
    rw [Sample.consecutive, List.map_map]
    refine (List.nodup_range 1000).map ?_
    intro a b hab
    simp only [Function.comp] at hab
    omega
  have h2 : ∀ x ∈ Sample.consecutive 1000,
      -2147483648 ≤ x.matricula ∧ x.matricula < 2147483648 := by
    intro x hx
    rw [Sample.consecutive, List.mem_map] at hx
    obtain ⟨i, hi, rfl⟩ := hx
    rw [List.mem_range] at hi
    simp only
    omega
  have h3 : (Sample.consecutive 1000).length = 1000 := by
    rw [Sample.consecutive, List.length_map, List.length_range]
  obtain ⟨t, h, hall, hh, hfib, hlog, h1000, -⟩ :=
    C8_avl_height_bound (Sample.consecutive 1000) h1
  exact ⟨h1, h2, h3, t, h, hall, hh, hfib, hlog h2, (h1000 h3).1, (h1000 h3).2⟩

/-! ### Hash table: reachable states, counters and statistics -/

namespace HashTable

/-- What a successful `insert` did: it found the target bucket `b` at index `i`
and either met the key in `b` and changed only the collision counter, or appended
the record to `b`. -/
theorem insert_some_cases (ht : HashTable) (record : Record) (ht1 : HashTable) (it : Nat)
    (h : insert ht record = some (ht1, it)) :
    ∃ (i : Nat) (b : List Record), hashFunction ht record.matricula = some (i : Int) ∧
      ht.table[i]? = some b ∧ it = (scanForKey b record.matricula 1).2 ∧
      (((∃ x ∈ b, x.matricula = record.matricula) ∧
          ht1 = { ht with collisions :=
                    if b.isEmpty then ht.collisions else ht.collisions + 1 }) ∨
        ((∀ x ∈ b, x.matricula ≠ record.matricula) ∧
          ht1 = { ht with table := ht.table.set i (b ++ [record]),
                          collisions := if b.isEmpty then ht.collisions else ht.collisions + 1,
                          total_elements := ht.total_elements + 1 })) := by
  rcases hidx : hashFunction ht record.matricula with _ | idx
  · simp [insert, hidx] at h
  · rcases hbk : bucketAt ht idx with _ | b
    · simp [insert, hidx, hbk] at h
    · have hnn : ¬ idx < 0 := by
        intro hneg
        rw [bucketAt, if_pos hneg] at hbk
        exact Option.noConfusion hbk
      obtain ⟨i, rfl⟩ : ∃ i : Nat, idx = (i : Int) := ⟨idx.toNat, by omega⟩
      rw [bucketAt_natCast] at hbk
      refine ⟨i, b, rfl, hbk, ?_, ?_⟩
      · obtain ⟨ht2, h2⟩ := insert_count ht record (i : Int) b hidx
          (by rw [bucketAt_natCast]; exact hbk)
        rw [h] at h2
        simp only [Option.some.injEq, Prod.mk.injEq] at h2
        exact h2.2
      · by_cases hex : ∃ x ∈ b, x.matricula = record.matricula
        · obtain ⟨pre, x, post, hsplit, hxk, hpre⟩ := exists_first_with_key _ b hex
          have hb2 := hbk
          rw [hsplit] at hb2
          have h2 := insert_dup ht record i pre x post hidx hb2 hpre hxk
          rw [h] at h2
          simp only [Option.some.injEq, Prod.mk.injEq] at h2
          rw [← hsplit] at h2
          exact Or.inl ⟨hex, h2.1⟩
        · have hnew : ∀ x ∈ b, x.matricula ≠ record.matricula :=
            fun x hx he => hex ⟨x, hx, he⟩
          have h2 := insert_new ht record i b hidx hbk hnew
          rw [h] at h2
          simp only [Option.some.injEq, Prod.mk.injEq] at h2
          exact Or.inr ⟨hnew, h2.1⟩

/-- The part of the representation invariant that needs no assumption on the
bucket count: buckets hold their hash, the element counter is the number of stored
records, and no key is stored twice. -/
theorem ht_insert_preserves (ht : HashTable) (record : Record) (ht1 : HashTable) (it : Nat)
    (h : insert ht record = some (ht1, it)) (hbh : BucketsHashed ht)
    (hcount : ht.total_elements = (stored ht).length)
    (hnd : ((stored ht).map Record.matricula).Nodup) :
    BucketsHashed ht1 ∧ ht1.total_elements = (stored ht1).length ∧
      ((stored ht1).map Record.matricula).Nodup ∧
      ht1.hash_function_name = ht.hash_function_name ∧ ht1.table_size = ht.table_size ∧
      ht1.table.length = ht.table.length ∧
      ((record.matricula ∈ (stored ht).map Record.matricula ∧ ht1.table = ht.table ∧
          ht1.total_elements = ht.total_elements) ∨
        (record.matricula ∉ (stored ht).map Record.matricula ∧
          (stored ht1).Perm (record :: stored ht) ∧
          ht1.total_elements = ht.total_elements + 1)) := by
  obtain ⟨i, b, hi, hb, -, hcase⟩ := insert_some_cases ht record ht1 it h
  rcases hcase with ⟨⟨x, hx, hxk⟩, rfl⟩ | ⟨hnew, rfl⟩
  · refine ⟨hbh, hcount, hnd, rfl, rfl, rfl, Or.inl ⟨?_, rfl, rfl⟩⟩
    rw [List.mem_map]
    exact ⟨x, (mem_stored_iff ht x).2 ⟨i, b, hb, hx⟩, hxk⟩
  · have hperm := flatten_set_perm record ht.table i b hb
    have hnot : record.matricula ∉ (stored ht).map Record.matricula := by
      rw [List.mem_map]
      rintro ⟨x, hx, hxk⟩
      exact hnew x (mem_bucket_of_stored ht hbh x hx i b (hxk ▸ hi) hb) hxk
    refine ⟨?_, ?_, ?_, rfl, rfl, ?_, Or.inr ⟨hnot, hperm, rfl⟩⟩
    · intro j c hj y hy
      show hashFunction ht y.matricula = some (j : Int)
      simp only [List.getElem?_set] at hj
      split_ifs at hj with h1 h2
      · simp only [Option.some.injEq] at hj
        subst hj
        subst h1
        rcases List.mem_append.1 hy with hy | hy
        · exact hbh _ b hb y hy
        · rw [List.mem_singleton.1 hy]; exact hi
      · exact hbh j c hj y hy
    · show ht.total_elements + 1 = (List.flatten _).length
      rw [hperm.length_eq, List.length_cons, hcount]
      rfl
    · show ((List.flatten _).map Record.matricula).Nodup
      rw [(hperm.map Record.matricula).nodup_iff, List.map_cons, List.nodup_cons]
      exact ⟨hnot, hnd⟩
    · simp only [List.length_set]

theorem init_some (m : Int) (hf : String) (ht0 : HashTable) (h : init m hf = some ht0) :
    0 ≤ m ∧ ht0 = { table := List.replicate m.toNat [], hash_function_name := hf,
                    collisions := 0, total_elements := 0, table_size := m } := by
  unfold init at h
  split_ifs at h with hneg
  simp only [Option.some.injEq] at h
  exact ⟨by omega, h.symm⟩

theorem flatten_replicate_nil (n : Nat) :
    (List.replicate n ([] : List Record)).flatten = [] := by
  induction n with
  | zero => rfl
  | succ n ih => simp [List.replicate_succ, ih]

/-- Every state reached from a fresh table by successful inserts satisfies the
representation invariant. -/
theorem reachable_inv (rs : List Record) : ∀ (ht ht1 : HashTable),
    insertAll ht rs = some ht1 → BucketsHashed ht →
    ht.total_elements = (stored ht).length → ((stored ht).map Record.matricula).Nodup →
    BucketsHashed ht1 ∧ ht1.total_elements = (stored ht1).length ∧
      ((stored ht1).map Record.matricula).Nodup ∧
      ht1.hash_function_name = ht.hash_function_name ∧ ht1.table_size = ht.table_size ∧
      ht1.table.length = ht.table.length := by
  induction rs with
  | nil =>
    intro ht ht1 h hbh hc hnd
    simp only [insertAll, Option.some.injEq] at h
    subst h
    exact ⟨hbh, hc, hnd, rfl, rfl, rfl⟩
  | cons r rs ih =>
    intro ht ht1 h hbh hc hnd
    rw [insertAll] at h
    rcases hins : insert ht r with _ | ⟨ht2, it⟩
    · rw [hins] at h; exact Option.noConfusion h
    · rw [hins] at h
      obtain ⟨hbh2, hc2, hnd2, hn2, hs2, hl2, -⟩ :=
        ht_insert_preserves ht r ht2 it hins hbh hc hnd
      obtain ⟨hbh1, hc1, hnd1, hn1, hs1, hl1⟩ := ih ht2 ht1 h hbh2 hc2 hnd2
      exact ⟨hbh1, hc1, hnd1, hn1.trans hn2, hs1.trans hs2, hl1.trans hl2⟩

theorem fresh_reachable_inv (m : Int) (hf : String) (rs : List Record) (ht0 ht : HashTable)
    (hinit : init m hf = some ht0) (hall : insertAll ht0 rs = some ht) :
    BucketsHashed ht ∧ ht.total_elements = (stored ht).length ∧
      ((stored ht).map Record.matricula).Nodup ∧
      ht.hash_function_name = hf ∧ ht.table_size = m ∧ 0 ≤ m ∧
      ht.table.length = m.toNat := by
  obtain ⟨hm, rfl⟩ := init_some m hf ht0 hinit
  obtain ⟨h1, h2, h3, h4, h5, h6⟩ := reachable_inv rs _ ht hall
    (by
      intro i b hb x hx
      simp only [List.getElem?_replicate] at hb
      split_ifs at hb
      simp only [Option.some.injEq] at hb
      subst hb
      simp at hx)
    (by simp [stored, flatten_replicate_nil])
    (by simp [stored, flatten_replicate_nil])
  exact ⟨h1, h2, h3, h4, h5, hm, by rw [h6]; simp⟩

end HashTable

namespace Double

theorem roundHalfEven_eq_of_abs_lt (y : Rat) (N : Int) (h : |y - N| < 1 / 2) :
    roundHalfEven y = N := by
  rw [abs_lt] at h
  have hfl : (⌊y⌋ : Rat) ≤ y := Int.floor_le y
  have hfu : y < (⌊y⌋ : Rat) + 1 := Int.lt_floor_add_one y
  have hcase : ⌊y⌋ = N ∨ ⌊y⌋ = N - 1 := by
    have h1 : (⌊y⌋ : Rat) < (N : Rat) + 1 := by linarith
    have h2 : (N : Rat) - 2 < (⌊y⌋ : Rat) := by linarith
    have h1' : ⌊y⌋ < N + 1 := by exact_mod_cast h1
    have h2' : N - 2 < ⌊y⌋ := by exact_mod_cast h2
    omega
  unfold roundHalfEven
  simp only
  rcases hcase with hc | hc
  · have hd : y - (⌊y⌋ : Rat) < 1 / 2 := by rw [hc]; linarith
    rw [if_pos hd, hc]
  · have hc' : (⌊y⌋ : Rat) = (N : Rat) - 1 := by rw [hc]; push_cast; ring
    have hd : ¬ (y - (⌊y⌋ : Rat) < 1 / 2) := by rw [hc']; linarith
    have hd2 : 1 / 2 < y - (⌊y⌋ : Rat) := by rw [hc']; linarith
    rw [if_neg hd, if_pos hd2, hc]
    ring

/-- Evaluation of `round` at a positive value whose binade and nearest multiple
of the spacing are known. -/
theorem round_eval (x : Rat) (e N : Int) (hx : 0 < x) (h1 : (2 : Rat) ^ e ≤ x)
    (h2 : x < (2 : Rat) ^ (e + 1)) (h3 : |x / 2 ^ (e - 52) - N| < 1 / 2) :
    round x = (N : Rat) * 2 ^ (e - 52) := by
  have he : Int.log 2 x = e := by
    have ha : e ≤ Int.log 2 x := (Int.zpow_le_iff_le_log (by norm_num) hx).1 (by exact_mod_cast h1)
    have hb : Int.log 2 x < e + 1 :=
      (Int.lt_zpow_iff_log_lt (by norm_num) hx).1 (by exact_mod_cast h2)
    omega
  unfold round
  rw [if_neg (ne_of_gt hx), abs_of_pos hx]
  simp only
  rw [he, roundHalfEven_eq_of_abs_lt _ N h3]

/-- The `double` written `0.03`: the binary64 value nearest to `3/100`. -/
theorem round_three_hundredths :
    round (3 / 100) = 1080863910568919 / 36028797018963968 := by
  rw [round_eval (3 / 100) (-6) 8646911284551352 (by norm_num) (by norm_num) (by norm_num)
    (by
      rw [abs_lt]
      constructor <;> norm_num)]
  norm_num

end Double

namespace HashTable

/-- One `insert` adds one to the collision counter exactly when its target bucket
is non-empty. -/
theorem insert_collisions (ht ht1 : HashTable) (record : Record) (it : Nat) (idx : Int)
    (b : List Record) (h : insert ht record = some (ht1, it))
    (hi : hashFunction ht record.matricula = some idx) (hb : bucketAt ht idx = some b) :
    ht1.collisions = ht.collisions + (if b.isEmpty then 0 else 1) := by
  obtain ⟨i, c, hi', hc, -, hcase⟩ := insert_some_cases ht record ht1 it h
  rw [hi] at hi'
  simp only [Option.some.injEq] at hi'
  subst hi'
  rw [bucketAt_natCast, hc] at hb
  simp only [Option.some.injEq] at hb
  subst hb
  rcases hcase with ⟨-, rfl⟩ | ⟨-, rfl⟩ <;>
    · show (if c.isEmpty then ht.collisions else ht.collisions + 1) = _
      split_ifs <;> rfl

theorem collisions_insertAll (rs : List Record) : ∀ (ht ht1 : HashTable),
    insertAll ht rs = some ht1 → ht1.collisions = ht.collisions + collidingCalls ht rs := by
  induction rs with
  | nil =>
    intro ht ht1 h
    simp only [insertAll, Option.some.injEq] at h
    subst h
    rfl
  | cons r rs ih =>
    intro ht ht1 h
    rw [insertAll] at h
    rcases hins : insert ht r with _ | ⟨ht2, it⟩
    · rw [hins] at h; exact Option.noConfusion h
    · rw [hins] at h
      obtain ⟨i, b, hi, hb, -, -⟩ := insert_some_cases ht r ht2 it hins
      have hb' : bucketAt ht (i : Int) = some b := by rw [bucketAt_natCast]; exact hb
      have h2 := insert_collisions ht ht2 r it i b hins hi hb'
      have h1 := ih ht2 ht1 h
      have hcc : collidingCalls ht (r :: rs) =
          (if b.isEmpty then 0 else 1) + collidingCalls ht2 rs := by
        simp only [collidingCalls, hi, Option.some_bind, hb', hins]
      rw [h1, h2, hcc]
      omega

theorem getMaxChainLength_table100 : getMaxChainLength Sample.table100 = 3 := by
  have h : ∀ (n : Nat) (a : Nat),
      (List.replicate n ([] : List Record)).foldl
        (fun max_length bucket => max max_length bucket.length) a = a := by
    intro n
    induction n with
    | zero => intro a; rfl
    | succ n ih => intro a; simp [List.replicate_succ, ih]
  simp only [getMaxChainLength, Sample.table100, List.foldl_cons, h]
  rfl

end HashTable

/-- C11: for every sequence of inserts into a fresh `HashTable`, the collision
counter equals the number of insert calls whose target bucket was non-empty at the
moment of the call; each such call adds exactly one, whatever the chain length, and
a call landing on an empty bucket adds nothing. `HashTable(100, "division")` after
inserting keys 100, 200, 300 has all three records in bucket 0, collision count 2,
load factor `3.0 / 100` (the `double` 0.03) and maximum chain length 3. -/
theorem C11_collision_counter (m : Int) (hf : String) (rs : List Record)
    (ht0 ht : HashTable) (hinit : HashTable.init m hf = some ht0)
    (hall : HashTable.insertAll ht0 rs = some ht) :
    ht.collisions = HashTable.collidingCalls ht0 rs ∧
    (∀ (s s1 : HashTable) (r : Record) (it : Nat) (idx : Int) (b : List Record),
      HashTable.insert s r = some (s1, it) →
      HashTable.hashFunction s r.matricula = some idx → HashTable.bucketAt s idx = some b →
      s1.collisions = s.collisions + (if b.isEmpty then 0 else 1)) ∧
    (∃ h0 : HashTable, HashTable.init 100 "division" = some h0 ∧
      HashTable.insertAll h0 [Sample.r100, Sample.r200, Sample.r300] =
        some Sample.table100 ∧
      Sample.table100.table[0]? = some [Sample.r100, Sample.r200, Sample.r300] ∧
      Sample.table100.collisions = 2 ∧
      HashTable.getLoadFactor Sample.table100 = some (Double.round (3 / 100)) ∧
      Double.round (3 / 100) = 1080863910568919 / 36028797018963968 ∧
      HashTable.getMaxChainLength Sample.table100 = 3) := by
  refine ⟨?_, ?_, ?_⟩
  · have h0 := (HashTable.init_some m hf ht0 hinit).2
    have := HashTable.collisions_insertAll rs ht0 ht hall
    rw [this, h0]
    simp
  · intro s s1 r it idx b h hi hb
    exact HashTable.insert_collisions s s1 r it idx b h hi hb
  · refine ⟨_, rfl, rfl, rfl, rfl, ?_, Double.round_three_hundredths,
      HashTable.getMaxChainLength_table100⟩
    simp only [HashTable.getLoadFactor, Sample.table100]
    norm_num

/-- Witness for C11: the table of 100 buckets and the keys 100, 200, 300. -/
theorem C11_collision_counter_witness :
    (∃ h0 : HashTable, HashTable.init 100 "division" = some h0 ∧
      HashTable.insertAll h0 [Sample.r100, Sample.r200, Sample.r300] =
        some Sample.table100 ∧
      Sample.table100.collisions =
        HashTable.collidingCalls h0 [Sample.r100, Sample.r200, Sample.r300]) ∧
    HashTable.collidingCalls
      { table := List.replicate 100 [], hash_function_name := "division", collisions := 0,
        total_elements := 0, table_size := 100 }
      [Sample.r100, Sample.r200, Sample.r300] = 2 := by
  have hinit : HashTable.init 100 "division" = some
      { table := List.replicate 100 [], hash_function_name := "division", collisions := 0,
        total_elements := 0, table_size := 100 } := rfl
  have hall : HashTable.insertAll
      { table := List.replicate 100 [], hash_function_name := "division", collisions := 0,
        total_elements := 0, table_size := 100 }
      [Sample.r100, Sample.r200, Sample.r300] = some Sample.table100 := rfl
  have c := C11_collision_counter 100 "division" [Sample.r100, Sample.r200, Sample.r300]
    _ _ hinit hall
  exact ⟨⟨_, hinit, hall, c.1⟩, c.1.symm⟩

/-- C12 as stated fails: after inserting the three distinct keys 100, 200, 300 into
`HashTable(100, "division")`, `size()` is 3 but `getLoadFactor()` is the `double`
`1080863910568919 / 2^55`, not the rational `3 / 100`. -/
theorem C12_load_factor_not_exact_counterexample :
    ∃ h0 : HashTable, HashTable.init 100 "division" = some h0 ∧
      HashTable.insertAll h0 [Sample.r100, Sample.r200, Sample.r300] =
        some Sample.table100 ∧
      HashTable.size Sample.table100 = 3 ∧
      HashTable.getLoadFactor Sample.table100 =
        some (1080863910568919 / 36028797018963968) ∧
      HashTable.getLoadFactor Sample.table100 ≠ some ((3 : Rat) / 100) := by
  have hlf : HashTable.getLoadFactor Sample.table100 =
      some (1080863910568919 / 36028797018963968) := by
    rw [← Double.round_three_hundredths]
    simp only [HashTable.getLoadFactor, Sample.table100]
    norm_num
  refine ⟨_, rfl, rfl, rfl, hlf, ?_⟩
  rw [hlf]
  intro h
  simp only [Option.some.injEq] at h
  norm_num at h

/-- C12 (amended): for every bucket count `m > 0` and every sequence of `e` records
with pairwise distinct non-negative keys inserted into a fresh `HashTable` of size
`m`, `size()` equals `e` and `getLoadFactor()` equals the `double` quotient `e / m`,
that is the binary64 value nearest to the rational `e / m`, independently of how
the keys distribute over buckets. -/
theorem C12_size_and_load_factor (m : Int) (hf : String) (rs : List Record)
    (hm : 0 < m) (hnd : (rs.map Record.matricula).Nodup)
    (hk : ∀ x ∈ rs, 0 ≤ x.matricula) :
    ∃ ht0 ht : HashTable, HashTable.init m hf = some ht0 ∧
      HashTable.insertAll ht0 rs = some ht ∧
      HashTable.size ht = rs.length ∧
      HashTable.getLoadFactor ht = some (Double.round ((rs.length : Rat) / (m : Rat))) := by
  obtain ⟨ht0, hinit, hinv0, -, hs0, hst0, -⟩ := HashTable.init_inv m hf hm
  obtain ⟨ht, hall, hinv, -, hs, hp⟩ := HashTable.ht_insertAll_perm rs ht0 hinv0 hk hnd
    (by intro x _; simp [hst0])
  rw [hst0, List.append_nil] at hp
  have hsize : ht.total_elements = rs.length := by rw [hinv.2.2, hp.length_eq]
  have hts : ht.table_size = m := hs.trans hs0
  refine ⟨ht0, ht, hinit, hall, hsize, ?_⟩
  rw [HashTable.getLoadFactor, if_neg (by rw [hts]; omega), hsize, hts]

/-- Witness for C12 (amended): the three sample records and 7 buckets. -/
theorem C12_size_and_load_factor_witness :
    (0 : Int) < 7 ∧ (Sample.records.map Record.matricula).Nodup ∧
    (∀ x ∈ Sample.records, 0 ≤ x.matricula) ∧
    ∃ ht0 ht : HashTable, HashTable.init 7 "folding" = some ht0 ∧
      HashTable.insertAll ht0 Sample.records = some ht ∧
      HashTable.size ht = Sample.records.length ∧
      HashTable.getLoadFactor ht =
        some (Double.round ((Sample.records.length : Rat) / ((7 : Int) : Rat))) := by
  have h1 : (0 : Int) < 7 := by decide
  have h2 : (Sample.records.map Record.matricula).Nodup := by decide
  have h3 : ∀ x ∈ Sample.records, 0 ≤ x.matricula := by decide
  exact ⟨h1, h2, h3, C12_size_and_load_factor 7 "folding" Sample.records h1 h2 h3⟩

namespace HashTable

theorem nonEmptyBuckets_foldl (table : List (List Record)) : ∀ a : Nat,
    table.foldl (fun non_empty_buckets bucket =>
      if bucket.isEmpty then non_empty_buckets else non_empty_buckets + 1) a =
    a + (table.filter (fun b => !b.isEmpty)).length := by
  induction table with
  | nil => intro a; rfl
  | cons b table ih =>
    intro a
    rw [List.foldl_cons, ih, List.filter_cons]
    cases hb : b.isEmpty
    · simp
      omega
    · simp

theorem nonEmptyBuckets_eq (ht : HashTable) :
    nonEmptyBuckets ht = (ht.table.filter (fun b => !b.isEmpty)).length := by
  rw [nonEmptyBuckets, nonEmptyBuckets_foldl, Nat.zero_add]

theorem maxChain_foldl (table : List (List Record)) : ∀ a : Nat,
    a ≤ table.foldl (fun max_length bucket => max max_length bucket.length) a ∧
    (∀ b ∈ table, b.length ≤
      table.foldl (fun max_length bucket => max max_length bucket.length) a) ∧
    (table.foldl (fun max_length bucket => max max_length bucket.length) a = a ∨
      ∃ b ∈ table,
        b.length = table.foldl (fun max_length bucket => max max_length bucket.length) a) := by
  induction table with
  | nil => intro a; exact ⟨le_rfl, by simp, Or.inl rfl⟩
  | cons c table ih =>
    intro a
    obtain ⟨h1, h2, h3⟩ := ih (max a c.length)
    rw [List.foldl_cons]
    refine ⟨le_trans (le_max_left _ _) h1, ?_, ?_⟩
    · intro b hb
      rcases List.mem_cons.1 hb with rfl | hb
      · exact le_trans (le_max_right _ _) h1
      · exact h2 b hb
    · rcases h3 with h3 | ⟨b, hb, hbl⟩
      · rcases le_total a c.length with hle | hle
        · right
          exact ⟨c, List.mem_cons_self _ _, by rw [h3, max_eq_right hle]⟩
        · left
          rw [h3, max_eq_left hle]
      · exact Or.inr ⟨b, List.mem_cons_of_mem _ hb, hbl⟩

end HashTable

/-- C13: for every `HashTable` state reached by inserts from a fresh table, the
element counter equals the sum of all bucket lengths; `getAverageChainLength()` is
the `double` quotient of that sum by the number of non-empty buckets and is 0 when
no bucket is occupied; `getMaxChainLength()` is the largest bucket length (0 for an
empty table); `getCollisionRate()` is the `double` quotient collisions / elements
and is 0 when there are no elements. -/
theorem C13_derived_statistics (m : Int) (hf : String) (rs : List Record)
    (ht0 ht : HashTable) (hinit : HashTable.init m hf = some ht0)
    (hall : HashTable.insertAll ht0 rs = some ht) :
    ht.total_elements = (ht.table.map List.length).sum ∧
    HashTable.getAverageChainLength ht =
      (if (ht.table.filter (fun b => !b.isEmpty)).length = 0 then 0
       else Double.round ((((ht.table.map List.length).sum : Nat) : Rat) /
              (((ht.table.filter (fun b => !b.isEmpty)).length : Nat) : Rat))) ∧
    (∀ b ∈ ht.table, b.length ≤ HashTable.getMaxChainLength ht) ∧
    (HashTable.getMaxChainLength ht = 0 ∨
      ∃ b ∈ ht.table, b.length = HashTable.getMaxChainLength ht) ∧
    ((ht.table.map List.length).sum = 0 → HashTable.getMaxChainLength ht = 0) ∧
    HashTable.getCollisionRate ht =
      (if (ht.table.map List.length).sum = 0 then 0
       else Double.round ((ht.collisions : Rat) /
              (((ht.table.map List.length).sum : Nat) : Rat))) := by
  obtain ⟨-, hcount, -, -, -, -, -⟩ :=
    HashTable.fresh_reachable_inv m hf rs ht0 ht hinit hall
  have hsum : ht.total_elements = (ht.table.map List.length).sum := by
    rw [hcount, HashTable.stored, List.length_flatten]
  obtain ⟨-, hmax1, hmax2⟩ := HashTable.maxChain_foldl ht.table 0
  refine ⟨hsum, ?_, hmax1, hmax2, ?_, ?_⟩
  · rw [HashTable.getAverageChainLength, HashTable.nonEmptyBuckets_eq, hsum]
  · intro hz
    rcases hmax2 with h | ⟨b, hb, hbl⟩
    · exact h
    · have hle : b.length ≤ (ht.table.map List.length).sum :=
        List.single_le_sum (by intro x _; exact Nat.zero_le x) _
          (List.mem_map_of_mem _ hb)
      rw [HashTable.getMaxChainLength, ← hbl]
      omega
  · rw [HashTable.getCollisionRate, hsum]

/-- Witness for C13: the table of 100 buckets after inserting keys 100, 200, 300. -/
theorem C13_derived_statistics_witness :
    (∃ h0 : HashTable, HashTable.init 100 "division" = some h0 ∧
      HashTable.insertAll h0 [Sample.r100, Sample.r200, Sample.r300] =
        some Sample.table100) ∧
    Sample.table100.total_elements = (Sample.table100.table.map List.length).sum ∧
    (∀ b ∈ Sample.table100.table, b.length ≤ HashTable.getMaxChainLength Sample.table100) := by
  have hinit : HashTable.init 100 "division" = some
      { table := List.replicate 100 [], hash_function_name := "division", collisions := 0,
        total_elements := 0, table_size := 100 } := rfl
  have hall : HashTable.insertAll
      { table := List.replicate 100 [], hash_function_name := "division", collisions := 0,
        total_elements := 0, table_size := 100 }
      [Sample.r100, Sample.r200, Sample.r300] = some Sample.table100 := rfl
  have c := C13_derived_statistics 100 "division" [Sample.r100, Sample.r200, Sample.r300]
    _ _ hinit hall
  exact ⟨⟨_, hinit, hall⟩, c.1, c.2.2.1⟩

/-- C14: in every `HashTable` state reached by inserts from a fresh table no bucket
holds two records with the same key, and inserting a record whose key is already
stored succeeds and leaves every bucket's contents (in particular the fields of the
stored record) and `size()` unchanged. -/
theorem C14_duplicate_insert_is_noop (m : Int) (hf : String) (rs : List Record)
    (ht0 ht : HashTable) (hinit : HashTable.init m hf = some ht0)
    (hall : HashTable.insertAll ht0 rs = some ht) :
    (∀ b ∈ ht.table, (b.map Record.matricula).Nodup) ∧
    (∀ record : Record, record.matricula ∈ (HashTable.stored ht).map Record.matricula →
      ∃ (ht1 : HashTable) (it : Nat), HashTable.insert ht record = some (ht1, it) ∧
        ht1.table = ht.table ∧ HashTable.size ht1 = HashTable.size ht) := by
  obtain ⟨hbh, -, hnd, -, -, -, -⟩ :=
    HashTable.fresh_reachable_inv m hf rs ht0 ht hinit hall
  refine ⟨?_, ?_⟩
  · intro b hb
    have hsub : List.Sublist b (HashTable.stored ht) := List.sublist_flatten_of_mem hb
    exact hnd.sublist (hsub.map _)
  · intro record hmem
    obtain ⟨x, hx, hxk⟩ := List.mem_map.1 hmem
    obtain ⟨i, b, hb, hxb⟩ := (HashTable.mem_stored_iff ht x).1 hx
    have hi : HashTable.hashFunction ht record.matricula = some (i : Int) := by
      rw [← hxk]; exact hbh i b hb x hxb
    obtain ⟨pre, y, post, hsplit, hyk, hpre⟩ :=
      exists_first_with_key record.matricula b ⟨x, hxb, hxk⟩
    rw [hsplit] at hb
    exact ⟨_, _, HashTable.insert_dup ht record i pre y post hi hb hpre hyk, rfl, rfl⟩

/-- Witness for C14: key 200 inserted again into the table holding 100, 200, 300. -/
theorem C14_duplicate_insert_is_noop_witness :
    (∃ h0 : HashTable, HashTable.init 100 "division" = some h0 ∧
      HashTable.insertAll h0 [Sample.r100, Sample.r200, Sample.r300] =
        some Sample.table100) ∧
    (200 : Int) ∈ (HashTable.stored Sample.table100).map Record.matricula ∧
    (∀ b ∈ Sample.table100.table, (b.map Record.matricula).Nodup) ∧
    (∃ (ht1 : HashTable) (it : Nat),
      HashTable.insert Sample.table100 (Record.mk 200 "OTHER" 9999.0 7) = some (ht1, it) ∧
      ht1.table = Sample.table100.table ∧
      HashTable.size ht1 = HashTable.size Sample.table100) := by
  have hinit : HashTable.init 100 "division" = some
      { table := List.replicate 100 [], hash_function_name := "division", collisions := 0,
        total_elements := 0, table_size := 100 } := rfl
  have hall : HashTable.insertAll
      { table := List.replicate 100 [], hash_function_name := "division", collisions := 0,
        total_elements := 0, table_size := 100 }
      [Sample.r100, Sample.r200, Sample.r300] = some Sample.table100 := rfl
  have hmem : (200 : Int) ∈ (HashTable.stored Sample.table100).map Record.matricula := by
    rw [List.mem_map]
    refine ⟨Sample.r200, ?_, rfl⟩
    rw [HashTable.mem_stored_iff]
    exact ⟨0, [Sample.r100, Sample.r200, Sample.r300], rfl, by simp⟩
  have c := C14_duplicate_insert_is_noop 100 "division"
    [Sample.r100, Sample.r200, Sample.r300] _ _ hinit hall
  exact ⟨⟨_, hinit, hall⟩, hmem, c.1, c.2 (Record.mk 200 "OTHER" 9999.0 7) hmem⟩

/-! ### Iteration counts of the tree operations -/

namespace BinarySearchTree
open BSTNode

theorem bst_search_count (t : BSTNode) (k : Int) : ∀ it : Nat,
    (searchRecursive t k it).2 = it + descentNodes t k := by
  induction t with
  | null => intro it; rfl
  | node rec l r ihl ihr =>
    intro it
    rw [searchRecursive, descentNodes]
    split_ifs
    · rfl
    · rw [ihl]; omega
    · rw [ihr]; omega

theorem bst_insert_count_absent (record : Record) (t : BSTNode) :
    record.matricula ∉ keys t → ∀ it : Nat,
      (insertRecursive t record it).2 = it + descentNodes t record.matricula + 1 := by
  induction t with
  | null => intro _ it; rfl
  | node rec l r ihl ihr =>
    intro hk it
    rw [bst_keys_node] at hk
    simp only [List.mem_append, List.mem_cons, not_or] at hk
    rw [insertRecursive, descentNodes, if_neg hk.2.1]
    split_ifs with h1 h2
    · simp only [ihl hk.1]; omega
    · simp only [ihr hk.2.2]; omega
    · have := hk.2.1
      omega

theorem bst_insert_count_present (record : Record) (t : BSTNode) :
    Ordered t → record.matricula ∈ keys t → ∀ it : Nat,
      (insertRecursive t record it).2 = it + descentNodes t record.matricula := by
  induction t with
  | null => intro _ hk; simp [keys, inorder] at hk
  | node rec l r ihl ihr =>
    intro ho hk it
    obtain ⟨hol, hor, hlt, hgt⟩ := ho
    rw [bst_keys_node] at hk
    simp only [List.mem_append, List.mem_cons] at hk
    rw [insertRecursive, descentNodes]
    rcases hk with hk | hk | hk
    · have h1 := hlt _ hk
      rw [if_pos h1, if_neg (ne_of_lt h1), if_pos h1]
      simp only [ihl hol hk]; omega
    · have h1 : ¬ record.matricula < rec.matricula := by omega
      have h2 : ¬ record.matricula > rec.matricula := by omega
      rw [if_neg h1, if_neg h2, if_pos hk]
    · have h1 := hgt _ hk
      have h2 : ¬ record.matricula < rec.matricula := by omega
      rw [if_neg h2, if_pos h1, if_neg (ne_of_gt h1), if_neg h2]
      simp only [ihr hor hk]; omega

/-- After inserting an absent key the descent for it visits one node more. -/
theorem bst_descent_after_insert (record : Record) (t : BSTNode) :
    record.matricula ∉ keys t → ∀ it : Nat,
      descentNodes (insertRecursive t record it).1 record.matricula =
        descentNodes t record.matricula + 1 := by
  induction t with
  | null => intro _ it; simp [insertRecursive, descentNodes]
  | node rec l r ihl ihr =>
    intro hk it
    rw [bst_keys_node] at hk
    simp only [List.mem_append, List.mem_cons, not_or] at hk
    rw [insertRecursive]
    split_ifs with h1 h2
    · simp only [descentNodes, if_neg hk.2.1, if_pos h1, ihl hk.1]; omega
    · simp only [descentNodes, if_neg hk.2.1, if_neg h1, ihr hk.2.2]; omega
    · have := hk.2.1
      omega

end BinarySearchTree

namespace AVLTree
open AVLNode

theorem avl_search_count (t : AVLNode) (k : Int) : ∀ it : Nat,
    (searchRecursive t k it).2 = it + descentNodes t k := by
  induction t with
  | null => intro it; rfl
  | node rec l r h ihl ihr =>
    intro it
    rw [searchRecursive, descentNodes]
    split_ifs
    · rfl
    · rw [ihl]; omega
    · rw [ihr]; omega

theorem rotateRight_count {z t : AVLNode} {it it1 : Nat}
    (h : rotateRight z it = some (t, it1)) :
    it1 = it + 1 ∧ ∀ it2 : Nat, rotateRight z it2 = some (t, it2 + 1) := by
  unfold rotateRight at h ⊢
  split at h
  · simp only [Option.some.injEq, Prod.mk.injEq] at h
    exact ⟨h.2.symm, fun it2 => by rw [← h.1]⟩
  · exact Option.noConfusion h

theorem rotateLeft_count {z t : AVLNode} {it it1 : Nat}
    (h : rotateLeft z it = some (t, it1)) :
    it1 = it + 1 ∧ ∀ it2 : Nat, rotateLeft z it2 = some (t, it2 + 1) := by
  unfold rotateLeft at h ⊢
  split at h
  · simp only [Option.some.injEq, Prod.mk.injEq] at h
    exact ⟨h.2.symm, fun it2 => by rw [← h.1]⟩
  · exact Option.noConfusion h

/-- The counter after lines 349-378 is the counter before plus the number of
rotations, and the resulting tree does not depend on the counter. -/
theorem rebalance_count {rec record : Record} {l r t : AVLNode} {it it1 : Nat}
    (h : rebalance rec l r record it = some (t, it1)) :
    it1 = it + rotationsOfRebalance rec l r record ∧
      ∀ it2 : Nat, rebalance rec l r record it2 =
        some (t, it2 + rotationsOfRebalance rec l r record) := by
  unfold rebalance at h ⊢
  unfold rotationsOfRebalance
  simp only at h ⊢
  split_ifs at h ⊢ with h1 h2
  · cases l with
    | null => exact Option.noConfusion h
    | node lrec ll lr lh =>
      simp only at h ⊢
      split_ifs at h ⊢ with h3 h4
      · exact rotateRight_count h
      · rcases hrl : rotateLeft (node lrec ll lr lh) it with _ | ⟨l1, it3⟩
        · rw [hrl] at h; exact Option.noConfusion h
        · rw [hrl] at h
          simp only at h
          obtain ⟨e1, f1⟩ := rotateLeft_count hrl
          obtain ⟨e2, f2⟩ := rotateRight_count h
          refine ⟨by omega, fun it2 => ?_⟩
          rw [f1 it2]
          simp only
          rw [f2 (it2 + 1)]
      · simp only [Option.some.injEq, Prod.mk.injEq] at h
        exact ⟨by omega, fun it2 => by rw [← h.1]; rfl⟩
  · cases r with
    | null => exact Option.noConfusion h
    | node rrec rl rr rh =>
      simp only at h ⊢
      split_ifs at h ⊢ with h3 h4
      · exact rotateLeft_count h
      · rcases hrr : rotateRight (node rrec rl rr rh) it with _ | ⟨r1, it3⟩
        · rw [hrr] at h; exact Option.noConfusion h
        · rw [hrr] at h
          simp only at h
          obtain ⟨e1, f1⟩ := rotateRight_count hrr
          obtain ⟨e2, f2⟩ := rotateLeft_count h
          refine ⟨by omega, fun it2 => ?_⟩
          rw [f1 it2]
          simp only
          rw [f2 (it2 + 1)]
      · simp only [Option.some.injEq, Prod.mk.injEq] at h
        exact ⟨by omega, fun it2 => by rw [← h.1]; rfl⟩
  · simp only [Option.some.injEq, Prod.mk.injEq] at h
    exact ⟨by omega, fun it2 => by rw [← h.1]; rfl⟩

/-- The tree built by `insertRecursive` does not depend on the counter, and the
counter only grows by an amount that does not depend on its start value. -/
theorem insertRecursive_shift (record : Record) (t : AVLNode) :
    ∀ (it : Nat) (t1 : AVLNode) (it1 : Nat), insertRecursive t record it = some (t1, it1) →
      it ≤ it1 ∧ ∀ it2 : Nat, insertRecursive t record it2 = some (t1, it2 + (it1 - it)) := by
  induction t with
  | null =>
    intro it t1 it1 h
    simp only [insertRecursive, Option.some.injEq, Prod.mk.injEq] at h
    refine ⟨by omega, fun it2 => ?_⟩
    rw [insertRecursive, ← h.1, ← h.2]
    congr 2
    omega
  | node rec l r hh ihl ihr =>
    intro it t1 it1 h
    rw [insertRecursive] at h
    split_ifs at h with h1 h2
    · rcases hl : insertRecursive l record (it + 1) with _ | ⟨l1, it3⟩
      · rw [hl] at h; exact Option.noConfusion h
      · rw [hl] at h
        simp only at h
        obtain ⟨e1, f1⟩ := ihl _ _ _ hl
        obtain ⟨e2, f2⟩ := rebalance_count h
        refine ⟨by omega, fun it2 => ?_⟩
        rw [insertRecursive, if_pos h1, f1 (it2 + 1)]
        simp only
        rw [f2]
        congr 2
        omega
    · rcases hr : insertRecursive r record (it + 1) with _ | ⟨r1, it3⟩
      · rw [hr] at h; exact Option.noConfusion h
      · rw [hr] at h
        simp only at h
        obtain ⟨e1, f1⟩ := ihr _ _ _ hr
        obtain ⟨e2, f2⟩ := rebalance_count h
        refine ⟨by omega, fun it2 => ?_⟩
        rw [insertRecursive, if_neg h1, if_pos h2, f1 (it2 + 1)]
        simp only
        rw [f2]
        congr 2
        omega
    · simp only [Option.some.injEq, Prod.mk.injEq] at h
      refine ⟨by omega, fun it2 => ?_⟩
      rw [insertRecursive, if_neg h1, if_neg h2, ← h.1, ← h.2]
      congr 2
      omega

end AVLTree

namespace AVLTree
open AVLNode

/-- For a key met on no node of the descent, the counter grows by the number of
nodes visited, one for the empty slot, and one per rotation. -/
theorem avl_insert_count_absent (record : Record) (t : AVLNode) :
    record.matricula ∉ keys t → ∀ (it : Nat) (t1 : AVLNode) (it1 : Nat),
      insertRecursive t record it = some (t1, it1) →
      it1 = it + descentNodes t record.matricula + 1 + rotationsOfInsert t record := by
  induction t with
  | null =>
    intro _ it t1 it1 h
    simp only [insertRecursive, Option.some.injEq, Prod.mk.injEq] at h
    simp only [descentNodes, rotationsOfInsert]
    omega
  | node rec l r hh ihl ihr =>
    intro hk it t1 it1 h
    rw [keys_node] at hk
    simp only [List.mem_append, List.mem_cons, not_or] at hk
    rw [insertRecursive] at h
    rw [descentNodes, if_neg hk.2.1, rotationsOfInsert]
    split_ifs at h ⊢ with h1 h2
    · rcases hl : insertRecursive l record (it + 1) with _ | ⟨l1, it3⟩
      · rw [hl] at h; exact Option.noConfusion h
      · rw [hl] at h
        simp only at h
        have e1 := ihl hk.1 _ _ _ hl
        obtain ⟨e2, -⟩ := rebalance_count h
        obtain ⟨-, f1⟩ := insertRecursive_shift record l _ _ _ hl
        rw [f1 0]
        simp only
        omega
    · rcases hr : insertRecursive r record (it + 1) with _ | ⟨r1, it3⟩
      · rw [hr] at h; exact Option.noConfusion h
      · rw [hr] at h
        simp only at h
        have e1 := ihr hk.2.2 _ _ _ hr
        obtain ⟨e2, -⟩ := rebalance_count h
        obtain ⟨-, f1⟩ := insertRecursive_shift record r _ _ _ hr
        rw [f1 0]
        simp only
        omega
    · have := hk.2.1
      omega

/-- Inserting a key that is present in a tree satisfying the AVL invariants gives
back the same tree, visits the nodes down to that key and rotates nothing. -/
theorem avl_insert_present (record : Record) (t : AVLNode) :
    Cached t → AVLNode.Balanced t → Ordered t → record.matricula ∈ keys t →
    ∀ it : Nat, insertRecursive t record it =
        some (t, it + descentNodes t record.matricula) ∧
      rotationsOfInsert t record = 0 := by
  induction t with
  | null => intro _ _ _ hk; simp [keys, inorder] at hk
  | node rec l r hh ihl ihr =>
    intro hc hb ho hk it
    have hhh : hh = _ := hc.2.2
    obtain ⟨hcl, hcr, -⟩ := hc
    rw [balanced_node] at hb
    obtain ⟨hbl, hbr, hlr, hrl⟩ := hb
    obtain ⟨hol, hor, hlt, hgt⟩ := ho
    have hgl := getHeight_eq hcl
    have hgr := getHeight_eq hcr
    have hreb : ∀ it2 : Nat, rebalance rec l r record it2 = some (node rec l r hh, it2) := by
      intro it2
      rw [rebalance_none rec record l r it2 (by omega) (by omega), hhh, hgl, hgr]
      congr 3
      omega
    have hrot : rotationsOfRebalance rec l r record = 0 := by
      have := (rebalance_count (hreb 0)).1
      omega
    rw [keys_node] at hk
    simp only [List.mem_append, List.mem_cons] at hk
    rw [insertRecursive, descentNodes, rotationsOfInsert]
    rcases hk with hk | hk | hk
    · have h1 := hlt _ hk
      obtain ⟨e1, e2⟩ := ihl hcl hbl hol hk (it + 1)
      have e0 := (ihl hcl hbl hol hk 0).1
      rw [if_pos h1, if_neg (ne_of_lt h1), if_pos h1, if_pos h1, e1, e0]
      simp only
      rw [hreb, e2, hrot]
      refine ⟨?_, rfl⟩
      congr 2
      omega
    · have h1 : ¬ record.matricula < rec.matricula := by omega
      have h2 : ¬ record.matricula > rec.matricula := by omega
      rw [if_neg h1, if_neg h2, if_pos hk, if_neg h1, if_neg h2]
      exact ⟨rfl, rfl⟩
    · have h1 := hgt _ hk
      have h2 : ¬ record.matricula < rec.matricula := by omega
      obtain ⟨e1, e2⟩ := ihr hcr hbr hor hk (it + 1)
      have e0 := (ihr hcr hbr hor hk 0).1
      rw [if_neg h2, if_pos h1, if_neg (ne_of_gt h1), if_neg h2, if_neg h2, if_pos h1, e1, e0]
      simp only
      rw [hreb, e2, hrot]
      refine ⟨?_, rfl⟩
      congr 2
      omega

end AVLTree

/-- C15: for every `BinarySearchTree` and every `AVLTree` built by inserts, inserting
a record whose key is already present leaves the tree unchanged (same shape, same
stored records, same cached heights, and for AVL no rotation performed) and returns
an iteration count equal to the number of nodes on the path from the root to the
node holding that key, inclusive (the path `search` follows to that node). -/
theorem C15_duplicate_tree_insert (rs : List Record) (record : Record) :
    (record.matricula ∈ BSTNode.keys (BinarySearchTree.insertAll BinarySearchTree.empty rs).root →
      ((BinarySearchTree.insertAll BinarySearchTree.empty rs).insert record).1.root =
          (BinarySearchTree.insertAll BinarySearchTree.empty rs).root ∧
        ((BinarySearchTree.insertAll BinarySearchTree.empty rs).insert record).2 =
          BSTNode.descentNodes (BinarySearchTree.insertAll BinarySearchTree.empty rs).root
            record.matricula ∧
        ∃ x : Record, x.matricula = record.matricula ∧
          (BinarySearchTree.insertAll BinarySearchTree.empty rs).search record.matricula =
            (some x, BSTNode.descentNodes
              (BinarySearchTree.insertAll BinarySearchTree.empty rs).root record.matricula)) ∧
    (∀ t : AVLTree, AVLTree.insertAll AVLTree.empty rs = some t →
      record.matricula ∈ AVLNode.keys t.root →
      (∃ t1 : AVLTree, t.insert record =
          some (t1, AVLNode.descentNodes t.root record.matricula) ∧ t1.root = t.root) ∧
        AVLTree.rotationsOfInsert t.root record = 0 ∧
        ∃ x : Record, x.matricula = record.matricula ∧
          t.search record.matricula =
            (some x, AVLNode.descentNodes t.root record.matricula)) := by
  refine ⟨?_, ?_⟩
  · intro hk
    obtain ⟨ho, -, -⟩ := BinarySearchTree.bst_insertAll_spec rs BinarySearchTree.empty trivial
    refine ⟨?_, ?_, ?_⟩
    · rcases BinarySearchTree.bst_insertRecursive_inorder record _ 0 ho with
        ⟨-, he⟩ | ⟨hn, -⟩
      · exact he
      · exact absurd hk hn
    · have := BinarySearchTree.bst_insert_count_present record _ ho hk 0
      rw [Nat.zero_add] at this
      exact this
    · obtain ⟨x, hx, hxk⟩ := BinarySearchTree.bst_mem_keys_iff.1 hk
      refine ⟨x, hxk, ?_⟩
      have h1 := BinarySearchTree.bst_search_found _ x ho hx 0
      have h2 := BinarySearchTree.bst_search_count
        (BinarySearchTree.insertAll BinarySearchTree.empty rs).root x.matricula 0
      rw [hxk] at h1 h2
      rw [Nat.zero_add] at h2
      exact Prod.ext h1 h2
  · intro t hall hk
    obtain ⟨t1, hall1, hc, hb, ho, -, -⟩ :=
      AVLTree.insertAll_spec rs AVLTree.empty trivial trivial trivial
    rw [hall] at hall1
    simp only [Option.some.injEq] at hall1
    subst hall1
    obtain ⟨hins, hrot⟩ := AVLTree.avl_insert_present record t.root hc hb ho hk 0
    refine ⟨⟨{ root := t.root, size_count := t.size_count + 1 }, ?_, rfl⟩, hrot, ?_⟩
    · rw [AVLTree.insert, hins, Nat.zero_add]
    · obtain ⟨x, hx, hxk⟩ := AVLTree.mem_keys_iff.1 hk
      refine ⟨x, hxk, ?_⟩
      have h1 := AVLTree.search_found _ x ho hx 0
      have h2 := AVLTree.avl_search_count t.root x.matricula 0
      rw [hxk] at h1 h2
      rw [Nat.zero_add] at h2
      exact Prod.ext h1 h2

/-- Witness for C15: the three sample records inserted, then a record with the
stored key 10. -/
theorem C15_duplicate_tree_insert_witness :
    (10 : Int) ∈
      BSTNode.keys (BinarySearchTree.insertAll BinarySearchTree.empty Sample.records).root ∧
    ((BinarySearchTree.insertAll BinarySearchTree.empty Sample.records).insert
        (Record.mk 10 "OTHER" 9999.0 7)).1.root =
      (BinarySearchTree.insertAll BinarySearchTree.empty Sample.records).root ∧
    (∃ t t1 : AVLTree, AVLTree.insertAll AVLTree.empty Sample.records = some t ∧
      (10 : Int) ∈ AVLNode.keys t.root ∧
      t.insert (Record.mk 10 "OTHER" 9999.0 7) =
        some (t1, AVLNode.descentNodes t.root 10) ∧ t1.root = t.root) := by
  have hb : (10 : Int) ∈
      BSTNode.keys (BinarySearchTree.insertAll BinarySearchTree.empty Sample.records).root := by
    decide
  obtain ⟨t, hall, -, -, -, -, hkeys⟩ :=
    AVLTree.insertAll_spec Sample.records AVLTree.empty trivial trivial trivial
  have ha : (10 : Int) ∈ AVLNode.keys t.root := by
    rw [hkeys]; right; decide
  have c := C15_duplicate_tree_insert Sample.records (Record.mk 10 "OTHER" 9999.0 7)
  obtain ⟨⟨t1, h1, h2⟩, -, -⟩ := c.2 t hall ha
  exact ⟨hb, (c.1 hb).1, t, t1, hall, ha, h1, h2⟩

/-- C16: for every `BinarySearchTree` `t` and key `k`, `search(k)` returns an
iteration count equal to the number of nodes visited on the descent; when `k` is
absent, `insert` of a record with key `k` returns that search count plus 1 (the
terminal empty slot is counted), which is also the count `search(k)` returns on the
tree after the insertion. -/
theorem C16_bst_search_and_insert_counts (t : BinarySearchTree) (k : Int) :
    (t.search k).2 = BSTNode.descentNodes t.root k ∧
    (∀ record : Record, record.matricula = k → k ∉ BSTNode.keys t.root →
      (t.insert record).2 = (t.search k).2 + 1 ∧
      ((t.insert record).1.search k).2 = (t.search k).2 + 1) := by
  have hs : (t.search k).2 = BSTNode.descentNodes t.root k := by
    rw [BinarySearchTree.search, BinarySearchTree.bst_search_count, Nat.zero_add]
  refine ⟨hs, ?_⟩
  intro record hrec hk
  subst hrec
  rw [hs]
  refine ⟨?_, ?_⟩
  · have := BinarySearchTree.bst_insert_count_absent record t.root hk 0
    rw [Nat.zero_add] at this
    exact this
  · rw [BinarySearchTree.search, BinarySearchTree.bst_search_count, Nat.zero_add]
    exact BinarySearchTree.bst_descent_after_insert record t.root hk 0

/-- Witness for C16: the tree of the three sample records and the absent key 25. -/
theorem C16_bst_search_and_insert_counts_witness :
    (25 : Int) ∉
      BSTNode.keys (BinarySearchTree.insertAll BinarySearchTree.empty Sample.records).root ∧
    ((BinarySearchTree.insertAll BinarySearchTree.empty Sample.records).insert
        (Record.mk 25 "NEW" 2000.0 1)).2 =
      ((BinarySearchTree.insertAll BinarySearchTree.empty Sample.records).search 25).2 + 1 ∧
    (((BinarySearchTree.insertAll BinarySearchTree.empty Sample.records).insert
        (Record.mk 25 "NEW" 2000.0 1)).1.search 25).2 =
      ((BinarySearchTree.insertAll BinarySearchTree.empty Sample.records).search 25).2 + 1 := by
  have hk : (25 : Int) ∉
      BSTNode.keys (BinarySearchTree.insertAll BinarySearchTree.empty Sample.records).root := by
    decide
  exact ⟨hk, (C16_bst_search_and_insert_counts
    (BinarySearchTree.insertAll BinarySearchTree.empty Sample.records) 25).2
    (Record.mk 25 "NEW" 2000.0 1) rfl hk⟩

/-- C17: for every `AVLTree` `t` built by inserts and every key `k` absent from
`t`, `insert` of a record with key `k` succeeds and returns `(d + 1) + r`, where `d`
is the count `search(k)` returns on `t` before the insertion (the number of nodes on
the descent path for `k`) and `r` is the number of `rotateLeft`/`rotateRight` calls
performed during that insertion; each rotation adds exactly 1. -/
theorem C17_avl_insert_count (rs : List Record) (record : Record) (t : AVLTree)
    (hall : AVLTree.insertAll AVLTree.empty rs = some t)
    (hk : record.matricula ∉ AVLNode.keys t.root) :
    (∃ t1 : AVLTree, t.insert record =
      some (t1, ((t.search record.matricula).2 + 1) +
        AVLTree.rotationsOfInsert t.root record)) ∧
    (t.search record.matricula).2 = AVLNode.descentNodes t.root record.matricula ∧
    (∀ (z z1 : AVLNode) (it it1 : Nat),
      AVLTree.rotateRight z it = some (z1, it1) → it1 = it + 1) ∧
    (∀ (z z1 : AVLNode) (it it1 : Nat),
      AVLTree.rotateLeft z it = some (z1, it1) → it1 = it + 1) := by
  obtain ⟨t0, hall0, hc, hb, ho, -, -⟩ :=
    AVLTree.insertAll_spec rs AVLTree.empty trivial trivial trivial
  rw [hall] at hall0
  simp only [Option.some.injEq] at hall0
  subst hall0
  have hs : (t.search record.matricula).2 = AVLNode.descentNodes t.root record.matricula := by
    rw [AVLTree.search, AVLTree.avl_search_count, Nat.zero_add]
  obtain ⟨r1, it1, hins, -⟩ := AVLTree.insertRecursive_spec record t.root hc hb 0
  have hcount := AVLTree.avl_insert_count_absent record t.root hk 0 r1 it1 hins
  refine ⟨⟨{ root := r1, size_count := t.size_count + 1 }, ?_⟩, hs,
    fun z z1 it it1 h => (AVLTree.rotateRight_count h).1,
    fun z z1 it it1 h => (AVLTree.rotateLeft_count h).1⟩
  rw [AVLTree.insert, hins, hs, hcount, Nat.zero_add]

/-- Witness for C17: the three sample records inserted, then the absent key 25. -/
theorem C17_avl_insert_count_witness :
    ∃ t : AVLTree, AVLTree.insertAll AVLTree.empty Sample.records = some t ∧
      (25 : Int) ∉ AVLNode.keys t.root ∧
      ∃ t1 : AVLTree, t.insert (Record.mk 25 "NEW" 2000.0 1) =
        some (t1, ((t.search 25).2 + 1) +
          AVLTree.rotationsOfInsert t.root (Record.mk 25 "NEW" 2000.0 1)) := by
  obtain ⟨t, hall, -, -, -, -, hkeys⟩ :=
    AVLTree.insertAll_spec Sample.records AVLTree.empty trivial trivial trivial
  have hk : (25 : Int) ∉ AVLNode.keys t.root := by
    rw [hkeys]
    simp only [AVLTree.empty, AVLNode.keys, AVLNode.inorder, List.map_nil, List.not_mem_nil,
      false_or]
    decide
  exact ⟨t, hall, hk,
    (C17_avl_insert_count Sample.records (Record.mk 25 "NEW" 2000.0 1) t hall hk).1⟩

/-! ### Degenerate insertion order of the binary search tree -/

namespace BinarySearchTree
open BSTNode

theorem heightRecursive_nonneg (t : BSTNode) : 0 ≤ heightRecursive t := by
  induction t with
  | null => exact le_rfl
  | node rec l r ihl ihr =>
    rw [heightRecursive]
    omega

/-- Inserting a key above all keys of a right-leaning chain extends the chain. -/
theorem chain_insert (record : Record) (t : BSTNode) :
    RightChain t → (∀ k ∈ keys t, k < record.matricula) → ∀ it : Nat,
      RightChain (insertRecursive t record it).1 ∧
      heightRecursive (insertRecursive t record it).1 = heightRecursive t + 1 ∧
      keys (insertRecursive t record it).1 = keys t ++ [record.matricula] := by
  induction t with
  | null =>
    intro _ _ it
    refine ⟨⟨rfl, trivial⟩, ?_, ?_⟩
    · simp [insertRecursive, heightRecursive]
    · simp [insertRecursive, keys, inorder]
  | node rec l r _ ihr =>
    intro hc hlt it
    obtain ⟨hl, hcr⟩ := hc
    subst hl
    have hrec : rec.matricula < record.matricula :=
      hlt _ (by rw [bst_keys_node]; simp)
    have hr : ∀ k ∈ keys r, k < record.matricula :=
      fun k hk => hlt k (by rw [bst_keys_node]; simp [hk])
    obtain ⟨h1, h2, h3⟩ := ihr hcr hr (it + 1)
    have hn : ¬ record.matricula < rec.matricula := by omega
    rw [insertRecursive, if_neg hn, if_pos hrec]
    refine ⟨⟨rfl, h1⟩, ?_, ?_⟩
    · simp only [heightRecursive, h2]
      have := heightRecursive_nonneg r
      omega
    · rw [bst_keys_node, bst_keys_node, h3]
      simp [keys, inorder]

theorem chain_insertAll (rs : List Record) : ∀ t : BinarySearchTree,
    RightChain t.root → (∀ k ∈ keys t.root, ∀ r ∈ rs, k < r.matricula) →
    (rs.map Record.matricula).Pairwise (· < ·) →
    RightChain (insertAll t rs).root ∧
      (insertAll t rs).height = t.height + rs.length := by
  induction rs with
  | nil => intro t hc _ _; exact ⟨hc, by simp [insertAll]⟩
  | cons r rs ih =>
    intro t hc hlt hp
    rw [List.map_cons, List.pairwise_cons] at hp
    obtain ⟨h1, h2, h3⟩ := chain_insert r t.root hc
      (fun k hk => hlt k hk r (List.mem_cons_self _ _)) 0
    have hlt1 : ∀ k ∈ keys (insert t r).1.root, ∀ x ∈ rs, k < x.matricula := by
      intro k hk x hx
      have hk' : k ∈ keys t.root ++ [r.matricula] := by rw [← h3]; exact hk
      rcases List.mem_append.1 hk' with hk' | hk'
      · exact hlt k hk' x (List.mem_cons_of_mem _ hx)
      · rw [List.mem_singleton.1 hk']
        exact hp.1 _ (List.mem_map_of_mem _ hx)
    obtain ⟨e1, e2⟩ := ih (insert t r).1 h1 hlt1 hp.2
    refine ⟨e1, ?_⟩
    rw [insertAll, e2, List.length_cons]
    have : (insert t r).1.height = t.height + 1 := h2
    rw [this]
    push_cast
    ring

end BinarySearchTree

/-- C18: for every `n ≥ 0` and every strictly ascending sequence of `n` keys
inserted into an empty `BinarySearchTree`, the result is a right-leaning chain
(every node has an empty left subtree) and `height()` returns `n`; `height()` of
the empty tree is 0 and of a single-node tree is 1. -/
theorem C18_bst_sorted_input_is_chain (rs : List Record)
    (hasc : (rs.map Record.matricula).Pairwise (· < ·)) :
    BSTNode.RightChain (BinarySearchTree.insertAll BinarySearchTree.empty rs).root ∧
    (BinarySearchTree.insertAll BinarySearchTree.empty rs).height = (rs.length : Int) ∧
    BinarySearchTree.empty.height = 0 ∧
    (∀ r : Record, (BinarySearchTree.empty.insert r).1.height = 1) := by
  obtain ⟨h1, h2⟩ := BinarySearchTree.chain_insertAll rs BinarySearchTree.empty trivial
    (by intro k hk; simp [BinarySearchTree.empty, BSTNode.keys, BSTNode.inorder] at hk) hasc
  refine ⟨h1, ?_, rfl, fun r => rfl⟩
  rw [h2]
  simp [BinarySearchTree.empty, BinarySearchTree.height, BinarySearchTree.heightRecursive]

/-- Witness for C18: the four records with the ascending keys 1000, ..., 1003. -/
theorem C18_bst_sorted_input_is_chain_witness :
    ((Sample.consecutive 4).map Record.matricula).Pairwise (· < ·) ∧
    BSTNode.RightChain
      (BinarySearchTree.insertAll BinarySearchTree.empty (Sample.consecutive 4)).root ∧
    (BinarySearchTree.insertAll BinarySearchTree.empty (Sample.consecutive 4)).height =
      ((Sample.consecutive 4).length : Int) := by
  have hasc : ((Sample.consecutive 4).map Record.matricula).Pairwise (· < ·) := by
    rw [Sample.consecutive, List.map_map, List.pairwise_map]
    refine (List.pairwise_lt_range 4).imp ?_
    intro a b hab
    simp only [Function.comp]
    omega
  obtain ⟨c1, c2, -, -⟩ := C18_bst_sorted_input_is_chain (Sample.consecutive 4) hasc
  exact ⟨hasc, c1, c2⟩

/-! ### The folding hash against its reference description -/

namespace HashTable
open FoldingReference

theorem toDigitsCore_eq (fuel : Nat) : ∀ (n : Nat) (acc : List Char), n < fuel →
    Nat.toDigitsCore 10 fuel n acc = (decimalDigits n).map Nat.digitChar ++ acc := by
  induction fuel with
  | zero => intro n acc h; omega
  | succ fuel ih =>
    intro n acc h
    rw [Nat.toDigitsCore]
    by_cases h0 : n / 10 = 0
    · rw [if_pos h0]
      have hn : n < 10 := by omega
      rcases Nat.eq_zero_or_pos n with rfl | hpos
      · simp [decimalDigits]
      · rw [decimalDigits, if_neg (by omega), Nat.digits_of_lt 10 n (by omega) hn,
          Nat.mod_eq_of_lt hn]
        rfl
    · rw [if_neg h0, ih (n / 10) _ (by omega)]
      have hpos : 0 < n := by omega
      rw [decimalDigits, if_neg h0, decimalDigits, if_neg (by omega),
        Nat.digits_def' (by decide) hpos]
      simp

theorem to_string_eq (n : Nat) :
    to_string (n : Int) = (decimalDigits n).map Nat.digitChar := by
  have h : ¬ ((n : Int) < 0) := by omega
  rw [to_string, if_neg h, Int.toNat_natCast, Nat.toDigits, toDigitsCore_eq _ _ _ (by omega),
    List.append_nil]

theorem decimalDigits_lt (n : Nat) : ∀ d ∈ decimalDigits n, d < 10 := by
  intro d hd
  rw [decimalDigits] at hd
  split_ifs at hd
  · simp only [List.mem_singleton] at hd; omega
  · exact Nat.digits_lt_base (by decide) (List.mem_reverse.1 hd)

theorem digitChar_toNat (d : Nat) (hd : d < 10) : (Nat.digitChar d).toNat - '0'.toNat = d := by
  interval_cases d <;> rfl

theorem foldl_digitChar (ds : List Nat) (hd : ∀ d ∈ ds, d < 10) : ∀ a : Nat,
    (ds.map Nat.digitChar).foldl (fun acc c => 10 * acc + (c.toNat - '0'.toNat)) a =
      ds.foldl (fun acc d => 10 * acc + d) a := by
  induction ds with
  | nil => intro a; rfl
  | cons d ds ih =>
    intro a
    rw [List.map_cons, List.foldl_cons, List.foldl_cons,
      digitChar_toNat d (hd d (List.mem_cons_self _ _)),
      ih (fun x hx => hd x (List.mem_cons_of_mem _ hx))]

/-- `std::stoi` on a non-empty chunk of decimal digit characters reads its value. -/
theorem stoi_digitChars (ds : List Nat) (hne : ds ≠ []) (hd : ∀ d ∈ ds, d < 10) :
    stoi (ds.map Nat.digitChar) = some ((chunkValue ds : Nat) : Int) := by
  have hall : ∀ c ∈ ds.map Nat.digitChar, c.isDigit = true := by
    intro c hc
    obtain ⟨d, hdm, rfl⟩ := List.mem_map.1 hc
    exact isDigit_digitChar d (hd d hdm)
  have hne' : ds.map Nat.digitChar ≠ [] := by simpa using hne
  have htw : (ds.map Nat.digitChar).takeWhile Char.isDigit = ds.map Nat.digitChar := by
    rw [List.takeWhile_eq_self_iff]; exact hall
  have hsd : stoiDigits (ds.map Nat.digitChar) = some (chunkValue ds) := by
    rw [stoiDigits]
    simp only [htw, if_neg hne', foldl_digitChar ds hd, chunkValue]
  unfold stoi
  split
  · rename_i rest heq
    have := hall '-' (by rw [heq]; exact List.mem_cons_self _ _)
    simp at this
  · rename_i rest heq
    have := hall '+' (by rw [heq]; exact List.mem_cons_self _ _)
    simp at this
  · simp [hsd]

theorem foldChunks_digitChars (n : Nat) : ∀ (ds : List Nat) (total : Int), ds.length ≤ n →
    (∀ d ∈ ds, d < 10) →
    foldChunks (ds.map Nat.digitChar) total =
      some (total + ((((chunksOfThree ds).map chunkValue).sum : Nat) : Int)) := by
  induction n using Nat.strong_induction_on with
  | _ n ih =>
    intro ds total hlen hd
    match ds, hlen, hd with
    | [], _, _ => simp [foldChunks, chunksOfThree]
    | [a], _, hd =>
      have h := stoi_digitChars [a] (by simp) hd
      simp only [List.map_cons, List.map_nil] at h
      simp [foldChunks, chunksOfThree, h]
    | [a, b], _, hd =>
      have h := stoi_digitChars [a, b] (by simp) hd
      simp only [List.map_cons, List.map_nil] at h
      simp [foldChunks, chunksOfThree, h]
    | a :: b :: c :: rest, hlen, hd =>
      have h := stoi_digitChars [a, b, c] (by simp) (by
        intro d hdm
        apply hd
        simp only [List.mem_cons, List.mem_singleton, List.not_mem_nil, or_false] at hdm
        simp only [List.mem_cons]
        tauto)
      simp only [List.map_cons, List.map_nil] at h
      have hlen1 : rest.length < n := by simp only [List.length_cons] at hlen; omega
      have hrec := ih rest.length hlen1 rest (total + ((chunkValue [a, b, c] : Nat) : Int))
        le_rfl (fun d hdm => hd d (by simp [hdm]))
      simp only [List.map_cons, foldChunks, h, hrec, chunksOfThree, List.sum_cons]
      congr 1
      push_cast
      ring

theorem hashFolding_eq_reference (n : Nat) (m : Int) (hm : 0 < m) :
    hashFolding (n : Int) m = some (foldingReference n m) := by
  rw [hashFolding, to_string_eq, foldChunks_digitChars _ _ 0 le_rfl (decimalDigits_lt n)]
  simp only [if_neg (ne_of_gt hm), zero_add]
  rw [Int.tmod_eq_emod (by omega) (le_of_lt hm), foldingReference]

theorem decimalDigits_nine (n : Nat) (h1 : 100000000 ≤ n) (h2 : n < 1000000000) :
    decimalDigits n =
      [n / 100000000 % 10, n / 10000000 % 10, n / 1000000 % 10, n / 100000 % 10,
        n / 10000 % 10, n / 1000 % 10, n / 100 % 10, n / 10 % 10, n % 10] := by
  have hb : (1 : Nat) < 10 := by decide
  rw [decimalDigits, if_neg (by omega),
    Nat.digits_def' hb (by omega : 0 < n),
    Nat.digits_def' hb (by omega : 0 < n / 10),
    Nat.digits_def' hb (by omega : 0 < n / 10 / 10),
    Nat.digits_def' hb (by omega : 0 < n / 10 / 10 / 10),
    Nat.digits_def' hb (by omega : 0 < n / 10 / 10 / 10 / 10),
    Nat.digits_def' hb (by omega : 0 < n / 10 / 10 / 10 / 10 / 10),
    Nat.digits_def' hb (by omega : 0 < n / 10 / 10 / 10 / 10 / 10 / 10),
    Nat.digits_def' hb (by omega : 0 < n / 10 / 10 / 10 / 10 / 10 / 10 / 10),
    Nat.digits_def' hb (by omega : 0 < n / 10 / 10 / 10 / 10 / 10 / 10 / 10 / 10),
    show n / 10 / 10 / 10 / 10 / 10 / 10 / 10 / 10 / 10 = 0 by omega, Nat.digits_zero]
  simp only [List.reverse_cons, List.reverse_nil, List.nil_append, List.cons_append]
  have e2 : n / 10 / 10 = n / 100 := by omega
  have e3 : n / 10 / 10 / 10 = n / 1000 := by omega
  have e4 : n / 10 / 10 / 10 / 10 = n / 10000 := by omega
  have e5 : n / 10 / 10 / 10 / 10 / 10 = n / 100000 := by omega
  have e6 : n / 10 / 10 / 10 / 10 / 10 / 10 = n / 1000000 := by omega
  have e7 : n / 10 / 10 / 10 / 10 / 10 / 10 / 10 = n / 10000000 := by omega
  have e8 : n / 10 / 10 / 10 / 10 / 10 / 10 / 10 / 10 = n / 100000000 := by omega
  rw [e8, e7, e6, e5, e4, e3, e2]

theorem foldingReference_nine (n : Nat) (m : Int) (h1 : 100000000 ≤ n)
    (h2 : n < 1000000000) :
    foldingReference n m =
      ((n / 1000000 + n / 1000 % 1000 + n % 1000 : Nat) : Int) % m := by
  rw [foldingReference, decimalDigits_nine n h1 h2]
  simp only [chunksOfThree, List.map_cons, List.map_nil, chunkValue, List.foldl_cons,
    List.foldl_nil, List.sum_cons, List.sum_nil]
  congr 2
  omega

end HashTable

/-- C19: for every non-negative key `k` and bucket count `m > 0`, `hashFolding(k)`
equals the reference: write `k` in decimal, split the digit string from the most
significant digit into consecutive chunks of 3 digits (the last chunk may have 1 or
2 digits), sum the chunks read as integers, and reduce modulo `m`. For a 9-digit
key this is `((k div 1000000) + ((k div 1000) mod 1000) + (k mod 1000)) mod m`, and
the result is in `[0, m)`. -/
theorem C19_hashFolding_reference (k m : Int) (hk : 0 ≤ k) (hm : 0 < m) :
    HashTable.hashFolding k m = some (FoldingReference.foldingReference k.toNat m) ∧
    (100000000 ≤ k → k < 1000000000 →
      HashTable.hashFolding k m =
        some ((k / 1000000 + k / 1000 % 1000 + k % 1000) % m)) ∧
    (0 ≤ FoldingReference.foldingReference k.toNat m ∧
      FoldingReference.foldingReference k.toNat m < m) := by
  obtain ⟨n, rfl⟩ : ∃ n : Nat, k = (n : Int) := ⟨k.toNat, by omega⟩
  have href := HashTable.hashFolding_eq_reference n m hm
  rw [Int.toNat_natCast]
  refine ⟨href, ?_, ?_⟩
  · intro h1 h2
    rw [href, HashTable.foldingReference_nine n m (by omega) (by omega)]
    congr 2
  · rw [FoldingReference.foldingReference]
    exact ⟨Int.emod_nonneg _ (by omega), Int.emod_lt_of_pos _ hm⟩

/-- Witness for C19: the 9-digit key 123456789 and 5000 buckets. -/
theorem C19_hashFolding_reference_witness :
    (0 : Int) ≤ 123456789 ∧ (0 : Int) < 5000 ∧ (100000000 : Int) ≤ 123456789 ∧
    (123456789 : Int) < 1000000000 ∧
    HashTable.hashFolding 123456789 5000 =
      some (FoldingReference.foldingReference (123456789 : Int).toNat 5000) ∧
    HashTable.hashFolding 123456789 5000 =
      some ((123456789 / 1000000 + 123456789 / 1000 % 1000 + 123456789 % 1000) % 5000) := by
  have c := C19_hashFolding_reference 123456789 5000 (by decide) (by decide)
  exact ⟨by decide, by decide, by decide, by decide, c.1, c.2.1 (by decide) (by decide)⟩

/-! ### Sampling without replacement -/

theorem sampleLoop_spec {α σ : Type} (g : Urbg σ)
    (hg : ∀ (s : σ) (b : Int), 0 ≤ b → 0 ≤ (g.draw s b).1 ∧ (g.draw s b).1 ≤ b)
    (input : List α) : ∀ (sample_size unsampled_sz : Int) (s : σ),
    0 ≤ sample_size → sample_size ≤ unsampled_sz → unsampled_sz = (input.length : Int) →
    ∃ (out : List α) (s1 : σ), sampleLoop g input sample_size unsampled_sz s = some (out, s1) ∧
      (out.length : Int) = sample_size ∧ List.Sublist out input := by
  induction input with
  | nil =>
    intro ss us s h0 hle hus
    have hz : ss = 0 := by simp only [List.length_nil] at hus; omega
    exact ⟨[], s, by rw [sampleLoop, if_pos hz], by simp [hz], List.Sublist.slnil⟩
  | cons x rest ih =>
    intro ss us s h0 hle hus
    simp only [List.length_cons] at hus
    rw [sampleLoop]
    by_cases hz : ss = 0
    · exact ⟨[], s, by rw [if_pos hz], by simp [hz], List.nil_sublist _⟩
    · have hus1 : ¬ us - 1 < 0 := by omega
      rw [if_neg hz, if_neg hus1]
      obtain ⟨hr0, hr1⟩ := hg s (us - 1) (by omega)
      by_cases hsel : (g.draw s (us - 1)).1 < ss
      · rw [if_pos hsel]
        obtain ⟨out, s1, hrec, hlen, hsub⟩ := ih (ss - 1) (us - 1) (g.draw s (us - 1)).2
          (by omega) (by omega) (by push_cast at hus; omega)
        refine ⟨x :: out, s1, by rw [hrec], ?_, hsub.cons₂ x⟩
        rw [List.length_cons]
        push_cast
        omega
      · rw [if_neg hsel]
        obtain ⟨out, s1, hrec, hlen, hsub⟩ := ih ss (us - 1) (g.draw s (us - 1)).2
          h0 (by omega) (by push_cast at hus; omega)
        exact ⟨out, s1, hrec, hlen, hsub.cons x⟩

/-- C20: for every input sequence of length `n`, every requested sample size
`k ≥ 0` and every generator whose draws lie in the range the code requests,
`sample_records` terminates without advancing past the end of the input, outputs
exactly `min(k, n)` elements, and the output consists of the input elements at
strictly increasing positions (it is a subsequence of the input, so no position is
selected twice and the sample never has more than `n` elements). With
`k = min(1000, n)` and `n ≥ 1` the sample is non-empty, so the runner's division by
the sample size is defined. -/
theorem C20_sample_records {α σ : Type} (g : Urbg σ) (input : List α) (k : Int) (s : σ)
    (hk : 0 ≤ k)
    (hg : ∀ (s : σ) (b : Int), 0 ≤ b → 0 ≤ (g.draw s b).1 ∧ (g.draw s b).1 ≤ b) :
    (∃ (out : List α) (s1 : σ), sample_records g input k s = some (out, s1) ∧
      (out.length : Int) = min k (input.length : Int) ∧ List.Sublist out input ∧
      out.length ≤ input.length) ∧
    (1 ≤ input.length →
      ∃ (out : List α) (s1 : σ),
        sample_records g input (min 1000 (input.length : Int)) s = some (out, s1) ∧
        out.length ≠ 0) := by
  have hlen0 : (0 : Int) ≤ (input.length : Int) := Int.natCast_nonneg _
  refine ⟨?_, ?_⟩
  · obtain ⟨out, s1, h, hlen, hsub⟩ := sampleLoop_spec g hg input
      (min k (input.length : Int)) (input.length : Int) s (le_min hk hlen0)
      (min_le_right _ _) rfl
    exact ⟨out, s1, h, hlen, hsub, hsub.length_le⟩
  · intro hn
    obtain ⟨out, s1, h, hlen, -⟩ := sampleLoop_spec g hg input
      (min (min 1000 (input.length : Int)) (input.length : Int)) (input.length : Int) s
      (le_min (le_min (by decide) hlen0) hlen0) (min_le_right _ _) rfl
    refine ⟨out, s1, h, ?_⟩
    intro hz
    rw [hz] at hlen
    have h1 : (1 : Int) ≤ (input.length : Int) := by exact_mod_cast hn
    have h2 : (1 : Int) ≤ min (min 1000 (input.length : Int)) (input.length : Int) :=
      le_min (le_min (by decide) h1) h1
    rw [← hlen] at h2
    simp at h2

/-- Witness for C20: a generator that always draws 0, the three sample records and
a requested sample of two. -/
theorem C20_sample_records_witness :
    (0 : Int) ≤ 2 ∧
    (∀ (s : Unit) (b : Int), 0 ≤ b →
      0 ≤ ((Urbg.mk (fun (u : Unit) (_ : Int) => ((0 : Int), u))).draw s b).1 ∧
      ((Urbg.mk (fun (u : Unit) (_ : Int) => ((0 : Int), u))).draw s b).1 ≤ b) ∧
    1 ≤ Sample.records.length ∧
    (∃ (out : List Record) (s1 : Unit),
      sample_records (Urbg.mk (fun (u : Unit) (_ : Int) => ((0 : Int), u)))
        Sample.records 2 () = some (out, s1) ∧
      (out.length : Int) = min 2 (Sample.records.length : Int) ∧
      List.Sublist out Sample.records ∧ out.length ≤ Sample.records.length) ∧
    (∃ (out : List Record) (s1 : Unit),
      sample_records (Urbg.mk (fun (u : Unit) (_ : Int) => ((0 : Int), u)))
        Sample.records (min 1000 (Sample.records.length : Int)) () = some (out, s1) ∧
      out.length ≠ 0) := by
  have h1 : (0 : Int) ≤ 2 := by decide
  have h2 : ∀ (s : Unit) (b : Int), 0 ≤ b →
      0 ≤ ((Urbg.mk (fun (u : Unit) (_ : Int) => ((0 : Int), u))).draw s b).1 ∧
      ((Urbg.mk (fun (u : Unit) (_ : Int) => ((0 : Int), u))).draw s b).1 ≤ b :=
    fun _ b hb => ⟨le_rfl, hb⟩
  have h3 : 1 ≤ Sample.records.length := by decide
  have c := C20_sample_records (Urbg.mk (fun (u : Unit) (_ : Int) => ((0 : Int), u)))
    Sample.records 2 () h1 h2
  exact ⟨h1, h2, h3, c.1, c.2 h3⟩

/-! ### Statistics of an experiment -/

namespace ExperimentResult

/-- The sum of the iteration counts of a list of rounds. -/
theorem sumIterations_eq (rounds : List PerformanceMetrics) :
    ∀ acc : Int, 0 ≤ acc → (∀ round ∈ rounds, 0 ≤ round.iterations) →
      acc + (rounds.map (fun round => round.iterations)).sum ≤ 9223372036854775807 →
      sumIterations rounds acc = some (acc + (rounds.map (fun round => round.iterations)).sum) := by
  induction rounds with
  | nil => intro acc _ _ _; simp [sumIterations]
  | cons round rest ih =>
      intro acc hacc hnn hsum
      have h0 : 0 ≤ round.iterations := hnn round (List.mem_cons_self _ _)
      have hrest : ∀ r ∈ rest, 0 ≤ r.iterations := fun r hr => hnn r (List.mem_cons_of_mem _ hr)
      have hs : 0 ≤ (rest.map (fun round => round.iterations)).sum :=
        List.sum_nonneg (by
          intro x hx
          obtain ⟨r, hr, rfl⟩ := List.mem_map.1 hx
          exact hrest r hr)
      simp only [List.map_cons, List.sum_cons] at hsum ⊢
      unfold sumIterations
      rw [if_pos ⟨by omega, by omega⟩, ih (acc + round.iterations) (by omega) hrest (by omega)]
      congr 1
      ring

/-- For a non-negative sum that fits a `long`, the unsigned division of line 571
is the floor quotient. -/
theorem divideBySize_eq (sum_iterations : Int) (size : Nat) (h0 : 0 ≤ sum_iterations)
    (h1 : sum_iterations ≤ 9223372036854775807) :
    divideBySize sum_iterations size = sum_iterations / (size : Int) := by
  unfold divideBySize
  have hmod : sum_iterations % 18446744073709551616 = sum_iterations :=
    Int.emod_eq_of_lt h0 (by omega)
  have hle : sum_iterations / (size : Int) ≤ sum_iterations :=
    Int.ediv_le_self _ h0
  simp only [hmod]
  rw [if_pos (by omega)]

end ExperimentResult

/-- C21: for a result with at least one round, non-negative iteration counts and
a total that fits the `long` accumulator, `getStatistics` returns statistics
whose iteration count is the floor of total / number of rounds (the quotient of
integer division: `n * q ≤ total < n * (q + 1)`, never rounded up); for a result
without rounds it returns the all-zero metrics. -/
theorem C21_getStatistics_iterations (er : ExperimentResult) :
    (er.rounds = [] → er.getStatistics = some PerformanceMetrics.zero) ∧
    (er.rounds ≠ [] → (∀ round ∈ er.rounds, 0 ≤ round.iterations) →
      (er.rounds.map (fun round => round.iterations)).sum ≤ 9223372036854775807 →
      ∃ stats, er.getStatistics = some stats ∧
        stats.iterations =
          ⌊(((er.rounds.map (fun round => round.iterations)).sum : Int) : Rat) /
            (er.rounds.length : Rat)⌋ ∧
        stats.iterations = (er.rounds.map (fun round => round.iterations)).sum /
          (er.rounds.length : Int) ∧
        (er.rounds.length : Int) * stats.iterations ≤
          (er.rounds.map (fun round => round.iterations)).sum ∧
        (er.rounds.map (fun round => round.iterations)).sum <
          (er.rounds.length : Int) * (stats.iterations + 1)) := by
  constructor
  · intro h
    simp [ExperimentResult.getStatistics, h]
  · intro hne hnn hsum
    have hlen : 0 < er.rounds.length := List.length_pos.2 hne
    have hlen' : (0 : Int) < (er.rounds.length : Int) := by exact_mod_cast hlen
    have hs : 0 ≤ (er.rounds.map (fun round => round.iterations)).sum :=
      List.sum_nonneg (by
        intro x hx
        obtain ⟨r, hr, rfl⟩ := List.mem_map.1 hx
        exact hnn r hr)
    have hsumIt := ExperimentResult.sumIterations_eq er.rounds 0 le_rfl hnn (by simpa using hsum)
    rw [zero_add] at hsumIt
    have hempty : er.rounds.isEmpty = false := by
      cases h : er.rounds with
      | nil => exact absurd h hne
      | cons a l => rfl
    have heval : er.getStatistics = some { PerformanceMetrics.zero with
        execution_time := Double.round
          (er.rounds.foldl (fun acc round => Double.round (acc + round.execution_time)) 0 /
            Double.round (er.rounds.length : Rat)),
        memory_usage_mb := Double.round
          (er.rounds.foldl (fun acc round => Double.round (acc + round.memory_usage_mb)) 0 /
            Double.round (er.rounds.length : Rat)),
        iterations := ExperimentResult.divideBySize
          (er.rounds.map (fun round => round.iterations)).sum er.rounds.length } := by
      unfold ExperimentResult.getStatistics
      rw [hempty]
      simp only [Bool.false_eq_true, if_false, hsumIt]
    refine ⟨_, heval, ?_, ?_, ?_, ?_⟩
    · show ExperimentResult.divideBySize _ _ = _
      rw [ExperimentResult.divideBySize_eq _ _ hs hsum]
      exact (Rat.floor_intCast_div_natCast _ _).symm
    · exact ExperimentResult.divideBySize_eq _ _ hs hsum
    · show _ * ExperimentResult.divideBySize _ _ ≤ _
      rw [ExperimentResult.divideBySize_eq _ _ hs hsum]
      exact Int.mul_ediv_self_le (ne_of_gt hlen')
    · show _ < _ * (ExperimentResult.divideBySize _ _ + 1)
      rw [ExperimentResult.divideBySize_eq _ _ hs hsum]
      rw [mul_add, mul_one]
      exact Int.lt_mul_ediv_self_add hlen'

/-- Witness for C21: three rounds with 7, 8 and 10 iterations; the reported mean
is 8, the floor of 25 / 3. -/
theorem C21_getStatistics_iterations_witness :
    Sample.searchResult.rounds ≠ [] ∧
    (∀ round ∈ Sample.searchResult.rounds, 0 ≤ round.iterations) ∧
    (Sample.searchResult.rounds.map (fun round => round.iterations)).sum = 25 ∧
    ∃ stats, Sample.searchResult.getStatistics = some stats ∧ stats.iterations = 8 := by
  have hne : Sample.searchResult.rounds ≠ [] := by simp [Sample.searchResult]
  have hnn : ∀ round ∈ Sample.searchResult.rounds, 0 ≤ round.iterations := by
    simp [Sample.searchResult]
  have hsum : (Sample.searchResult.rounds.map (fun round => round.iterations)).sum = 25 := by
    simp [Sample.searchResult]
  obtain ⟨stats, h1, _, h2, _⟩ :=
    (C21_getStatistics_iterations Sample.searchResult).2 hne hnn (by rw [hsum]; decide)
  refine ⟨hne, hnn, hsum, stats, h1, ?_⟩
  rw [h2, hsum]
  simp [Sample.searchResult]

/-! ### Column count of the exported tables -/

namespace Double

/-- Powers of two are representable: rounding keeps them. -/
theorem round_two_zpow (e : Int) : round ((2 : Rat) ^ e) = (2 : Rat) ^ e := by
  have hpos : (0 : Rat) < (2 : Rat) ^ e := zpow_pos (by norm_num) e
  rw [round_eval ((2 : Rat) ^ e) e (2 ^ 52) hpos le_rfl
    (zpow_lt_zpow_right₀ (by norm_num) (by omega))
    (by
      rw [← zpow_sub₀ (by norm_num)]
      have : e - (e - 52) = 52 := by omega
      rw [this]
      norm_num)]
  rw [show ((2 ^ 52 : Int) : Rat) = (2 : Rat) ^ (52 : Int) by norm_num,
    ← zpow_add₀ (by norm_num)]
  congr 1
  omega

end Double

namespace SaveResults

/-- Evaluation of `formatFixed` at a non-negative value whose scaled value is
within one half of a natural number. -/
theorem formatFixed_eval (precision : Nat) (x : Rat) (N : Nat) (hx : 0 ≤ x)
    (h : |x * (10 : Rat) ^ precision - (N : Rat)| < 1 / 2) :
    formatFixed precision x = formatDigits precision N := by
  unfold formatFixed
  rw [abs_of_nonneg hx, Double.roundHalfEven_eq_of_abs_lt _ (N : Int) (by exact_mod_cast h)]
  simp only [Int.toNat_ofNat]
  rw [if_neg (not_lt.2 hx)]

/-- The statistics of a result with the single round `⟨1/512, 1/8, n, ..⟩`. -/
theorem getStatistics_single (er : ExperimentResult) (round : PerformanceMetrics)
    (h : er.rounds = [round]) (ht : round.execution_time = 1 / 512)
    (hm : round.memory_usage_mb = 1 / 8) (h0 : 0 ≤ round.iterations)
    (h1 : round.iterations ≤ 9223372036854775807) :
    er.getStatistics = some ⟨1 / 512, 1 / 8, round.iterations, 0, 0, 0, 0, 0⟩ := by
  have r1 : Double.round (1 : Rat) = 1 := by simpa using Double.round_two_zpow 0
  have r2 : Double.round (1 / 512 : Rat) = 1 / 512 := by
    have := Double.round_two_zpow (-9)
    norm_num at this ⊢
    exact this
  have r3 : Double.round (1 / 8 : Rat) = 1 / 8 := by
    have := Double.round_two_zpow (-3)
    norm_num at this ⊢
    exact this
  unfold ExperimentResult.getStatistics
  rw [h]
  simp only [List.isEmpty_cons, Bool.false_eq_true, if_false, List.foldl_cons, List.foldl_nil,
    zero_add, ht, hm, r2, r3, List.length_singleton, Nat.cast_one, r1, div_one,
    ExperimentResult.sumIterations]
  rw [if_pos ⟨by omega, by omega⟩]
  simp only [ExperimentResult.divideBySize_eq _ 1 h0 h1, PerformanceMetrics.zero]
  simp

end SaveResults

/-- C22 as stated fails: the summary header has 14 fields and the detail
header 15, and hash-table rows match them, but the rows of the other structures
carry one comma too many. The BST result of 1000 insertions is written to the
summary as a row of 15 fields whose 13th field (header `balanced`) is blank, whose
14th field (header `tree_height`) holds the `balanced` value and whose tree height
is a 15th field without header; its detail row has 16 fields with the same shift,
and the linear-array rows have 15 and 16 fields. -/
theorem C22_tree_rows_have_extra_field :
    SaveResults.fieldCount SaveResults.summaryHeader = 14 ∧
    SaveResults.fieldCount SaveResults.detailHeader = 15 ∧
    (SaveResults.fields SaveResults.summaryHeader)[12]? = some "balanced" ∧
    (SaveResults.fields SaveResults.summaryHeader)[13]? = some "tree_height" ∧
    (SaveResults.fields SaveResults.detailHeader)[13]? = some "balanced" ∧
    (SaveResults.fields SaveResults.detailHeader)[14]? = some "tree_height" ∧
    (∃ row, SaveResults.summaryRow Sample.bstResult = some row ∧
      row = "BST,1000,insert,0.001953,0.125,12345,,,,,,,,false,17" ∧
      SaveResults.fieldCount row = 15 ∧
      (SaveResults.fields row)[12]? = some "" ∧
      (SaveResults.fields row)[13]? = some "false" ∧
      (SaveResults.fields row)[14]? = some "17") ∧
    (∃ row, SaveResults.detailRow Sample.bstResult 0 Sample.treeRound = some row ∧
      row = "BST,1000,insert,1,0.001953,0.125,12345,,,,,,,,false,17" ∧
      SaveResults.fieldCount row = 16 ∧
      (SaveResults.fields row)[13]? = some "" ∧
      (SaveResults.fields row)[14]? = some "false" ∧
      (SaveResults.fields row)[15]? = some "17") ∧
    (∃ row, SaveResults.summaryRow Sample.arrayResult = some row ∧
      row = "LinearArray,1000,insert,0.001953,0.125,12345,,,,,,,,," ∧
      SaveResults.fieldCount row = 15) ∧
    (∃ row, SaveResults.detailRow Sample.arrayResult 0 Sample.treeRound = some row ∧
      row = "LinearArray,1000,insert,1,0.001953,0.125,12345,,,,,,,,," ∧
      SaveResults.fieldCount row = 16) ∧
    (∃ row, SaveResults.summaryRow Sample.hashResult = some row ∧
      row = "HashTable,1000,insert,0.001953,0.125,1500,100,division,0.250,0.125,1.125,3,," ∧
      SaveResults.fieldCount row = 14) ∧
    (∃ row, SaveResults.detailRow Sample.hashResult 0 Sample.hashRound = some row ∧
      row = "HashTable,1000,insert,1,0.001953,0.125,1500,100,division,0.250,0.125,1.125,3,," ∧
      SaveResults.fieldCount row = 15) := by
  have f6 : SaveResults.formatFixed 6 (1 / 512) = "0.001953" := by
    rw [SaveResults.formatFixed_eval 6 (1 / 512) 1953 (by norm_num)
      (by rw [abs_lt]; constructor <;> norm_num)]
    decide
  have f3 : SaveResults.formatFixed 3 (1 / 8) = "0.125" := by
    rw [SaveResults.formatFixed_eval 3 (1 / 8) 125 (by norm_num)
      (by rw [abs_lt]; constructor <;> norm_num)]
    decide
  have f4 : SaveResults.formatFixed 3 (1 / 4) = "0.250" := by
    rw [SaveResults.formatFixed_eval 3 (1 / 4) 250 (by norm_num)
      (by rw [abs_lt]; constructor <;> norm_num)]
    decide
  have f98 : SaveResults.formatFixed 3 (9 / 8) = "1.125" := by
    rw [SaveResults.formatFixed_eval 3 (9 / 8) 1125 (by norm_num)
      (by rw [abs_lt]; constructor <;> norm_num)]
    decide
  have sb := SaveResults.getStatistics_single Sample.bstResult Sample.treeRound rfl rfl rfl
    (by decide) (by decide)
  have sa := SaveResults.getStatistics_single Sample.arrayResult Sample.treeRound rfl rfl rfl
    (by decide) (by decide)
  have sh := SaveResults.getStatistics_single Sample.hashResult Sample.hashRound rfl rfl rfl
    (by decide) (by decide)
  have hb : SaveResults.summaryTail Sample.bstResult = some ",,,,,,,false,17" := by decide
  have ha : SaveResults.summaryTail Sample.arrayResult = some ",,,,,,,," := by decide
  have hh : SaveResults.summaryTail Sample.hashResult
      = some "100,division,0.250,0.125,1.125,3,," := by
    simp only [SaveResults.summaryTail, Sample.hashResult, Sample.hashRound, f3, f4, f98]
    decide
  have db : SaveResults.detailTail Sample.bstResult Sample.treeRound
      = some ",,,,,,,false,17" := by decide
  have da : SaveResults.detailTail Sample.arrayResult Sample.treeRound
      = some ",,,,,,,," := by decide
  have dh : SaveResults.detailTail Sample.hashResult Sample.hashRound
      = some "100,division,0.250,0.125,1.125,3,," := by
    simp only [SaveResults.detailTail, Sample.hashResult, Sample.hashRound, f3, f4, f98]
    decide
  have rb : SaveResults.summaryRow Sample.bstResult
      = some "BST,1000,insert,0.001953,0.125,12345,,,,,,,,false,17" := by
    simp only [SaveResults.summaryRow, sb, hb, f6, f3]
    decide
  have ra : SaveResults.summaryRow Sample.arrayResult
      = some "LinearArray,1000,insert,0.001953,0.125,12345,,,,,,,,," := by
    simp only [SaveResults.summaryRow, sa, ha, f6, f3]
    decide
  have rh : SaveResults.summaryRow Sample.hashResult
      = some "HashTable,1000,insert,0.001953,0.125,1500,100,division,0.250,0.125,1.125,3,," := by
    simp only [SaveResults.summaryRow, sh, hh, f6, f3]
    decide
  have eb : SaveResults.detailRow Sample.bstResult 0 Sample.treeRound
      = some "BST,1000,insert,1,0.001953,0.125,12345,,,,,,,,false,17" := by
    unfold SaveResults.detailRow
    rw [db]
    simp only [Sample.treeRound, f6, f3]
    decide
  have ea : SaveResults.detailRow Sample.arrayResult 0 Sample.treeRound
      = some "LinearArray,1000,insert,1,0.001953,0.125,12345,,,,,,,,," := by
    unfold SaveResults.detailRow
    rw [da]
    simp only [Sample.treeRound, f6, f3]
    decide
  have eh : SaveResults.detailRow Sample.hashResult 0 Sample.hashRound
      = some "HashTable,1000,insert,1,0.001953,0.125,1500,100,division,0.250,0.125,1.125,3,," := by
    unfold SaveResults.detailRow
    rw [dh]
    simp only [Sample.hashRound, f6, f3]
    decide
  exact ⟨by decide, by decide, by decide, by decide, by decide, by decide,
    ⟨_, rb, rfl, by decide, by decide, by decide, by decide⟩,
    ⟨_, eb, rfl, by decide, by decide, by decide, by decide⟩,
    ⟨_, ra, rfl, by decide⟩, ⟨_, ea, rfl, by decide⟩,
    ⟨_, rh, rfl, by decide⟩, ⟨_, eh, rfl, by decide⟩⟩

/-! ### Construction with an invalid bucket count -/

namespace HashTable

/-- On a table constructed with zero buckets no hash function yields a usable
bucket: the index computation is undefined or the index is out of range. -/
theorem zero_buckets_no_bucket (hash_func : String) (key : Int) :
    ∀ index, hashFunction ⟨[], hash_func, 0, 0, 0⟩ key = some index →
      bucketAt ⟨[], hash_func, 0, 0, 0⟩ index = none := by
  intro index _
  unfold bucketAt
  split_ifs
  · rfl
  · simp

/-- Every insertion into a table constructed with zero buckets is undefined. -/
theorem zero_buckets_insert (hash_func : String) (record : Record) :
    insert ⟨[], hash_func, 0, 0, 0⟩ record = none := by
  unfold insert
  cases h : hashFunction ⟨[], hash_func, 0, 0, 0⟩ record.matricula with
  | none => rfl
  | some index => simp only [zero_buckets_no_bucket hash_func _ index h]

/-- Every search in a table constructed with zero buckets is undefined. -/
theorem zero_buckets_search (hash_func : String) (matricula : Int) :
    search ⟨[], hash_func, 0, 0, 0⟩ matricula = none := by
  unfold search
  cases h : hashFunction ⟨[], hash_func, 0, 0, 0⟩ matricula with
  | none => rfl
  | some index => simp only [zero_buckets_no_bucket hash_func _ index h]

end HashTable

/-- C23 as stated fails: the constructor accepts a bucket count of zero. It
yields a table object on which inserting a record and searching a key are
undefined (modulo by zero) and whose load factor is not a number. -/
theorem C23_zero_buckets_accepted_counterexample :
    ∃ ht, HashTable.init 0 "division" = some ht ∧
      HashTable.hashDivision Sample.r100.matricula ht.table_size = none ∧
      HashTable.insert ht Sample.r100 = none ∧
      HashTable.search ht 100 = none ∧
      HashTable.getLoadFactor ht = none :=
  ⟨⟨[], "division", 0, 0, 0⟩, rfl, rfl, HashTable.zero_buckets_insert _ _,
    HashTable.zero_buckets_search _ _, rfl⟩

/-- C23 (amended): only a negative bucket count makes the construction fail
(the vector allocation throws). A bucket count of zero is accepted for every
hash-function name and yields a table without buckets, on which every insert and
every search is undefined and the load factor is not a number. -/
theorem C23_invalid_bucket_count (size : Int) (hash_func : String) :
    (size < 0 → HashTable.init size hash_func = none) ∧
    (size = 0 → ∃ ht, HashTable.init size hash_func = some ht ∧ ht.table = [] ∧
      (∀ record, HashTable.insert ht record = none) ∧
      (∀ matricula, HashTable.search ht matricula = none) ∧
      HashTable.getLoadFactor ht = none) := by
  constructor
  · intro h
    unfold HashTable.init
    rw [if_pos h]
  · intro h
    subst h
    exact ⟨⟨[], hash_func, 0, 0, 0⟩, rfl, rfl, HashTable.zero_buckets_insert _,
      HashTable.zero_buckets_search _, rfl⟩

/-- Witness for C23 (amended): the bucket counts -1 and 0 with the multiplication
hash. -/
theorem C23_invalid_bucket_count_witness :
    ((-1 : Int) < 0 ∧ HashTable.init (-1) "multiplication" = none) ∧
    ((0 : Int) = 0 ∧ ∃ ht, HashTable.init 0 "multiplication" = some ht ∧ ht.table = [] ∧
      (∀ record, HashTable.insert ht record = none) ∧
      (∀ matricula, HashTable.search ht matricula = none) ∧
      HashTable.getLoadFactor ht = none) :=
  ⟨⟨by decide, (C23_invalid_bucket_count (-1) "multiplication").1 (by decide)⟩,
    ⟨rfl, (C23_invalid_bucket_count 0 "multiplication").2 rfl⟩⟩

/-! ### Cached heights -/

/-- C24: inserting any finite sequence of records into an empty `AVLTree`
succeeds and in the resulting tree the `height` field of every node equals
`1 + max (true height of the left subtree) (true height of the right subtree)`,
the empty subtree having height 0; hence `height()` returns the true recursive
height. A rotation applied to a node whose three moved subtrees have correct
fields recomputes the demoted node first and then the new subtree root, both to
their true heights. -/
theorem C24_cached_heights_are_true_heights (rs : List Record) :
    (∃ t : AVLTree, AVLTree.insertAll AVLTree.empty rs = some t ∧
      AVLNode.Cached t.root ∧ t.height = (AVLNode.trueHeight t.root : Int)) ∧
    (∀ (zrec yrec : Record) (yl yr zr : AVLNode) (yh zh : Int) (it : Nat),
      AVLNode.Cached yl → AVLNode.Cached yr → AVLNode.Cached zr →
      ∃ t, AVLTree.rotateRight (.node zrec (.node yrec yl yr yh) zr zh) it = some (t, it + 1) ∧
        t = .node yrec yl
          (.node zrec yr zr
            ((1 + max (AVLNode.trueHeight yr) (AVLNode.trueHeight zr) : Nat) : Int))
          ((1 + max (AVLNode.trueHeight yl)
            (1 + max (AVLNode.trueHeight yr) (AVLNode.trueHeight zr)) : Nat) : Int) ∧
        AVLNode.Cached t) ∧
    (∀ (zrec yrec : Record) (zl yl yr : AVLNode) (yh zh : Int) (it : Nat),
      AVLNode.Cached zl → AVLNode.Cached yl → AVLNode.Cached yr →
      ∃ t, AVLTree.rotateLeft (.node zrec zl (.node yrec yl yr yh) zh) it = some (t, it + 1) ∧
        t = .node yrec
          (.node zrec zl yl
            ((1 + max (AVLNode.trueHeight zl) (AVLNode.trueHeight yl) : Nat) : Int))
          yr
          ((1 + max (1 + max (AVLNode.trueHeight zl) (AVLNode.trueHeight yl))
            (AVLNode.trueHeight yr) : Nat) : Int) ∧
        AVLNode.Cached t) := by
  refine ⟨?_, ?_, ?_⟩
  · obtain ⟨t, h, hc, -⟩ := AVLTree.insertAll_spec rs AVLTree.empty trivial trivial trivial
    exact ⟨t, h, hc, AVLTree.getHeight_eq hc⟩
  · intro zrec yrec yl yr zr yh zh it hyl hyr hzr
    have e1 : (1 : Int) + max (AVLTree.getHeight yr) (AVLTree.getHeight zr) =
        ((1 + max (AVLNode.trueHeight yr) (AVLNode.trueHeight zr) : Nat) : Int) := by
      rw [AVLTree.getHeight_eq hyr, AVLTree.getHeight_eq hzr]; omega
    have e2 : (1 : Int) + max (AVLTree.getHeight yl)
        ((1 + max (AVLNode.trueHeight yr) (AVLNode.trueHeight zr) : Nat) : Int) =
        ((1 + max (AVLNode.trueHeight yl)
          (1 + max (AVLNode.trueHeight yr) (AVLNode.trueHeight zr)) : Nat) : Int) := by
      rw [AVLTree.getHeight_eq hyl]; omega
    refine ⟨_, rfl, ?_, ?_⟩
    · simp only [AVLTree.getHeight_node, e1, e2]
    · simp only [AVLTree.getHeight_node, e1, e2]
      exact ⟨hyl, ⟨hyr, hzr, rfl⟩, rfl⟩
  · intro zrec yrec zl yl yr yh zh it hzl hyl hyr
    have e1 : (1 : Int) + max (AVLTree.getHeight zl) (AVLTree.getHeight yl) =
        ((1 + max (AVLNode.trueHeight zl) (AVLNode.trueHeight yl) : Nat) : Int) := by
      rw [AVLTree.getHeight_eq hzl, AVLTree.getHeight_eq hyl]; omega
    have e2 : (1 : Int) + max
        ((1 + max (AVLNode.trueHeight zl) (AVLNode.trueHeight yl) : Nat) : Int)
        (AVLTree.getHeight yr) =
        ((1 + max (1 + max (AVLNode.trueHeight zl) (AVLNode.trueHeight yl))
          (AVLNode.trueHeight yr) : Nat) : Int) := by
      rw [AVLTree.getHeight_eq hyr]; omega
    refine ⟨_, rfl, ?_, ?_⟩
    · simp only [AVLTree.getHeight_node, e1, e2]
    · simp only [AVLTree.getHeight_node, e1, e2]
      exact ⟨⟨hzl, hyl, rfl⟩, hyr, rfl⟩

/-- Witness for C24: the sequence 30, 10, 20 (a double rotation) and rotations of
three-node chains with empty subtrees. -/
theorem C24_cached_heights_are_true_heights_witness :
    (∃ t : AVLTree, AVLTree.insertAll AVLTree.empty Sample.records = some t ∧
      AVLNode.Cached t.root ∧ t.height = (AVLNode.trueHeight t.root : Int)) ∧
    (AVLNode.Cached AVLNode.null ∧
      ∃ t, AVLTree.rotateRight
          (.node Sample.r30 (.node Sample.r20 (.node Sample.r10 .null .null 1) .null 2) .null 3)
          0 = some (t, 1) ∧
        AVLNode.Cached t ∧ AVLTree.getHeight t = 2) ∧
    (∃ t, AVLTree.rotateLeft
          (.node Sample.r10 .null (.node Sample.r20 .null (.node Sample.r30 .null .null 1) 2) 3)
          0 = some (t, 1) ∧
        AVLNode.Cached t ∧ AVLTree.getHeight t = 2) := by
  have h := C24_cached_heights_are_true_heights Sample.records
  have hc : AVLNode.Cached (.node Sample.r10 .null .null 1) := ⟨trivial, trivial, rfl⟩
  have hc3 : AVLNode.Cached (.node Sample.r30 .null .null 1) := ⟨trivial, trivial, rfl⟩
  refine ⟨h.1, ⟨trivial, ?_⟩, ?_⟩
  · obtain ⟨t, ht, he, hct⟩ :=
      h.2.1 Sample.r30 Sample.r20 (.node Sample.r10 .null .null 1) .null .null 2 3 0
        hc trivial trivial
    exact ⟨t, ht, hct, by rw [he]; rfl⟩
  · obtain ⟨t, ht, he, hct⟩ :=
      h.2.2 Sample.r10 Sample.r20 .null .null (.node Sample.r30 .null .null 1) 2 3 0
        trivial trivial hc3
    exact ⟨t, ht, hct, by rw [he]; rfl⟩

/-! ### Rotations -/

/-- C25: for every subtree `z` with a non-empty left child `y`, `rotateRight z`
returns a tree rooted at `y` (with `y`'s left subtree, and `z` as right child
over `y`'s former right subtree and `z`'s right subtree), with the in-order record
sequence of `z`, and one more iteration; symmetrically for `rotateLeft` with a
non-empty right child; `rotateLeft (rotateRight z)` and `rotateRight (rotateLeft z)`
have the shape and records of `z`. -/
theorem C25_rotations_preserve_inorder (zrec yrec : Record) (a b c : AVLNode)
    (yh zh : Int) (it : Nat) :
    (∃ t, AVLTree.rotateRight (.node zrec (.node yrec a b yh) c zh) it = some (t, it + 1) ∧
      AVLNode.shape t =
        BSTNode.node yrec (AVLNode.shape a)
          (BSTNode.node zrec (AVLNode.shape b) (AVLNode.shape c)) ∧
      AVLNode.inorder t = AVLNode.inorder (.node zrec (.node yrec a b yh) c zh) ∧
      ∃ t2, AVLTree.rotateLeft t (it + 1) = some (t2, it + 2) ∧
        AVLNode.shape t2 = AVLNode.shape (.node zrec (.node yrec a b yh) c zh)) ∧
    (∃ t, AVLTree.rotateLeft (.node zrec a (.node yrec b c yh) zh) it = some (t, it + 1) ∧
      AVLNode.shape t =
        BSTNode.node yrec (BSTNode.node zrec (AVLNode.shape a) (AVLNode.shape b))
          (AVLNode.shape c) ∧
      AVLNode.inorder t = AVLNode.inorder (.node zrec a (.node yrec b c yh) zh) ∧
      ∃ t2, AVLTree.rotateRight t (it + 1) = some (t2, it + 2) ∧
        AVLNode.shape t2 = AVLNode.shape (.node zrec a (.node yrec b c yh) zh)) := by
  refine ⟨⟨_, rfl, rfl, ?_, _, rfl, rfl⟩, ⟨_, rfl, rfl, ?_, _, rfl, rfl⟩⟩
  · simp [AVLNode.inorder]
  · simp [AVLNode.inorder]

/-! ### Rotations of one insertion -/

namespace AVLTree
open AVLNode

theorem rotationsOfRebalance_le (rec record : Record) (l r : AVLNode) :
    rotationsOfRebalance rec l r record ≤ 2 := by
  unfold rotationsOfRebalance
  simp only
  split_ifs with h1 h2
  · cases l with
    | null => simp
    | node lrec ll lr lh =>
      simp only
      split_ifs <;> omega
  · cases r with
    | null => simp
    | node rrec rl rr rh =>
      simp only
      split_ifs <;> omega
  · omega

theorem rotationsOfRebalance_zero (rec record : Record) (l r : AVLNode)
    (h1 : ¬ (getHeight l - getHeight r > 1)) (h2 : ¬ (getHeight l - getHeight r < -1)) :
    rotationsOfRebalance rec l r record = 0 := by
  simp only [rotationsOfRebalance, getBalance_node, h1, h2, if_false]

/-- One insertion rotates at no more than one node of the path, with at most two
rotations, and a rotation restores the height the subtree had before. -/
theorem insertRecursive_rotations (record : Record) (t : AVLNode) :
    Cached t → AVLNode.Balanced t → ∀ (it : Nat) (t1 : AVLNode) (it1 : Nat),
      insertRecursive t record it = some (t1, it1) →
      rebalancedNodes t record ≤ 1 ∧ rotationsOfInsert t record ≤ 2 ∧
      (rebalancedNodes t record = 0 ↔ rotationsOfInsert t record = 0) ∧
      (0 < rotationsOfInsert t record → trueHeight t1 = trueHeight t) := by
  induction t with
  | null =>
    intro _ _ it t1 it1 _
    simp [rebalancedNodes, rotationsOfInsert]
  | node rec l r hh ihl ihr =>
    intro hc hb it t1 it1 h
    obtain ⟨hcl, hcr, -⟩ := hc
    rw [balanced_node] at hb
    obtain ⟨hbl, hbr, hlr, hrl⟩ := hb
    have hgl := getHeight_eq hcl
    have hgr := getHeight_eq hcr
    rw [insertRecursive] at h
    split_ifs at h with h1 h2
    · obtain ⟨l1, it3, hl, hcl1, hbl1, hh1⟩ := insertRecursive_spec record l hcl hbl (it + 1)
      rw [hl] at h
      simp only at h
      have hl0 := (insertRecursive_shift record l _ _ _ hl).2 0
      obtain ⟨b1, b2, b3, b4⟩ := ihl hcl hbl _ _ _ hl
      have hgl1 := getHeight_eq hcl1
      rw [rebalancedNodes, rotationsOfInsert, if_pos h1, if_pos h1, hl0]
      simp only [trueHeight]
      have hle := rotationsOfRebalance_le rec record l1 r
      by_cases hrot : 0 < rotationsOfInsert l record
      · have e := b4 hrot
        have hz := rotationsOfRebalance_zero rec record l1 r (by omega) (by omega)
        rw [hz]
        rw [rebalance_none rec record l1 r it3 (by omega) (by omega)] at h
        simp only [Option.some.injEq, Prod.mk.injEq] at h
        refine ⟨by simpa using b1, by simpa using b2, by simpa using b3, fun _ => ?_⟩
        rw [← h.1]
        simp only [trueHeight]
        omega
      · have hr0 : rotationsOfInsert l record = 0 := by omega
        have hn0 : rebalancedNodes l record = 0 := b3.2 hr0
        rw [hr0, hn0]
        refine ⟨by split_ifs <;> omega, by omega, by split_ifs <;> simp_all, fun hpos => ?_⟩
        have hcase : (trueHeight l1 ≤ trueHeight r + 1 ∧ trueHeight r ≤ trueHeight l1 + 1) ∨
            (trueHeight l1 = trueHeight r + 2 ∧ Leaning l1 record.matricula) ∨
            (trueHeight r = trueHeight l1 + 2 ∧ Leaning r record.matricula) := by
          rcases hh1 with e | ⟨e, hn | hlean⟩
          · left; omega
          · left; subst hn; simp only [trueHeight] at e hlr hrl; omega
          · by_cases hx : trueHeight l = trueHeight r + 1
            · right; left; exact ⟨by omega, hlean⟩
            · left; omega
        obtain ⟨t2, it2, hre, -, -, hres⟩ :=
          rebalance_spec rec record l1 r it3 hcl1 hcr hbl1 hbr hcase
        rw [h] at hre
        simp only [Option.some.injEq, Prod.mk.injEq] at hre
        rcases hres with ⟨c1, c2, -⟩ | ⟨hrot2, hth⟩
        · have hz := rotationsOfRebalance_zero rec record l1 r (by omega) (by omega)
          omega
        · rw [hre.1, hth]
          rcases hh1 with e | ⟨e, _⟩ <;> omega
    · obtain ⟨r1, it3, hr, hcr1, hbr1, hh1⟩ := insertRecursive_spec record r hcr hbr (it + 1)
      rw [hr] at h
      simp only at h
      have hr0 := (insertRecursive_shift record r _ _ _ hr).2 0
      obtain ⟨b1, b2, b3, b4⟩ := ihr hcr hbr _ _ _ hr
      have hgr1 := getHeight_eq hcr1
      rw [rebalancedNodes, rotationsOfInsert, if_neg h1, if_pos h2, if_neg h1, if_pos h2, hr0]
      simp only [trueHeight]
      have hle := rotationsOfRebalance_le rec record l r1
      by_cases hrot : 0 < rotationsOfInsert r record
      · have e := b4 hrot
        have hz := rotationsOfRebalance_zero rec record l r1 (by omega) (by omega)
        rw [hz]
        rw [rebalance_none rec record l r1 it3 (by omega) (by omega)] at h
        simp only [Option.some.injEq, Prod.mk.injEq] at h
        refine ⟨by simpa using b1, by simpa using b2, by simpa using b3, fun _ => ?_⟩
        rw [← h.1]
        simp only [trueHeight]
        omega
      · have hr00 : rotationsOfInsert r record = 0 := by omega
        have hn0 : rebalancedNodes r record = 0 := b3.2 hr00
        rw [hr00, hn0]
        refine ⟨by split_ifs <;> omega, by omega, by split_ifs <;> simp_all, fun hpos => ?_⟩
        have hcase : (trueHeight l ≤ trueHeight r1 + 1 ∧ trueHeight r1 ≤ trueHeight l + 1) ∨
            (trueHeight l = trueHeight r1 + 2 ∧ Leaning l record.matricula) ∨
            (trueHeight r1 = trueHeight l + 2 ∧ Leaning r1 record.matricula) := by
          rcases hh1 with e | ⟨e, hn | hlean⟩
          · left; omega
          · left; subst hn; simp only [trueHeight] at e hlr hrl; omega
          · by_cases hx : trueHeight r = trueHeight l + 1
            · right; right; exact ⟨by omega, hlean⟩
            · left; omega
        obtain ⟨t2, it2, hre, -, -, hres⟩ :=
          rebalance_spec rec record l r1 it3 hcl hcr1 hbl hbr1 hcase
        rw [h] at hre
        simp only [Option.some.injEq, Prod.mk.injEq] at hre
        rcases hres with ⟨c1, c2, -⟩ | ⟨hrot2, hth⟩
        · have hz := rotationsOfRebalance_zero rec record l r1 (by omega) (by omega)
          omega
        · rw [hre.1, hth]
          rcases hh1 with e | ⟨e, _⟩ <;> omega
    · rw [rebalancedNodes, rotationsOfInsert, if_neg h1, if_neg h2, if_neg h1, if_neg h2]
      simp

end AVLTree

/-- C26: for every `AVLTree` built by inserts and every record, `insert` succeeds;
the insertion rotates at no more than one node of the insertion path, it performs
0, 1 or 2 rotations in total (none exactly when no node is rebalanced), the
returned count is the count without rotations plus that number, and `height()`
after the insert equals `height()` before or exceeds it by exactly one. -/
theorem C26_single_insert_rotations (rs : List Record) (record : Record) :
    ∃ (t t1 : AVLTree) (it : Nat), AVLTree.insertAll AVLTree.empty rs = some t ∧
      t.insert record = some (t1, it) ∧
      AVLTree.rebalancedNodes t.root record ≤ 1 ∧
      AVLTree.rotationsOfInsert t.root record ≤ 2 ∧
      (AVLTree.rebalancedNodes t.root record = 0 ↔
        AVLTree.rotationsOfInsert t.root record = 0) ∧
      it = AVLNode.descentNodes t.root record.matricula +
        (if record.matricula ∈ AVLNode.keys t.root then 0 else 1) +
        AVLTree.rotationsOfInsert t.root record ∧
      (t1.height = t.height ∨ t1.height = t.height + 1) := by
  obtain ⟨t, hall, hc, hb, ho, -, -⟩ :=
    AVLTree.insertAll_spec rs AVLTree.empty trivial trivial trivial
  obtain ⟨r1, it1, hins, hc1, -, hh⟩ := AVLTree.insertRecursive_spec record t.root hc hb 0
  obtain ⟨b1, b2, b3, -⟩ := AVLTree.insertRecursive_rotations record t.root hc hb 0 r1 it1 hins
  refine ⟨t, { root := r1, size_count := t.size_count + 1 }, it1, hall, ?_, b1, b2, b3, ?_, ?_⟩
  · rw [AVLTree.insert, hins]
  · by_cases hk : record.matricula ∈ AVLNode.keys t.root
    · obtain ⟨e1, e2⟩ := AVLTree.avl_insert_present record t.root hc hb ho hk 0
      rw [hins] at e1
      simp only [Option.some.injEq, Prod.mk.injEq] at e1
      rw [if_pos hk, e2, e1.2]
      omega
    · rw [if_neg hk, AVLTree.avl_insert_count_absent record t.root hk 0 r1 it1 hins]
      omega
  · show AVLTree.getHeight r1 = AVLTree.getHeight t.root ∨
      AVLTree.getHeight r1 = AVLTree.getHeight t.root + 1
    rw [AVLTree.getHeight_eq hc1, AVLTree.getHeight_eq hc]
    rcases hh with e | ⟨e, -⟩
    · left; rw [e]
    · right; rw [e]; push_cast; ring

/-! ### Collisions and occupied buckets -/

namespace HashTable

theorem nonEmpty_set (record : Record) : ∀ (table : List (List Record)) (i : Nat)
    (b : List Record), table[i]? = some b →
    ((table.set i (b ++ [record])).filter (fun b => !b.isEmpty)).length =
      (table.filter (fun b => !b.isEmpty)).length + (if b.isEmpty then 1 else 0) := by
  intro table
  induction table with
  | nil => intro i b h; simp at h
  | cons a rest ih =>
    intro i b h
    cases i with
    | zero =>
      simp only [List.getElem?_cons_zero, Option.some.injEq] at h
      subst h
      cases a with
      | nil => simp
      | cons x xs => simp
    | succ j =>
      simp only [List.getElem?_cons_succ] at h
      simp only [List.set_cons_succ, List.filter_cons]
      have := ih j b h
      split_ifs at this ⊢ <;> first | omega | (simp only [List.length_cons]; omega)

/-- Every `insert` call raises `collisions + (number of non-empty buckets)` by one. -/
theorem insert_collisions_nonEmpty (ht ht1 : HashTable) (record : Record) (it : Nat)
    (h : insert ht record = some (ht1, it)) :
    ht1.collisions + nonEmptyBuckets ht1 = ht.collisions + nonEmptyBuckets ht + 1 := by
  obtain ⟨i, b, -, hb, -, hcase⟩ := insert_some_cases ht record ht1 it h
  rw [nonEmptyBuckets_eq, nonEmptyBuckets_eq]
  rcases hcase with ⟨⟨x, hx, -⟩, rfl⟩ | ⟨-, rfl⟩
  · have hne : b.isEmpty = false := by
      cases b with
      | nil => simp at hx
      | cons y ys => rfl
    simp only [hne, Bool.false_eq_true, if_false]
    omega
  · simp only
    rw [nonEmpty_set record ht.table i b hb]
    split_ifs <;> omega

theorem insertAll_collisions_nonEmpty (rs : List Record) : ∀ (ht ht1 : HashTable),
    insertAll ht rs = some ht1 →
    ht1.collisions + nonEmptyBuckets ht1 = ht.collisions + nonEmptyBuckets ht + rs.length := by
  induction rs with
  | nil =>
    intro ht ht1 h
    simp only [insertAll, Option.some.injEq] at h
    subst h
    simp
  | cons r rs ih =>
    intro ht ht1 h
    rw [insertAll] at h
    rcases hins : insert ht r with _ | ⟨ht2, it⟩
    · rw [hins] at h; exact Option.noConfusion h
    · rw [hins] at h
      simp only at h
      rw [ih ht2 ht1 h, insert_collisions_nonEmpty ht ht2 r it hins, List.length_cons]
      omega

theorem nonEmptyBuckets_fresh (m : Int) (hf : String) (ht0 : HashTable)
    (h : init m hf = some ht0) : ht0.collisions = 0 ∧ nonEmptyBuckets ht0 = 0 := by
  obtain ⟨-, rfl⟩ := init_some m hf ht0 h
  refine ⟨rfl, ?_⟩
  rw [nonEmptyBuckets_eq]
  simp

theorem flatten_of_all_empty : ∀ table : List (List Record),
    (table.filter (fun b => !b.isEmpty)).length = 0 → table.flatten = [] := by
  intro table
  induction table with
  | nil => intro _; rfl
  | cons a rest ih =>
    intro h
    cases a with
    | nil =>
      simp only [List.filter_cons, List.isEmpty_nil, Bool.not_true, Bool.false_eq_true,
        if_false] at h
      simpa using ih h
    | cons x xs => simp at h

end HashTable

namespace Double

/-- A quotient `c / e` of naturals with `c < e < 2^54` rounds to a value below one. -/
theorem round_div_lt_one (c e : Nat) (hce : c < e) (he : e < 2 ^ 54) :
    round ((c : Rat) / (e : Rat)) < 1 := by
  have hepos : (0 : Rat) < (e : Rat) := by exact_mod_cast (by omega : 0 < e)
  rcases Nat.eq_zero_or_pos c with rfl | hc
  · simp [round_zero]
  · have hx : (0 : Rat) < (c : Rat) / (e : Rat) := div_pos (by exact_mod_cast hc) hepos
    have hx1 : (c : Rat) / (e : Rat) < (2 : Rat) ^ (0 : Int) := by
      rw [zpow_zero, div_lt_one hepos]
      exact_mod_cast hce
    have hlog : Int.log 2 ((c : Rat) / (e : Rat)) < 0 :=
      (Int.lt_zpow_iff_log_lt (by norm_num) hx).1 hx1
    have h1 := round_le _ hx
    have h2 : (2 : Rat) ^ (Int.log 2 ((c : Rat) / (e : Rat)) - 53) ≤ (2 : Rat) ^ (-54 : Int) :=
      zpow_le_zpow_right₀ (by norm_num) (by omega)
    have h3 : (c : Rat) / (e : Rat) ≤ 1 - 1 / (e : Rat) := by
      rw [div_le_iff₀ hepos, sub_mul, one_mul, one_div, inv_mul_cancel₀ (ne_of_gt hepos)]
      have : (c : Rat) + 1 ≤ (e : Rat) := by exact_mod_cast hce
      linarith
    have h4 : (2 : Rat) ^ (-54 : Int) < 1 / (e : Rat) := by
      rw [lt_div_iff₀ hepos]
      have : (e : Rat) < 2 ^ 54 := by exact_mod_cast he
      have h5 : (2 : Rat) ^ (-54 : Int) * 2 ^ 54 = 1 := by norm_num
      nlinarith [zpow_pos (by norm_num : (0 : Rat) < 2) (-54 : Int)]
    linarith

end Double

/-- C27: inserting records with pairwise distinct non-negative keys into a fresh
`HashTable` with `m > 0` buckets succeeds and afterwards
`collisions + (number of non-empty buckets) = size()`; for a non-empty sequence of
fewer than `2^31` records (the range of the `int` counters) the collision rate is
strictly below 1. For an arbitrary sequence the sum equals the number of `insert`
calls, so with a repeated key it exceeds `size()`: inserting key 100 twice gives
`collisions = 1`, one non-empty bucket, `size() = 1` and collision rate 1. -/
theorem C27_collisions_plus_nonempty_buckets (m : Int) (hf : String) (rs : List Record)
    (hm : 0 < m) (hnd : (rs.map Record.matricula).Nodup)
    (hk : ∀ x ∈ rs, 0 ≤ x.matricula) :
    (∃ ht0 ht : HashTable, HashTable.init m hf = some ht0 ∧
      HashTable.insertAll ht0 rs = some ht ∧
      ht.collisions + HashTable.nonEmptyBuckets ht = HashTable.size ht ∧
      (rs ≠ [] → rs.length < 2147483648 → HashTable.getCollisionRate ht < 1) ∧
      (∀ (calls : List Record) (ht2 : HashTable), HashTable.insertAll ht0 calls = some ht2 →
        ht2.collisions + HashTable.nonEmptyBuckets ht2 = calls.length)) ∧
    (∃ h0 h1 : HashTable, HashTable.init 100 "division" = some h0 ∧
      HashTable.insertAll h0 [Sample.r100, Sample.r100] = some h1 ∧
      h1.collisions = 1 ∧ HashTable.nonEmptyBuckets h1 = 1 ∧ HashTable.size h1 = 1 ∧
      HashTable.getCollisionRate h1 = 1) := by
  constructor
  · obtain ⟨ht0, hinit, hinv0, -, hs0, hst0, -⟩ := HashTable.init_inv m hf hm
    obtain ⟨ht, hall, hinv, -, hs, hp⟩ := HashTable.ht_insertAll_perm rs ht0 hinv0 hk hnd
      (by intro x _; simp [hst0])
    rw [hst0, List.append_nil] at hp
    have hsize : ht.total_elements = rs.length := by rw [hinv.2.2, hp.length_eq]
    obtain ⟨hc0, hn0⟩ := HashTable.nonEmptyBuckets_fresh m hf ht0 hinit
    have hgen : ∀ (calls : List Record) (ht2 : HashTable),
        HashTable.insertAll ht0 calls = some ht2 →
        ht2.collisions + HashTable.nonEmptyBuckets ht2 = calls.length := by
      intro calls ht2 h2
      rw [HashTable.insertAll_collisions_nonEmpty calls ht0 ht2 h2, hc0, hn0]
      omega
    have hsum : ht.collisions + HashTable.nonEmptyBuckets ht = ht.total_elements := by
      rw [hgen rs ht hall, hsize]
    refine ⟨ht0, ht, hinit, hall, hsum, ?_, hgen⟩
    intro hne hlen
    have hpos : 0 < rs.length := List.length_pos.2 hne
    have hnonEmpty : 0 < HashTable.nonEmptyBuckets ht := by
      by_contra hz
      have hz0 : HashTable.nonEmptyBuckets ht = 0 := by omega
      rw [HashTable.nonEmptyBuckets_eq] at hz0
      have hflat := HashTable.flatten_of_all_empty ht.table hz0
      have : ht.total_elements = 0 := by
        rw [hinv.2.2, HashTable.stored, hflat]
        rfl
      omega
    rw [HashTable.getCollisionRate, if_neg (by omega)]
    exact Double.round_div_lt_one _ _ (by omega) (by omega)
  · refine ⟨_, ⟨[Sample.r100] :: List.replicate 99 [], "division", 1, 1, 100⟩,
      rfl, rfl, rfl, rfl, rfl, ?_⟩
    have r1 : Double.round (1 : Rat) = 1 := by simpa using Double.round_two_zpow 0
    simp only [HashTable.getCollisionRate]
    norm_num [r1]

/-- Witness for C27: the three sample records and 7 buckets with the folding hash. -/
theorem C27_collisions_plus_nonempty_buckets_witness :
    (0 : Int) < 7 ∧ (Sample.records.map Record.matricula).Nodup ∧
    (∀ x ∈ Sample.records, 0 ≤ x.matricula) ∧ Sample.records ≠ [] ∧
    Sample.records.length < 2147483648 ∧
    ∃ ht0 ht : HashTable, HashTable.init 7 "folding" = some ht0 ∧
      HashTable.insertAll ht0 Sample.records = some ht ∧
      ht.collisions + HashTable.nonEmptyBuckets ht = HashTable.size ht ∧
      HashTable.getCollisionRate ht < 1 := by
  have h1 : (0 : Int) < 7 := by decide
  have h2 : (Sample.records.map Record.matricula).Nodup := by decide
  have h3 : ∀ x ∈ Sample.records, 0 ≤ x.matricula := by decide
  have h4 : Sample.records ≠ [] := by simp [Sample.records]
  have h5 : Sample.records.length < 2147483648 := by decide
  obtain ⟨ht0, ht, a, b, c, d, -⟩ :=
    (C27_collisions_plus_nonempty_buckets 7 "folding" Sample.records h1 h2 h3).1
  exact ⟨h1, h2, h3, h4, h5, ht0, ht, a, b, c, d h4 h5⟩

/-! ### The size counters -/

/-- A duplicate-free list with the same members as `l` is as long as `l` exactly
when `l` has no duplicates. -/
theorem length_eq_iff_nodup_of_mem_iff (ks l : List Int) (hnd : ks.Nodup)
    (hmem : ∀ k, k ∈ ks ↔ k ∈ l) : l.length = ks.length ↔ l.Nodup := by
  have hfin : ks.toFinset = l.toFinset := by
    ext k
    simp only [List.mem_toFinset]
    exact hmem k
  have hcard : l.dedup.length = ks.length := by
    rw [← List.card_toFinset, ← hfin, List.toFinset_card_of_nodup hnd]
  constructor
  · intro h
    have : l.dedup = l := (List.dedup_sublist l).eq_of_length (by omega)
    exact List.dedup_eq_self.1 this
  · intro h
    rw [← hcard, List.dedup_eq_self.2 h]

/-- C28: after any sequence of `insert` calls on a fresh `BinarySearchTree` or
`AVLTree`, `size()` is the number of calls made; it equals the number of nodes
(the length of the in-order traversal) exactly when the inserted keys are pairwise
distinct, and inserting the same key twice gives `size() = 2` with one node. For
a `HashTable` reached by inserts from a fresh table, `size()` is the number of
stored records. -/
theorem C28_size_counts_insert_calls (rs : List Record) :
    ((BinarySearchTree.insertAll BinarySearchTree.empty rs).size = rs.length ∧
      ((BinarySearchTree.insertAll BinarySearchTree.empty rs).size =
          (BSTNode.inorder (BinarySearchTree.insertAll BinarySearchTree.empty rs).root).length ↔
        (rs.map Record.matricula).Nodup)) ∧
    (∃ t : AVLTree, AVLTree.insertAll AVLTree.empty rs = some t ∧ t.size = rs.length ∧
      (t.size = (AVLNode.inorder t.root).length ↔ (rs.map Record.matricula).Nodup)) ∧
    ((BinarySearchTree.insertAll BinarySearchTree.empty [Sample.r30, Sample.r30]).size = 2 ∧
      (BSTNode.inorder
        (BinarySearchTree.insertAll BinarySearchTree.empty [Sample.r30, Sample.r30]).root).length
        = 1) ∧
    (∃ t : AVLTree, AVLTree.insertAll AVLTree.empty [Sample.r30, Sample.r30] = some t ∧
      t.size = 2 ∧ (AVLNode.inorder t.root).length = 1) ∧
    (∀ (m : Int) (hf : String) (ht0 ht : HashTable), HashTable.init m hf = some ht0 →
      HashTable.insertAll ht0 rs = some ht →
      HashTable.size ht = (HashTable.stored ht).length) := by
  refine ⟨?_, ?_, ⟨rfl, rfl⟩, ⟨_, rfl, rfl, rfl⟩, ?_⟩
  · obtain ⟨ho, hs, hk⟩ := BinarySearchTree.bst_insertAll_spec rs BinarySearchTree.empty trivial
    have hsize : (BinarySearchTree.insertAll BinarySearchTree.empty rs).size = rs.length := by
      rw [BinarySearchTree.size, hs]
      simp [BinarySearchTree.empty]
    refine ⟨hsize, ?_⟩
    rw [hsize]
    have hnd := ((BinarySearchTree.bst_ordered_iff_pairwise _).1 ho).imp (fun h => ne_of_lt h)
    have := length_eq_iff_nodup_of_mem_iff _ (rs.map Record.matricula) hnd (by
      intro k
      rw [hk k]
      simp [BinarySearchTree.empty, BSTNode.keys, BSTNode.inorder])
    rw [← this, BSTNode.keys, List.length_map, List.length_map]
  · obtain ⟨t, hall, -, -, ho, hs, hk⟩ :=
      AVLTree.insertAll_spec rs AVLTree.empty trivial trivial trivial
    have hsize : t.size = rs.length := by
      rw [AVLTree.size, hs]
      simp [AVLTree.empty]
    refine ⟨t, hall, hsize, ?_⟩
    rw [hsize]
    have hnd := ((AVLNode.ordered_iff_pairwise _).1 ho).imp (fun h => ne_of_lt h)
    have := length_eq_iff_nodup_of_mem_iff _ (rs.map Record.matricula) hnd (by
      intro k
      rw [hk k]
      simp [AVLTree.empty, AVLNode.keys, AVLNode.inorder])
    rw [← this, AVLNode.keys, List.length_map, List.length_map]
  · intro m hf ht0 ht hinit hall
    exact (HashTable.fresh_reachable_inv m hf rs ht0 ht hinit hall).2.1

/-- Witness for C28: the stored records of the table of 100 buckets after the keys
100, 200, 300. -/
theorem C28_size_counts_insert_calls_witness :
    (∃ h0 : HashTable, HashTable.init 100 "division" = some h0 ∧
      HashTable.insertAll h0 [Sample.r100, Sample.r200, Sample.r300] =
        some Sample.table100) ∧
    HashTable.size Sample.table100 = (HashTable.stored Sample.table100).length ∧
    HashTable.size Sample.table100 = 3 :=
  ⟨⟨_, rfl, rfl⟩,
    (C28_size_counts_insert_calls [Sample.r100, Sample.r200, Sample.r300]).2.2.2.2
      100 "division" _ Sample.table100 rfl rfl, rfl⟩

/-! ### The folding hash on 9-digit keys -/

namespace HashTable
open FoldingReference

/-- The chunk sum that `hashFolding` computes for a 9-digit key, before the
reduction modulo the bucket count. -/
theorem foldChunks_nine (n : Nat) (h1 : 100000000 ≤ n) (h2 : n < 1000000000) :
    foldChunks (to_string (n : Int)) 0 =
      some (((n / 1000000 + n / 1000 % 1000 + n % 1000 : Nat) : Int)) := by
  rw [to_string_eq, foldChunks_digitChars _ _ 0 le_rfl (decimalDigits_lt n),
    decimalDigits_nine n h1 h2]
  simp only [chunksOfThree, List.map_cons, List.map_nil, chunkValue, List.foldl_cons,
    List.foldl_nil, List.sum_cons, List.sum_nil, zero_add]
  congr 2
  omega

theorem length_flatten_le (M : Nat) : ∀ table : List (List Record),
    (∀ b ∈ table, b.length ≤ M) → table.flatten.length ≤ table.length * M := by
  intro table
  induction table with
  | nil => intro _; simp
  | cons a rest ih =>
    intro h
    have ha := h a (List.mem_cons_self _ _)
    have hr := ih (fun b hb => h b (List.mem_cons_of_mem _ hb))
    simp only [List.flatten_cons, List.length_append, List.length_cons]
    rw [Nat.add_mul, Nat.one_mul]
    omega

/-- In a table whose non-empty buckets all have an index in `[lo, hi)`, no more
than `hi - lo` buckets are non-empty and the stored records number no more than
`(hi - lo)` times the longest chain. -/
theorem occupied_range (table : List (List Record)) (lo hi M : Nat) (hlh : lo ≤ hi)
    (hempty : ∀ (i : Nat) (b : List Record), table[i]? = some b → (i < lo ∨ hi ≤ i) → b = [])
    (hM : ∀ b ∈ table, b.length ≤ M) :
    (table.filter (fun b => !b.isEmpty)).length ≤ hi - lo ∧
      table.flatten.length ≤ (hi - lo) * M := by
  have hsplit : table = table.take lo ++ ((table.drop lo).take (hi - lo) ++ table.drop hi) := by
    have h1 : table.drop hi = (table.drop lo).drop (hi - lo) := by
      rw [List.drop_drop]
      congr 1
      omega
    rw [h1, List.take_append_drop, List.take_append_drop]
  have hA : ∀ b ∈ table.take lo, b = [] := by
    intro b hb
    obtain ⟨i, hi1⟩ := List.mem_iff_getElem?.1 hb
    rw [List.getElem?_take] at hi1
    split_ifs at hi1 with hlt
    exact hempty i b hi1 (Or.inl hlt)
  have hC : ∀ b ∈ table.drop hi, b = [] := by
    intro b hb
    obtain ⟨i, hi1⟩ := List.mem_iff_getElem?.1 hb
    rw [List.getElem?_drop] at hi1
    exact hempty (hi + i) b hi1 (Or.inr (by omega))
  have hBlen : ((table.drop lo).take (hi - lo)).length ≤ hi - lo := by
    rw [List.length_take]
    exact Nat.min_le_left _ _
  have hBM : ∀ b ∈ (table.drop lo).take (hi - lo), b.length ≤ M := fun b hb =>
    hM b (List.mem_of_mem_drop (List.mem_of_mem_take hb))
  have hfA : (table.take lo).filter (fun b => !b.isEmpty) = [] := by
    rw [List.filter_eq_nil_iff]
    intro b hb
    rw [hA b hb]
    simp
  have hfC : (table.drop hi).filter (fun b => !b.isEmpty) = [] := by
    rw [List.filter_eq_nil_iff]
    intro b hb
    rw [hC b hb]
    simp
  constructor
  · rw [hsplit, List.filter_append, List.filter_append, hfA, hfC, List.nil_append,
      List.append_nil]
    exact le_trans (List.length_filter_le _ _) hBlen
  · rw [hsplit, List.flatten_append, List.flatten_append,
      List.flatten_eq_nil_iff.2 hA, List.flatten_eq_nil_iff.2 hC, List.nil_append,
      List.append_nil]
    exact le_trans (length_flatten_le M _ hBM) (Nat.mul_le_mul_right M hBlen)

end HashTable

/-- C29: for every key in `100000000..999999999` the chunk sum that `hashFolding`
computes before the modulo lies in `[100, 2997]` (both ends are attained), and
with 5000 buckets that sum is the returned index. Hence, after inserting records
with pairwise distinct keys of that range into a fresh folding table of 5000
buckets, every bucket outside the indices `100..2997` is empty, at most 2898
buckets are non-empty, and the maximum chain length is at least
`ceil(e / 2898)` for the `e` records inserted. -/
theorem C29_folding_nine_digit_keys (rs : List Record)
    (hnd : (rs.map Record.matricula).Nodup)
    (hrange : ∀ x ∈ rs, 100000000 ≤ x.matricula ∧ x.matricula ≤ 999999999) :
    (∀ k : Int, 100000000 ≤ k → k ≤ 999999999 →
      ∃ total : Int, HashTable.foldChunks (HashTable.to_string k) 0 = some total ∧
        100 ≤ total ∧ total ≤ 2997 ∧ HashTable.hashFolding k 5000 = some total) ∧
    HashTable.hashFolding 100000000 5000 = some 100 ∧
    HashTable.hashFolding 999999999 5000 = some 2997 ∧
    (∃ ht0 ht : HashTable, HashTable.init 5000 "folding" = some ht0 ∧
      HashTable.insertAll ht0 rs = some ht ∧
      (∀ (i : Nat) (b : List Record), ht.table[i]? = some b → (i < 100 ∨ 2997 < i) →
        b = []) ∧
      HashTable.nonEmptyBuckets ht ≤ 2898 ∧
      HashTable.size ht = rs.length ∧
      rs.length ≤ 2898 * HashTable.getMaxChainLength ht ∧
      ⌈(rs.length : Rat) / 2898⌉ ≤ (HashTable.getMaxChainLength ht : Int)) := by
  have hkey : ∀ k : Int, 100000000 ≤ k → k ≤ 999999999 →
      ∃ total : Int, HashTable.foldChunks (HashTable.to_string k) 0 = some total ∧
        100 ≤ total ∧ total ≤ 2997 ∧ HashTable.hashFolding k 5000 = some total := by
    intro k h1 h2
    obtain ⟨n, rfl⟩ : ∃ n : Nat, k = (n : Int) := ⟨k.toNat, by omega⟩
    have hf := HashTable.foldChunks_nine n (by omega) (by omega)
    have hlo : 100 ≤ n / 1000000 + n / 1000 % 1000 + n % 1000 := by omega
    have hhi : n / 1000000 + n / 1000 % 1000 + n % 1000 ≤ 2997 := by omega
    refine ⟨_, hf, by exact_mod_cast hlo, by exact_mod_cast hhi, ?_⟩
    rw [HashTable.hashFolding, hf]
    simp only [if_neg (by decide : ¬ ((5000 : Int) = 0))]
    rw [Int.tmod_eq_emod (by omega) (by decide), Int.emod_eq_of_lt (by omega) (by omega)]
  refine ⟨hkey, ?_, ?_, ?_⟩
  · obtain ⟨total, hf, -, -, hh⟩ := hkey 100000000 (by decide) (by decide)
    rw [hh]
    have := HashTable.foldChunks_nine 100000000 (by decide) (by decide)
    rw [show ((100000000 : Nat) : Int) = 100000000 by rfl, hf] at this
    rw [this]
    rfl
  · obtain ⟨total, hf, -, -, hh⟩ := hkey 999999999 (by decide) (by decide)
    rw [hh]
    have := HashTable.foldChunks_nine 999999999 (by decide) (by decide)
    rw [show ((999999999 : Nat) : Int) = 999999999 by rfl, hf] at this
    rw [this]
    rfl
  · have hk : ∀ x ∈ rs, 0 ≤ x.matricula := fun x hx => by have := (hrange x hx).1; omega
    obtain ⟨ht0, hinit, hinv0, hn0, hs0, hst0, -⟩ :=
      HashTable.init_inv 5000 "folding" (by decide)
    obtain ⟨ht, hall, hinv, hn, hs, hp⟩ := HashTable.ht_insertAll_perm rs ht0 hinv0 hk hnd
      (by intro x _; simp [hst0])
    rw [hst0, List.append_nil] at hp
    have hsize : ht.total_elements = rs.length := by rw [hinv.2.2, hp.length_eq]
    have hname : ht.hash_function_name = "folding" := hn.trans hn0
    have hts : ht.table_size = 5000 := hs.trans hs0
    have hempty : ∀ (i : Nat) (b : List Record), ht.table[i]? = some b →
        (i < 100 ∨ 2997 < i) → b = [] := by
      intro i b hb hi
      cases b with
      | nil => rfl
      | cons x xs =>
        exfalso
        have hx : x ∈ HashTable.stored ht :=
          (HashTable.mem_stored_iff ht x).2 ⟨i, _, hb, List.mem_cons_self _ _⟩
        have hxr : x ∈ rs := hp.mem_iff.1 hx
        obtain ⟨total, -, hlo, hhi, hh⟩ := hkey x.matricula (hrange x hxr).1 (hrange x hxr).2
        have hidx := hinv.2.1 i _ hb x (List.mem_cons_self _ _)
        rw [HashTable.hashFunction, hname, hts] at hidx
        simp only [if_neg (by decide : ¬ ("folding" = "division")),
          if_neg (by decide : ¬ ("folding" = "multiplication")), if_true] at hidx
        rw [hh] at hidx
        simp only [Option.some.injEq] at hidx
        omega
    have hM : ∀ b ∈ ht.table, b.length ≤ HashTable.getMaxChainLength ht :=
      (HashTable.maxChain_foldl ht.table 0).2.1
    obtain ⟨o1, o2⟩ := HashTable.occupied_range ht.table 100 2998
      (HashTable.getMaxChainLength ht) (by decide)
      (fun i b hb hi => hempty i b hb (by omega)) hM
    have hlen : rs.length ≤ 2898 * HashTable.getMaxChainLength ht := by
      rw [← hsize, hinv.2.2, HashTable.stored]
      exact o2
    refine ⟨ht0, ht, hinit, hall, hempty, ?_, hsize, hlen, ?_⟩
    · rw [HashTable.nonEmptyBuckets_eq]
      exact o1
    · rw [Int.ceil_le, div_le_iff₀ (by norm_num)]
      have : ((rs.length : Nat) : Rat) ≤ ((2898 * HashTable.getMaxChainLength ht : Nat) : Rat) := by
        exact_mod_cast hlen
      push_cast at this ⊢
      linarith

/-- Witness for C29: three records with 9-digit keys. -/
theorem C29_folding_nine_digit_keys_witness :
    (Sample.nineDigit.map Record.matricula).Nodup ∧
    (∀ x ∈ Sample.nineDigit, 100000000 ≤ x.matricula ∧ x.matricula ≤ 999999999) ∧
    (∃ total : Int, HashTable.foldChunks (HashTable.to_string 123456789) 0 = some total ∧
      100 ≤ total ∧ total ≤ 2997 ∧ HashTable.hashFolding 123456789 5000 = some total) ∧
    (∃ ht0 ht : HashTable, HashTable.init 5000 "folding" = some ht0 ∧
      HashTable.insertAll ht0 Sample.nineDigit = some ht ∧
      HashTable.nonEmptyBuckets ht ≤ 2898 ∧
      Sample.nineDigit.length ≤ 2898 * HashTable.getMaxChainLength ht) := by
  have h1 : (Sample.nineDigit.map Record.matricula).Nodup := by decide
  have h2 : ∀ x ∈ Sample.nineDigit, 100000000 ≤ x.matricula ∧ x.matricula ≤ 999999999 := by
    decide
  have c := C29_folding_nine_digit_keys Sample.nineDigit h1 h2
  obtain ⟨ht0, ht, a1, a2, -, a4, -, a6, -⟩ := c.2.2.2
  exact ⟨h1, h2, c.1 123456789 (by decide) (by decide), ht0, ht, a1, a2, a4, a6⟩
